import Mathlib

/-!
# arl: a shallow embedding of `src/main.c`

The interpreter of `src/main.c` is translated function by function.

* C strings are lists of characters (the bytes before the terminating NUL).
* `int` is `Int`, with `wrap32` applied wherever the C code computes a new `int`.
* `float` payloads are carried as an IEEE-754 bit pattern (`F32`); the float
  operations themselves (conversion, `+ - * /`, `fmod`, `atof`, `%g`) are not
  embedded and are taken as a parameter (`FloatOps`).
* The global parser cursor (`src_ptr`, `current_char`) is the record `Parser`,
  passed explicitly; the global table `variables` is a list of `Variable` (named `vars`).
* The mutually recursive parser can run forever in C, so it takes a fuel
  argument and returns `none` when the fuel runs out.
* Behaviour that C leaves undefined and the code can reach is made explicit as
  a `Fault`: a write past the end of a fixed `char` array, a read of such an
  array before anything was stored in it, the remainder `INT_MIN % -1`, and a
  read or a second release of a released heap block. A function that can reach
  one returns `Except Fault _`, and the run ends there.
* A `Value` carries the contents of its buffers, not their addresses, and the
  definitions on `Value` do not follow `malloc` and `free`. In C a String or a
  Table read back from a variable shares its buffers with the table entry, and
  whoever consumes it frees them. The evaluator and the runner are therefore
  embedded a second time, on values with their addresses (`Cell`, `Slot`) and
  with the heap (`Heap`, the definitions named `.._heap`); there a block that
  is read or freed after it was freed is `Fault.heap`. Without the addresses
  the second embedding is the first (`parser_heap_erase`,
  `execute_line_heap_erase`). Runs of concrete scripts whose values are numbers
  are stated on the first, the general statements about `execute_script` on the
  second. `stderr` is not part of the embedding.
-/

namespace Arl

/-! ## Constants and the value type -/

def MAX_LINE : Nat := 1024
def MAX_VARS : Nat := 256
def MAX_TABLE_ITEMS : Nat := 64
def MAX_BLOCK_DEPTH : Nat := 64

/-- A C string: the characters before its terminating NUL. -/
abbrev CStr := List Char

/-- A C `float`, carried as its IEEE-754 binary32 bit pattern. -/
structure F32 where
  bits : Nat
  deriving DecidableEq, Repr

/-- The float operations of the C run time that `main.c` uses. They are not
embedded: every definition that needs one takes them as a parameter. -/
structure FloatOps where
  /-- Conversion `(float)i`. -/
  ofInt : Int → F32
  add : F32 → F32 → F32
  sub : F32 → F32 → F32
  mul : F32 → F32 → F32
  div : F32 → F32 → F32
  /-- The call `fmod(a, b)` narrowed back to `float`. -/
  fmod : F32 → F32 → F32
  /-- The call `atof(buf)` narrowed to `float`. -/
  atof : CStr → F32
  /-- The text `printf("%g", f)` writes. -/
  fmt_g : F32 → CStr

/-- The comparison `f != 0.0`: true unless `f` is `+0.0` or `-0.0`. -/
def F32.nonzero (f : F32) : Bool := f.bits % 2 ^ 31 != 0

/-- The tagged union `Value` (`ValueType` together with the `as` payload). -/
inductive Value where
  | nil
  | bool (b : Bool)
  | int (i : Int)
  | float (f : F32)
  | str (s : CStr)
  | table (items : List Value)
  deriving Repr

/-- The tag `val.type`. -/
inductive ValueType where
  | VAL_NIL | VAL_BOOL | VAL_INT | VAL_FLOAT | VAL_STRING | VAL_TABLE
  deriving DecidableEq, Repr

def Value.type : Value → ValueType
  | .nil => .VAL_NIL
  | .bool _ => .VAL_BOOL
  | .int _ => .VAL_INT
  | .float _ => .VAL_FLOAT
  | .str _ => .VAL_STRING
  | .table _ => .VAL_TABLE

/-- Two's-complement wrap of a mathematical integer into the range of a 32-bit `int`. -/
def wrap32 (x : Int) : Int := (x + 2 ^ 31) % 2 ^ 32 - 2 ^ 31

/-- The ways in which the code leaves the behaviour that C defines. -/
inductive Fault where
  /-- A write past the end of a fixed-size `char` array. -/
  | overrun
  /-- A read of a `char` array in which nothing has been stored. -/
  | uninit
  /-- The remainder `INT_MIN % -1`: its quotient does not fit an `int`, and the
  division instruction of x86 raises SIGFPE. -/
  | sigfpe
  /-- A read or a second `free` of a heap block that has been passed to `free`. -/
  | heap
  deriving DecidableEq, Repr

deriving instance DecidableEq for Except

/-! ## Variables -/

structure Variable where
  name : CStr
  value : Value

/-- The loop of `set_variable`: overwrite the value of the first entry named
`name`; `none` when the loop ends without finding one. -/
def set_variable_loop : List Variable → CStr → Value → Option (List Variable)
  | [], _, _ => none
  | v :: vs, name, val =>
    if v.name = name then some ({ v with value := val } :: vs)
    else (set_variable_loop vs name val).map (fun vs1 => v :: vs1)

/-- `set_variable`, on the table `variables[0 .. var_count)`, here `vars`. A new name is
stored through `strncpy(.., name, 63)`. -/
def set_variable (vars : List Variable) (name : CStr) (val : Value) : List Variable :=
  match set_variable_loop vars name val with
  | some vs => vs
  | none =>
    if vars.length < MAX_VARS then vars ++ [{ name := name.take 63, value := val }]
    else vars

def get_variable : List Variable → CStr → Value
  | [], _ => Value.nil
  | v :: vs, name => if v.name = name then v.value else get_variable vs name

/-! ## Helper functions -/

def is_truthy : Value → Bool
  | .nil => false
  | .bool b => b
  | .int i => i != 0
  | .float f => f.nonzero
  | .str s => s.length > 0
  | .table items => items.length > 0

/-- The text `printf("%d", i)` writes. -/
def fmt_d (i : Int) : CStr :=
  if i < 0 then '-' :: Nat.toDigits 10 i.natAbs else Nat.toDigits 10 i.natAbs

/-- `value_to_string(val, buf, buf_size)`: the string left in `buf`. Both
`strncpy(buf, .., buf_size - 1)` and `snprintf(buf, buf_size, ..)` keep at most
`buf_size - 1` characters. -/
def value_to_string (ops : FloatOps) (val : Value) (buf_size : Nat) : CStr :=
  match val with
  | .str s => s.take (buf_size - 1)
  | .int i => (fmt_d i).take (buf_size - 1)
  | .float f => (ops.fmt_g f).take (buf_size - 1)
  | .bool b => (if b then "true".toList else "false".toList).take (buf_size - 1)
  | .nil => "nil".toList.take (buf_size - 1)
  | .table _ => "[table]".toList.take (buf_size - 1)

/-! ## Parser -/

/-- The parser's two globals. `src_ptr` is the input that is still unread. -/
structure Parser where
  current_char : Char
  src_ptr : CStr
  deriving DecidableEq, Repr

/-- The character `*src_ptr`. -/
def Parser.peek (p : Parser) : Char := p.src_ptr.headD '\x00'

def next_char (p : Parser) : Parser :=
  match p.src_ptr with
  | c :: cs => if c = '\x00' then { p with current_char := '\x00' } else { current_char := c, src_ptr := cs }
  | [] => { p with current_char := '\x00' }

def isdigit (c : Char) : Bool := 48 ≤ c.toNat && c.toNat ≤ 57

def isalpha (c : Char) : Bool :=
  (65 ≤ c.toNat && c.toNat ≤ 90) || (97 ≤ c.toNat && c.toNat ≤ 122)

def isalnum (c : Char) : Bool := isalpha c || isdigit c

def isspace (c : Char) : Bool :=
  c = ' ' || c = '\t' || c = '\n' || c = '\x0b' || c = '\x0c' || c = '\r'

/-- The loop of `skip_whitespace`, run for at most `n` iterations. -/
def skip_whitespace_loop : Nat → Parser → Parser
  | 0, p => p
  | n + 1, p =>
    if p.current_char = ' ' ∨ p.current_char = '\t' then skip_whitespace_loop n (next_char p)
    else p

/-- `skip_whitespace`. Every iteration but the last consumes a character of the
input, so `src_ptr.length + 1` iterations are enough. -/
def skip_whitespace (p : Parser) : Parser := skip_whitespace_loop (p.src_ptr.length + 1) p

/-- The loop of `parse_string`; `buf` holds `buf[0 .. i)`. -/
def parse_string_loop : Nat → Parser → CStr → Parser × CStr
  | 0, p, buf => (p, buf)
  | n + 1, p, buf =>
    if p.current_char ≠ '\x00' ∧ p.current_char ≠ '"' ∧ buf.length < MAX_LINE - 1 then
      parse_string_loop n (next_char p) (buf ++ [p.current_char])
    else (p, buf)

def parse_string (p : Parser) : Value × Parser :=
  let r := parse_string_loop (p.src_ptr.length + 1) p []
  (Value.str r.2, if r.1.current_char = '"' then next_char r.1 else r.1)

/-- The decimal value of a run of digits, continuing from `acc`; stops at the
first character that is not a digit. -/
def atoi_digits (acc : Nat) : CStr → Nat
  | [] => acc
  | c :: cs => if isdigit c then atoi_digits (acc * 10 + (c.toNat - 48)) cs else acc

/-- The value `strtol` returns for digits that denote `x`: `x` itself, or the
nearest bound of the 64-bit `long` when `x` lies outside its range. -/
def strtol_clamp (x : Int) : Int := max (-2 ^ 63) (min x (2 ^ 63 - 1))

/-- `atoi`: leading white space, an optional sign, then digits. As in glibc it
is `strtol` narrowed to `int`: the value is cut to the range of `long` and then
wrapped to 32 bits. -/
def atoi (s : CStr) : Int :=
  match s.dropWhile isspace with
  | '-' :: cs => wrap32 (strtol_clamp (-(atoi_digits 0 cs : Int)))
  | '+' :: cs => wrap32 (strtol_clamp (atoi_digits 0 cs))
  | cs => wrap32 (strtol_clamp (atoi_digits 0 cs))

/-- The loop of `parse_number`; `buf` holds `buf[0 .. i)`. -/
def parse_number_loop : Nat → Parser → CStr → Parser × CStr
  | 0, p, buf => (p, buf)
  | n + 1, p, buf =>
    if (isdigit p.current_char ∨ p.current_char = '.' ∨ (buf.length = 0 ∧ p.current_char = '-'))
        ∧ buf.length < 127 then
      parse_number_loop n (next_char p) (buf ++ [p.current_char])
    else (p, buf)

def parse_number (ops : FloatOps) (p : Parser) : Value × Parser :=
  let r := parse_number_loop (p.src_ptr.length + 1) p []
  if '.' ∈ r.2 then (Value.float (ops.atof r.2), r.1) else (Value.int (atoi r.2), r.1)

/-- The identifier loop of `parse_primary`; `name` holds the characters read
so far. The loop has no bound; `parse_primary` checks the result against the 64
bytes of the C array. -/
def parse_name_loop : Nat → Parser → CStr → Parser × CStr
  | 0, p, name => (p, name)
  | n + 1, p, name =>
    if isalnum p.current_char ∨ p.current_char = '_' then
      parse_name_loop n (next_char p) (name ++ [p.current_char])
    else (p, name)

def get_precedence (op : Char) : Int :=
  if op = '*' ∨ op = '/' ∨ op = '%' then 2
  else if op = '+' ∨ op = '-' then 1
  else 0

/-- The integer `switch` of `parse_math_operator`. Sum, difference and product
wrap around. The guard of `%` tests the divisor for 0 only: `INT_MIN % -1`
reaches the division and is `Fault.sigfpe`. For another operator `result.as.i`
is never assigned; the embedding reads it as 0. -/
def int_arith (op : Char) (a b : Int) : Except Fault Int :=
  if op = '+' then .ok (wrap32 (a + b))
  else if op = '-' then .ok (wrap32 (a - b))
  else if op = '*' then .ok (wrap32 (a * b))
  else if op = '%' then
    (if b ≠ 0 then
      (if a = -2 ^ 31 ∧ b = -1 then .error Fault.sigfpe else .ok (wrap32 (Int.tmod a b)))
    else .ok 0)
  else .ok 0

/-- The float `switch` of `parse_math_operator`. For another operator
`result.as.f` is never assigned; the embedding reads it as `+0.0`. -/
def float_arith (ops : FloatOps) (op : Char) (a b : F32) : F32 :=
  if op = '+' then ops.add a b
  else if op = '-' then ops.sub a b
  else if op = '*' then ops.mul a b
  else if op = '/' then (if b.nonzero then ops.div a b else ⟨0⟩)
  else if op = '%' then (if b.nonzero then ops.fmod a b else ⟨0⟩)
  else ⟨0⟩

def parse_math_operator (ops : FloatOps) (left : Value) (op : Char) (right : Value) :
    Except Fault Value :=
  match left, right with
  | .int a, .int b =>
    if op = '/' then .ok (Value.float (float_arith ops op (ops.ofInt a) (ops.ofInt b)))
    else
      match int_arith op a b with
      | .ok i => .ok (Value.int i)
      | .error f => .error f
  | .int a, .float b => .ok (Value.float (float_arith ops op (ops.ofInt a) b))
  | .float a, .int b => .ok (Value.float (float_arith ops op a (ops.ofInt b)))
  | .float a, .float b => .ok (Value.float (float_arith ops op a b))
  | _, _ => .ok Value.nil

/-- The test `strchr("+-*/%", c)` of the operator loop. `strchr` also finds the
terminating NUL of its first argument, so the test holds for `c = 0` too. -/
def strchr_ops (c : Char) : Bool :=
  c = '+' || c = '-' || c = '*' || c = '/' || c = '%' || c = '\x00'

/-- The body of the `..` loop of `parse_expression_precedence` once `right` is
parsed: both operands go through `value_to_string` into 256-byte buffers and
the two buffers are joined into a fresh string. -/
def concat_step (ops : FloatOps) (left right : Value) : Value :=
  Value.str (value_to_string ops left 256 ++ value_to_string ops right 256)

/-- The literals and the variable lookup at the end of the identifier branch
of `parse_primary`. -/
def resolve_name (vars : List Variable) (name : CStr) : Value :=
  if name = "true".toList then Value.bool true
  else if name = "false".toList then Value.bool false
  else if name = "nil".toList then Value.nil
  else get_variable vars name

mutual

/-- `parse_primary`. `none`: the fuel does not suffice. In the identifier branch
the array `name` has 64 bytes: an identifier of 64 characters or more is
written past its end. -/
def parse_primary (ops : FloatOps) (vars : List Variable) :
    Nat → Parser → Option (Except Fault (Value × Parser))
  | 0, _ => none
  | fuel + 1, p0 =>
    let p := skip_whitespace p0
    if p.current_char = '(' then
      match parse_expression_precedence ops vars fuel 0 (next_char p) with
      | none => none
      | some (.error f) => some (.error f)
      | some (.ok (val, p1)) =>
        some (.ok (val, if p1.current_char = ')' then next_char p1 else p1))
    else if p.current_char = '"' then some (.ok (parse_string (next_char p)))
    else if isdigit p.current_char ∨ (p.current_char = '-' ∧ isdigit p.peek) then
      some (.ok (parse_number ops p))
    else if isalpha p.current_char then
      let r := parse_name_loop (p.src_ptr.length + 1) p []
      if r.2.length < 64 then some (.ok (resolve_name vars r.2, r.1))
      else some (.error Fault.overrun)
    else if p.current_char = '{' then
      parse_table_loop ops vars fuel [] (skip_whitespace (next_char p))
    else some (.ok (Value.nil, p))

/-- The element loop of the table branch of `parse_primary`, with the closing
brace handled at its exit; `items` holds `items[0 .. count)`. -/
def parse_table_loop (ops : FloatOps) (vars : List Variable) :
    Nat → List Value → Parser → Option (Except Fault (Value × Parser))
  | 0, _, _ => none
  | fuel + 1, items, p =>
    if p.current_char ≠ '\x00' ∧ p.current_char ≠ '}' ∧ items.length < MAX_TABLE_ITEMS then
      match parse_expression_precedence ops vars fuel 0 p with
      | none => none
      | some (.error f) => some (.error f)
      | some (.ok (v, p1)) =>
        let p2 := skip_whitespace p1
        let p3 := if p2.current_char = ',' then skip_whitespace (next_char p2) else p2
        parse_table_loop ops vars fuel (items ++ [v]) p3
    else some (.ok (Value.table items, if p.current_char = '}' then next_char p else p))

def parse_expression_precedence (ops : FloatOps) (vars : List Variable) :
    Nat → Int → Parser → Option (Except Fault (Value × Parser))
  | 0, _, _ => none
  | fuel + 1, min_precedence, p =>
    match parse_primary ops vars fuel p with
    | none => none
    | some (.error f) => some (.error f)
    | some (.ok (left, p1)) =>
      match math_loop ops vars fuel min_precedence left (skip_whitespace p1) with
      | none => none
      | some (.error f) => some (.error f)
      | some (.ok (left1, p2)) => concat_loop ops vars fuel left1 p2

/-- The operator loop `while (strchr("+-*/%", current_char))`. -/
def math_loop (ops : FloatOps) (vars : List Variable) :
    Nat → Int → Value → Parser → Option (Except Fault (Value × Parser))
  | 0, _, _, _ => none
  | fuel + 1, min_precedence, left, p =>
    if strchr_ops p.current_char then
      let op := p.current_char
      let prec := get_precedence op
      if prec < min_precedence then some (.ok (left, p))
      else
        match parse_expression_precedence ops vars fuel (prec + 1)
            (skip_whitespace (next_char p)) with
        | none => none
        | some (.error f) => some (.error f)
        | some (.ok (right, p1)) =>
          match parse_math_operator ops left op right with
          | .error f => some (.error f)
          | .ok left1 => math_loop ops vars fuel min_precedence left1 (skip_whitespace p1)
    else some (.ok (left, p))

/-- The concatenation loop `while (current_char == '.' && *src_ptr == '.')`. -/
def concat_loop (ops : FloatOps) (vars : List Variable) :
    Nat → Value → Parser → Option (Except Fault (Value × Parser))
  | 0, _, _ => none
  | fuel + 1, left, p =>
    if p.current_char = '.' ∧ p.peek = '.' then
      match parse_expression_precedence ops vars fuel 3
          (skip_whitespace (next_char (next_char p))) with
      | none => none
      | some (.error f) => some (.error f)
      | some (.ok (right, p1)) =>
        concat_loop ops vars fuel (concat_step ops left right) (skip_whitespace p1)
    else some (.ok (left, p))

end

/-- `evaluate_expression`: `none` when `fuel` does not suffice. -/
def evaluate_expression (ops : FloatOps) (vars : List Variable) (fuel : Nat)
    (expr_str : CStr) : Option (Except Fault Value) :=
  (parse_expression_precedence ops vars fuel 0
    (next_char { current_char := '\x00', src_ptr := expr_str })).map (Except.map Prod.fst)

/-- The text `print_value` writes to the standard output. -/
def print_value (ops : FloatOps) : Value → CStr
  | .nil => "nil\n".toList
  | .bool b => if b then "true\n".toList else "false\n".toList
  | .int i => fmt_d i ++ ['\n']
  | .float f => ops.fmt_g f ++ ['\n']
  | .str s => s ++ ['\n']
  | .table items =>
    '{' :: (", ".toList.intercalate (items.map (fun v => value_to_string ops v 256))
      ++ ['}', '\n'])

/-! ## Runner -/

/-- The member `lines` of `Script`; `count` is its length. -/
abbrev Script := List CStr

/-- The token the conversion `%s` of `sscanf` reads from `line` (also behind
the blank of `" %s"`): white space is skipped, then characters are taken up to
the next white space. It is stored with a terminating NUL into the array the
caller passes; when the line holds no token nothing is stored. Whether the
token fits the array is checked where it is stored. -/
def first_token (line : CStr) : CStr :=
  (line.dropWhile isspace).takeWhile (fun c => !isspace c)

/-- The scan loop of `find_match` over the lines from index `pc` on. The token
of each line is stored into `line_keyword`, an array of 10 bytes initialised to
the empty string: a token of 10 characters or more is written past its end.
`keyword`, an array of 10 bytes too, is not initialised: it is empty here
exactly when nothing was stored in it, and comparing it is then a read of an
uninitialised array. -/
def find_match_loop (keyword : CStr) : List CStr → Int → Nat → Except Fault Nat
  | [], _, pc => .ok (pc - 1)
  | line :: rest, depth, pc =>
    let line_keyword := first_token line
    if 10 ≤ line_keyword.length then .error Fault.overrun
    else if keyword = [] then .error Fault.uninit
    else if line_keyword = keyword then find_match_loop keyword rest (depth + 1) (pc + 1)
    else if line_keyword = "end".toList then
      if depth - 1 = 0 then .ok pc else find_match_loop keyword rest (depth - 1) (pc + 1)
    else if keyword = "if".toList ∧ line_keyword = "else".toList then
      if depth = 1 then .ok pc else find_match_loop keyword rest depth (pc + 1)
    else find_match_loop keyword rest depth (pc + 1)

/-- `find_match`. The token of the start line is stored into `keyword`, an
array of 10 bytes. -/
def find_match (script : Script) (start_pc : Nat) : Except Fault Nat :=
  let keyword := first_token (script.getD start_pc [])
  if 10 ≤ keyword.length then .error Fault.overrun
  else find_match_loop keyword (script.drop (start_pc + 1)) 1 (start_pc + 1)

/-- The name `sscanf(line, "var %s", name)` reads: the line has to start with
the three letters, then white space is skipped and a token is read. `none`
when nothing is stored. -/
def scan_var_name (line : CStr) : Option CStr :=
  match line with
  | 'v' :: 'a' :: 'r' :: rest => if first_token rest = [] then none else some (first_token rest)
  | _ => none

/-- The pointer `strchr(line, c)`: the suffix of `line` from the first `c` on. -/
def strchr (line : CStr) (c : Char) : Option CStr :=
  match line.dropWhile (fun d => d != c) with
  | [] => none
  | rest => some rest

/-- The locals of `execute_script` with the two globals it changes. `pc` is
the program counter at the loop test; `trace` is a ghost field listing the
indices of the lines executed so far, oldest first. -/
structure ExecState where
  pc : Nat
  loop_starts : List Nat
  loop_stack_top : Int
  vars : List Variable
  stdout : CStr
  trace : List Nat

/-- The `print` branch of `execute_script`; `line + 5` is the expression. -/
def exec_print (ops : FloatOps) (efuel : Nat) (st : ExecState) (line : CStr) :
    Option (Except Fault ExecState) :=
  match evaluate_expression ops st.vars efuel (line.drop 5) with
  | none => none
  | some (.error f) => some (.error f)
  | some (.ok val) =>
    some (.ok { st with stdout := st.stdout ++ print_value ops val, pc := st.pc + 1 })

/-- The `var` branch of `execute_script`. The array `name` has 64 bytes and is
not initialised: a name of 64 characters or more is written past its end, and
when `sscanf` stores nothing `set_variable` reads an uninitialised array. -/
def exec_var (ops : FloatOps) (efuel : Nat) (st : ExecState) (line : CStr) :
    Option (Except Fault ExecState) :=
  if 64 ≤ ((scan_var_name line).getD []).length then some (.error Fault.overrun)
  else
    match strchr line '=' with
    | none => some (.ok { st with pc := st.pc + 1 })
    | some value_part =>
      match evaluate_expression ops st.vars efuel (value_part.drop 1) with
      | none => none
      | some (.error f) => some (.error f)
      | some (.ok val) =>
        match scan_var_name line with
        | none => some (.error Fault.uninit)
        | some name => some (.ok { st with vars := set_variable st.vars name val, pc := st.pc + 1 })

/-- The jump `pc = find_match(script, pc)` with the `pc++` that follows it: the
`else` branch of `execute_script`, and the `if` branch on a falsy condition. -/
def exec_skip (script : Script) (st : ExecState) : Option (Except Fault ExecState) :=
  match find_match script st.pc with
  | .error f => some (.error f)
  | .ok m => some (.ok { st with pc := m + 1 })

/-- The `if` branch of `execute_script`; `line + 2` is the condition. -/
def exec_if (ops : FloatOps) (efuel : Nat) (script : Script) (st : ExecState) (line : CStr) :
    Option (Except Fault ExecState) :=
  match evaluate_expression ops st.vars efuel (line.drop 2) with
  | none => none
  | some (.error f) => some (.error f)
  | some (.ok cond_val) =>
    if !is_truthy cond_val then exec_skip script st else some (.ok { st with pc := st.pc + 1 })

/-- The push `loop_starts[++loop_stack_top] = pc` of the `while` branch, made
when the stack has room. -/
def push_loop (st : ExecState) : ExecState :=
  if st.loop_stack_top < (MAX_BLOCK_DEPTH : Int) - 1 then
    { st with
      loop_starts := st.loop_starts.set (st.loop_stack_top + 1).toNat st.pc
      loop_stack_top := st.loop_stack_top + 1 }
  else st

/-- The `while` branch of `execute_script`; `line + 5` is the condition. -/
def exec_while (ops : FloatOps) (efuel : Nat) (script : Script) (st : ExecState) (line : CStr) :
    Option (Except Fault ExecState) :=
  match evaluate_expression ops st.vars efuel (line.drop 5) with
  | none => none
  | some (.error f) => some (.error f)
  | some (.ok cond_val) =>
    if !is_truthy cond_val then
      match find_match script st.pc with
      | .error f => some (.error f)
      | .ok m =>
        some (.ok { push_loop st with
          pc := m + 1, loop_stack_top := (push_loop st).loop_stack_top - 1 })
    else some (.ok { push_loop st with pc := st.pc + 1 })

/-- The `end` branch of `execute_script`. The C code sets
`pc = loop_starts[loop_stack_top] - 1` and then increments it; the embedding
stores the sum. The array `loop_keyword` has 10 bytes and is not initialised. -/
def exec_end (script : Script) (st : ExecState) : Option (Except Fault ExecState) :=
  if st.loop_stack_top ≥ 0 then
    if 10 ≤ (first_token (script.getD (st.loop_starts.getD st.loop_stack_top.toNat 0) [])).length
    then some (.error Fault.overrun)
    else if first_token (script.getD (st.loop_starts.getD st.loop_stack_top.toNat 0) []) = []
    then some (.error Fault.uninit)
    else if first_token (script.getD (st.loop_starts.getD st.loop_stack_top.toNat 0) [])
        = "while".toList
    then some (.ok { st with pc := st.loop_starts.getD st.loop_stack_top.toNat 0 })
    else some (.ok { st with loop_stack_top := st.loop_stack_top - 1, pc := st.pc + 1 })
  else some (.ok { st with pc := st.pc + 1 })

/-- The state in which a branch starts: the ghost trace has the current line. -/
def enter_line (st : ExecState) : ExecState := { st with trace := st.trace ++ [st.pc] }

/-- One iteration of the main loop of `execute_script`, for `pc < count`,
including the final `pc++`. `none` when an expression does not evaluate within
`efuel`. The array `keyword` has 64 bytes and is initialised to the empty
string: a first token of 64 characters or more is written past its end. A
fault of the expression or of `find_match` ends the step with that fault. -/
def execute_step (ops : FloatOps) (efuel : Nat) (script : Script) (st : ExecState) :
    Option (Except Fault ExecState) :=
  if 64 ≤ (first_token (script.getD st.pc [])).length then some (.error Fault.overrun)
  else if first_token (script.getD st.pc []) = "print".toList then
    exec_print ops efuel (enter_line st) (script.getD st.pc [])
  else if first_token (script.getD st.pc []) = "var".toList then
    exec_var ops efuel (enter_line st) (script.getD st.pc [])
  else if first_token (script.getD st.pc []) = "if".toList then
    exec_if ops efuel script (enter_line st) (script.getD st.pc [])
  else if first_token (script.getD st.pc []) = "else".toList then
    exec_skip script (enter_line st)
  else if first_token (script.getD st.pc []) = "while".toList then
    exec_while ops efuel script (enter_line st) (script.getD st.pc [])
  else if first_token (script.getD st.pc []) = "end".toList then exec_end script (enter_line st)
  else some (.ok { enter_line st with pc := st.pc + 1 })

/-- The main loop `while (pc < script->count)`, for at most `fuel` iterations. -/
def execute_loop (ops : FloatOps) (efuel : Nat) (script : Script) :
    Nat → ExecState → Option (Except Fault ExecState)
  | 0, _ => none
  | fuel + 1, st =>
    if st.pc < script.length then
      match execute_step ops efuel script st with
      | none => none
      | some (.error f) => some (.error f)
      | some (.ok st1) => execute_loop ops efuel script fuel st1
    else some (.ok st)

/-- `execute_script`, started with the variable table `vars`. The result is
the state in which the main loop exits, or the fault at which the run ends;
`none` when neither has happened within `fuel` iterations, or an expression
has not evaluated within `efuel`. -/
def execute_script (ops : FloatOps) (efuel fuel : Nat) (script : Script) (vars : List Variable) :
    Option (Except Fault ExecState) :=
  execute_loop ops efuel script fuel
    { pc := 0, loop_starts := List.replicate MAX_BLOCK_DEPTH 0, loop_stack_top := -1,
      vars := vars, stdout := [], trace := [] }

/-! ## Reference semantics of operator chains

The reference evaluation of an expression `l0 op1 l1 op2 l2 ...` over
non-negative decimal literals, written from the specification: the expression
is a sum of terms, a term is a product of literals, and both levels are
evaluated from left to right in 32-bit arithmetic. -/

inductive AddOp where
  | add | sub
  deriving DecidableEq, Repr

inductive MulOp where
  | mul | mod
  deriving DecidableEq, Repr

def AddOp.toChar : AddOp → Char
  | .add => '+'
  | .sub => '-'

def MulOp.toChar : MulOp → Char
  | .mul => '*'
  | .mod => '%'

/-- The number a decimal literal denotes. -/
def lit_value (l : CStr) : Nat := Nat.ofDigits 10 ((l.map (fun c => c.toNat - 48)).reverse)

/-- A non-negative decimal literal that fits a signed 32-bit `int`. -/
def lit_ok (l : CStr) : Prop := l ≠ [] ∧ (∀ c ∈ l, isdigit c = true) ∧ lit_value l < 2 ^ 31

instance (l : CStr) : Decidable (lit_ok l) := by
  unfold lit_ok
  infer_instance

/-- A value of C type `int`. -/
def int_range (x : Int) : Prop := -2 ^ 31 ≤ x ∧ x < 2 ^ 31

instance (x : Int) : Decidable (int_range x) := by
  unfold int_range
  infer_instance

/-- Overflow as wraparound: the 32-bit two's-complement reading of `x`. -/
def to_int32 (x : Int) : Int :=
  if x % 2 ^ 32 < 2 ^ 31 then x % 2 ^ 32 else x % 2 ^ 32 - 2 ^ 32

/-- Addition and subtraction in 32 bits. -/
def ref_add (a : AddOp) (x y : Int) : Int :=
  match a with
  | .add => to_int32 (x + y)
  | .sub => to_int32 (x - y)

/-- Multiplication and remainder in 32 bits; the remainder by zero is zero. -/
def ref_mul (m : MulOp) (x y : Int) : Int :=
  match m with
  | .mul => to_int32 (x * y)
  | .mod => if y = 0 then 0 else to_int32 (Int.tmod x y)

/-- The spaces written before and after one operator. -/
structure Gap where
  before : Nat
  after : Nat

/-- A term: a literal followed by `* literal` and `% literal` factors. -/
structure Term where
  head : CStr
  factors : List (MulOp × Gap × CStr)

/-- An expression: a term followed by `+ term` and `- term` summands. -/
structure Sum where
  head : Term
  terms : List (AddOp × Gap × Term)

def Term.eval (t : Term) : Int :=
  t.factors.foldl (fun acc f => ref_mul f.1 acc (lit_value f.2.2)) (lit_value t.head)

def Sum.eval (e : Sum) : Int :=
  e.terms.foldl (fun acc a => ref_add a.1 acc a.2.2.eval) e.head.eval

def Term.lits (t : Term) : List CStr := t.head :: t.factors.map (fun f => f.2.2)

def Sum.lits (e : Sum) : List CStr := e.head.lits ++ (e.terms.map (fun a => a.2.2.lits)).flatten

/-- The number of binary operators of an expression. -/
def Sum.operators (e : Sum) : Nat :=
  e.head.factors.length + (e.terms.map (fun a => a.2.2.factors.length + 1)).sum

/-- An operator with the spaces around it. -/
def render_op (op : Char) (g : Gap) (rest : CStr) : CStr :=
  List.replicate g.before ' ' ++ op :: (List.replicate g.after ' ' ++ rest)

def render_factors : List (MulOp × Gap × CStr) → CStr
  | [] => []
  | (m, g, l) :: fs => render_op m.toChar g (l ++ render_factors fs)

def Term.render (t : Term) : CStr := t.head ++ render_factors t.factors

def render_terms : List (AddOp × Gap × Term) → CStr
  | [] => ['\n']
  | (a, g, t) :: ts => render_op a.toChar g (t.render ++ render_terms ts)

/-- The expression as a string, ended by a newline. -/
def Sum.render (e : Sum) : CStr := e.head.render ++ render_terms e.terms

/-- The cursor at the operator position that follows a literal of a chain: on
the next operator, or on the final newline. `fs` are the factors still to come
in the current term and `ts` the summands after it. -/
def op_cursor : List (MulOp × Gap × CStr) → List (AddOp × Gap × Term) → Parser
  | [], [] => ⟨'\n', []⟩
  | [], (a, g, t) :: ts => ⟨a.toChar, List.replicate g.after ' ' ++ (t.render ++ render_terms ts)⟩
  | (m, g, l) :: fs, ts =>
    ⟨m.toChar, List.replicate g.after ' ' ++ (l ++ (render_factors fs ++ render_terms ts))⟩

/-- The expression `1 + 2 * 3`, one space on each side of each operator. -/
def expr_1_2_3 : Sum :=
  ⟨⟨['1'], []⟩, [(AddOp.add, ⟨1, 1⟩, ⟨['2'], [(MulOp.mul, ⟨1, 1⟩, ['3'])]⟩)]⟩

def render_chain_tail : List (Char × Gap × CStr) → CStr
  | [] => ['\n']
  | (op, g, l) :: rest => render_op op g (l ++ render_chain_tail rest)

/-- A chain `first op1 l1 op2 l2 ...` as a string, before any grouping into
terms, ended by a newline. -/
def render_chain (first : CStr) (rest : List (Char × Gap × CStr)) : CStr :=
  first ++ render_chain_tail rest

/-! ## Concrete inputs -/

/-- A `FloatOps` for running concrete inputs in which no float occurs, where
none of its operations is reached: each yields `+0.0`, and `%g` the empty
text. The general statements quantify over every `FloatOps`. -/
def float_free_ops : FloatOps where
  ofInt := fun _ => ⟨0⟩
  add := fun _ _ => ⟨0⟩
  sub := fun _ _ => ⟨0⟩
  mul := fun _ _ => ⟨0⟩
  div := fun _ _ => ⟨0⟩
  fmod := fun _ _ => ⟨0⟩
  atof := fun _ => ⟨0⟩
  fmt_g := fun _ => []

/-- A literal of 128 digits that denotes the number 1: 127 zeros and a one. -/
def long_literal : CStr := List.replicate 127 '0' ++ ['1']

/-- The lines of a script, each given without its newline. -/
def script_of (lines : List String) : Script := lines.map (fun l => l.toList ++ ['\n'])

/-- Scenario 4 of the specification: a loop that counts from 0 to 2. -/
def count_script : Script :=
  script_of ["var i = 0", "while i < 3", "print i", "var i = i + 1", "end"]

/-- An `if` with an `else`, whose `else` branch holds a nested `if` without `else`. -/
def if_else_script : Script :=
  script_of ["if true", "print 1", "else", "if true", "print 2", "end", "print 3", "end"]

/-- A `while` whose body holds a nested `if`. -/
def while_if_script : Script :=
  script_of ["while false", "if true", "print 1", "end", "print 2", "end"]

/-! ## Properly nested blocks -/

/-- Properly nested lines for blocks of one kind, `opener` being `while` or
`if`: plain lines (no `opener`, no `end`, and for `if` no `else`), and whole
blocks `opener .. end`, for `if` also `if .. else .. end`, whose branches are
properly nested themselves. -/
inductive Nested (opener : CStr) : List CStr → Prop where
  | nil : Nested opener []
  | plain (l : CStr) (rest : List CStr) :
      first_token l ≠ opener → first_token l ≠ "end".toList →
      (opener = "if".toList → first_token l ≠ "else".toList) →
      Nested opener rest → Nested opener (l :: rest)
  | block (hd : CStr) (body : List CStr) (tl : CStr) (rest : List CStr) :
      first_token hd = opener → Nested opener body → first_token tl = "end".toList →
      Nested opener rest → Nested opener (hd :: (body ++ tl :: rest))
  | block_else (hd : CStr) (body1 : List CStr) (el : CStr) (body2 : List CStr) (tl : CStr)
      (rest : List CStr) :
      opener = "if".toList → first_token hd = opener → Nested opener body1 →
      first_token el = "else".toList → Nested opener body2 → first_token tl = "end".toList →
      Nested opener rest → Nested opener (hd :: (body1 ++ el :: (body2 ++ tl :: rest)))

/-- Two nested `while` loops. -/
def nested_while_script : Script :=
  script_of ["while a", "while b", "print 1", "end", "end", "print 2"]

/-! ## Reference definitions for values, arithmetic and the variable table -/

/-- The `stringify` of the specification: a String verbatim, an Int in decimal,
a Float in the general format, a Bool as `true` or `false`, Nil as `nil`; it is
not defined on a Table. -/
def spec_stringify (ops : FloatOps) : Value → Option CStr
  | .str s => some s
  | .int i => some (toString i).toList
  | .float f => some (ops.fmt_g f)
  | .bool b => some (if b then "true".toList else "false".toList)
  | .nil => some "nil".toList
  | .table _ => none

/-- A string of 256 letters. -/
def long_string : CStr := List.replicate 256 'a'

/-- The native 32-bit result of `a op b` as the specification states it: sum,
difference and product wrap around, the remainder truncates toward zero
(`a - b * trunc(a / b)`), and the remainder by zero is zero. -/
def native_int (op : Char) (a b : Int) : Int :=
  if op = '+' then to_int32 (a + b)
  else if op = '-' then to_int32 (a - b)
  else if op = '*' then to_int32 (a * b)
  else if b = 0 then 0
  else a - b * Int.tdiv a b

/-- An Int or a Float. -/
def numeric (v : Value) : Prop := v.type = ValueType.VAL_INT ∨ v.type = ValueType.VAL_FLOAT

instance (v : Value) : Decidable (numeric v) := by
  unfold numeric
  infer_instance

/-- The table after a sequence of calls `set_variable(name, value)`, starting
from `vars`. -/
def set_all (vars : List Variable) (assigns : List (CStr × Value)) : List Variable :=
  assigns.foldl (fun s a => set_variable s a.1 a.2) vars

/-- The name `name` is in the table. -/
def present (vars : List Variable) (name : CStr) : Prop := ∃ x ∈ vars, x.name = name

instance (vars : List Variable) (name : CStr) : Decidable (present vars name) := by
  unfold present
  infer_instance

/-! ## Further reference definitions -/

/-- The cursor at the end of the input: on the terminating NUL. -/
def end_cursor : Parser := ⟨'\x00', []⟩

/-- The nesting depth the scan of `find_match` has reached after `lines`,
having started at depth `d`: each line whose first token is `keyword` adds
one, each other line whose first token is `end` takes one away. -/
def depth_from (keyword : CStr) (d : Int) (lines : List CStr) : Int :=
  d + (lines.countP (fun l => decide (first_token l = keyword)) : Int)
    - (lines.countP (fun l => decide (first_token l ≠ keyword ∧ first_token l = "end".toList)) : Int)

/-- The scan for `keyword` finds its match in `line`, the lines scanned before
it being `before`: the depth is 1 and `line` starts with `end`, or with `else`
when `keyword` is `if`. -/
def scan_stops (keyword : CStr) (before : List CStr) (line : CStr) : Prop :=
  first_token line ≠ keyword ∧ depth_from keyword 1 before = 1 ∧
    (first_token line = "end".toList ∨
      (keyword = "if".toList ∧ first_token line = "else".toList))

/-- A script whose only line opens a loop that is never closed. -/
def open_while_script : Script := script_of ["while 1", "print 1"]

/-- A character of a number literal behind its first one: a digit or a dot. -/
def number_char (c : Char) : Bool := isdigit c || c == '.'

/-- The text `parse_number` takes from the input `s` (the character under the
cursor and what follows it): an optional leading `-`, then every digit and
every dot that follows, cut to 127 characters. -/
def number_text (s : CStr) : CStr :=
  (match s with
    | '-' :: cs => '-' :: cs.takeWhile number_char
    | cs => cs.takeWhile number_char).take 127

/-- A decimal integer literal: an optional `-` and digits. -/
structure IntLit where
  neg : Bool
  digits : CStr

def IntLit.text (l : IntLit) : CStr := if l.neg then '-' :: l.digits else l.digits

def IntLit.value (l : IntLit) : Int := if l.neg then -(lit_value l.digits : Int) else lit_value l.digits

/-- A literal whose value fits an `int` and whose text is at most 127
characters long. -/
def IntLit.ok (l : IntLit) : Prop :=
  l.digits ≠ [] ∧ (∀ c ∈ l.digits, isdigit c = true) ∧ int_range l.value ∧ l.text.length ≤ 127

instance (l : IntLit) : Decidable l.ok := by
  unfold IntLit.ok
  infer_instance

/-- The elements of a table literal from the first one on, with the closing
brace and the newline behind it. Each element carries the spaces written
before and after the comma that follows it (before the brace, for the last). -/
def render_items : List (IntLit × Gap) → CStr
  | [] => ['}', '\n']
  | [(l, g)] => l.text ++ render_op '}' ⟨g.before, 0⟩ ['\n']
  | (l, g) :: r :: rest => l.text ++ render_op ',' g (render_items (r :: rest))

/-- The cursor on the first character of `s`. -/
def cursor_at (s : CStr) : Parser := ⟨s.headD '\x00', s.tail⟩

/-- The elements of the table literal `{1, 2, 3}`. -/
def items_1_2_3 : List (IntLit × Gap) :=
  [(⟨false, ['1']⟩, ⟨0, 1⟩), (⟨false, ['2']⟩, ⟨0, 1⟩), (⟨false, ['3']⟩, ⟨0, 0⟩)]

/-- Sixty-five elements `7`. -/
def items_65 : List (IntLit × Gap) := List.replicate 65 (⟨false, ['7']⟩, ⟨0, 1⟩)

/-- A single element, the literal of 128 digits `long_literal`. -/
def items_long : List (IntLit × Gap) := [(⟨false, long_literal⟩, ⟨0, 0⟩)]

/-- The line `print 1`. -/
def print_script : Script := script_of ["print 1"]

/-- The line `print 1` behind one space. -/
def indented_print_script : Script := script_of [" print 1"]

/-- A loop whose body runs twice. -/
def countdown_script : Script := script_of ["var i = 2", "while i", "var i = i - 1", "end"]

/-- The state in which `execute_script` enters its main loop. -/
def init_state (vars : List Variable) : ExecState :=
  { pc := 0, loop_starts := List.replicate MAX_BLOCK_DEPTH 0, loop_stack_top := -1,
    vars := vars, stdout := [], trace := [] }

/-- The loop stack is within its array and every entry up to its top is the
index of a `while` line. -/
def stack_ok (script : Script) (st : ExecState) : Prop :=
  -1 ≤ st.loop_stack_top ∧ st.loop_stack_top ≤ (MAX_BLOCK_DEPTH : Int) - 1 ∧
    st.loop_starts.length = MAX_BLOCK_DEPTH ∧
    ∀ i : Nat, (i : Int) ≤ st.loop_stack_top →
      first_token (script.getD (st.loop_starts.getD i 0) []) = "while".toList

/-- The expression `execute_step` evaluates on a line, if any. -/
def line_expr (line : CStr) : Option CStr :=
  if first_token line = "print".toList then some (line.drop 5)
  else if first_token line = "var".toList then (strchr line '=').map (fun v => v.drop 1)
  else if first_token line = "if".toList then some (line.drop 2)
  else if first_token line = "while".toList then some (line.drop 5)
  else none

/-- A script without `while`: a variable is set to 0 and tested by an `if`,
whose body is skipped. -/
def var_if_script : Script := script_of ["var x = 0", "if x", "print x", "end", "print 7"]

/-- The least value of `int`. -/
def INT_MIN : Int := -2 ^ 31

/-- An `if` with an `else`; the line between them starts with a token of 10
characters. -/
def long_token_script : Script := script_of ["if a", "abcdefghij", "else", "end"]

/-- The same script with a token of 9 characters. -/
def short_token_script : Script := script_of ["if a", "abcdefghi", "else", "end"]

/-- A `while` followed by a line that starts with a token of 24 characters,
and an `end`. -/
def long_line_script : Script := script_of ["while a", "abcdefghijklmnopqrstuvwx", "end"]

/-- The line `print -2147483648 % -1`. -/
def rem_script : Script := script_of ["print -2147483648 % -1"]

/-- The first token of every line fits the 10-byte arrays of `find_match`
with its NUL: it has at most 9 characters. -/
def tokens_fit (lines : List CStr) : Prop := ∀ l ∈ lines, (first_token l).length < 10

instance (lines : List CStr) : Decidable (tokens_fit lines) := by
  unfold tokens_fit
  infer_instance

/-- A `var` line whose name fits the 64 bytes of `name` with its NUL, and is
stored by `sscanf` when the line has a `=`; other lines are not constrained. -/
def var_line_ok (line : CStr) : Prop :=
  first_token line = "var".toList →
    ((scan_var_name line).getD []).length < 64 ∧
      ((strchr line '=').isSome = true → (scan_var_name line).isSome = true)

instance (line : CStr) : Decidable (var_line_ok line) := by
  unfold var_line_ok
  infer_instance

/-! ## Heap blocks

`free_value` and `set_variable` once more, with the addresses of the heap
blocks: which blocks a call passes to `free` depends on the pointers, which
`Value` does not carry. -/

/-- A `Value` as the C struct holds it: a String is the pointer to its buffer
(with the text found there), a Table the pointer to its `items` array (with the
elements found there). -/
inductive Cell where
  | nil
  | bool (b : Bool)
  | int (i : Int)
  | float (f : F32)
  | str (ptr : Nat) (s : CStr)
  | table (ptr : Nat) (items : List Cell)
  deriving Repr

mutual
/-- The value a cell stands for, without its addresses. -/
def Cell.value : Cell → Value
  | .nil => Value.nil
  | .bool b => Value.bool b
  | .int i => Value.int i
  | .float f => Value.float f
  | .str _ s => Value.str s
  | .table _ items => Value.table (Cell.values items)
/-- The values of the elements of a table. -/
def Cell.values : List Cell → List Value
  | [] => []
  | c :: cs => c.value :: Cell.values cs
end

mutual
/-- The addresses `free_value(val)` passes to `free`, in order: the buffer of a
String; for a Table the blocks of its elements, one element after the other,
and then its `items` array. -/
def free_value : Cell → List Nat
  | .str ptr _ => [ptr]
  | .table ptr items => free_values items ++ [ptr]
  | _ => []
/-- The loop of `free_value` over the elements of a table. -/
def free_values : List Cell → List Nat
  | [] => []
  | c :: cs => free_value c ++ free_values cs
end

/-- An entry of `variables` with the addresses of its value. -/
structure Slot where
  name : CStr
  value : Cell

/-- The entry without the addresses. -/
def Slot.variable (x : Slot) : Variable := ⟨x.name, x.value.value⟩

/-- The loop of `set_variable` with the call `free_value(variables[i].value)`
it makes: the table after the overwrite and the addresses freed; `none` when
the loop ends without finding `name`. -/
def set_variable_heap_loop : List Slot → CStr → Cell → Option (List Slot × List Nat)
  | [], _, _ => none
  | x :: xs, name, val =>
    if x.name = name then some ({ x with value := val } :: xs, free_value x.value)
    else (set_variable_heap_loop xs name val).map (fun r => (x :: r.1, r.2))

/-- `set_variable` with its heap effect: the table after the call and the
addresses the call passes to `free`, in order. The new value `val` is stored,
not copied: the entry holds the pointers of `val`. -/
def set_variable_heap (slots : List Slot) (name : CStr) (val : Cell) : List Slot × List Nat :=
  match set_variable_heap_loop slots name val with
  | some r => r
  | none =>
    if slots.length < MAX_VARS then (slots ++ [{ name := name.take 63, value := val }], [])
    else (slots, [])

/-- `get_variable` on the table with addresses: the stored struct itself, that
is a second pointer to the same blocks. -/
def get_variable_heap : List Slot → CStr → Cell
  | [], _ => Cell.nil
  | x :: xs, name => if x.name = name then x.value else get_variable_heap xs name

/-- The addresses of the blocks of all values stored in the table. -/
def table_blocks (slots : List Slot) : List Nat := (slots.map (fun x => free_value x.value)).flatten

/-- A full table: the 256 names `v0` to `v255`, each holding Nil. -/
def full_table : List Slot :=
  (List.range 256).map (fun i => ⟨'v' :: Nat.toDigits 10 i, Cell.nil⟩)

/-! ## The evaluator and the runner with the heap

The parser and `execute_script` once more, on values with their addresses and
with the calls of `malloc`, `strdup` and `free` they make. Without the
addresses they are the definitions above (`parser_heap_erase`,
`execute_line_heap_erase`). -/

/-- The heap as far as a run depends on it. `malloc` and `strdup` hand out the
address `next`, one never handed out before; `freed` holds the addresses passed
to `free`; `bad` is set once a block that has been passed to `free` is read or
passed to `free` again, from where on C defines nothing. -/
structure Heap where
  next : Nat
  freed : List Nat
  bad : Bool
  deriving DecidableEq, Repr

/-- A call of `malloc` or `strdup`; the block it returns is at `h.next`. -/
def Heap.alloc (h : Heap) : Heap := { h with next := h.next + 1 }

/-- The call `free(ptr)`. -/
def Heap.free (h : Heap) (ptr : Nat) : Heap :=
  if ptr ∈ h.freed then { h with bad := true } else { h with freed := ptr :: h.freed }

/-- A read of the block at `ptr`. -/
def Heap.read (h : Heap) (ptr : Nat) : Heap :=
  if ptr ∈ h.freed then { h with bad := true } else h

/-- The call `free_value(val)`: the addresses `free_value` lists are passed to
`free` one after the other. (On its way through a Table the call also reads
the `items` array; an array that was released is caught when the call passes
it to `free`.) -/
def free_value_heap (val : Cell) (h : Heap) : Heap := (free_value val).foldl Heap.free h

/-- The block `value_to_string(val, ..)` and `is_truthy(val)` read: the buffer
of a String. -/
def string_reads : Cell → List Nat
  | .str ptr _ => [ptr]
  | _ => []

/-- The blocks `print_value(val)` reads: the buffer of a String; for a Table
with elements its `items` array and, in `value_to_string`, the buffers of the
elements that are Strings. -/
def print_reads : Cell → List Nat
  | .str ptr _ => [ptr]
  | .table _ [] => []
  | .table ptr items => ptr :: (items.map string_reads).flatten
  | _ => []

/-- The reads of the blocks `ptrs`, one after the other. -/
def Heap.reads (h : Heap) (ptrs : List Nat) : Heap := ptrs.foldl Heap.read h

/-- `parse_string` with the `strdup` of its result. -/
def parse_string_heap (p : Parser) (h : Heap) : Cell × Parser × Heap :=
  let r := parse_string_loop (p.src_ptr.length + 1) p []
  (Cell.str h.next r.2, if r.1.current_char = '"' then next_char r.1 else r.1, h.alloc)

/-- `parse_number`; it does not touch the heap. -/
def parse_number_heap (ops : FloatOps) (p : Parser) : Cell × Parser :=
  let r := parse_number_loop (p.src_ptr.length + 1) p []
  if '.' ∈ r.2 then (Cell.float (ops.atof r.2), r.1) else (Cell.int (atoi r.2), r.1)

/-- The end of the identifier branch of `parse_primary`: `get_variable` returns
the stored struct, with the pointers of the table entry. -/
def resolve_name_heap (slots : List Slot) (name : CStr) : Cell :=
  if name = "true".toList then Cell.bool true
  else if name = "false".toList then Cell.bool false
  else if name = "nil".toList then Cell.nil
  else get_variable_heap slots name

/-- `parse_math_operator` with the calls of `free_value` it makes when an
operand is not a number. -/
def parse_math_operator_heap (ops : FloatOps) (left : Cell) (op : Char) (right : Cell)
    (h : Heap) : Except Fault (Cell × Heap) :=
  match left, right with
  | .int a, .int b =>
    if op = '/' then .ok (Cell.float (float_arith ops op (ops.ofInt a) (ops.ofInt b)), h)
    else
      match int_arith op a b with
      | .ok i => .ok (Cell.int i, h)
      | .error f => .error f
  | .int a, .float b => .ok (Cell.float (float_arith ops op (ops.ofInt a) b), h)
  | .float a, .int b => .ok (Cell.float (float_arith ops op a (ops.ofInt b)), h)
  | .float a, .float b => .ok (Cell.float (float_arith ops op a b), h)
  | _, _ => .ok (Cell.nil, free_value_heap right (free_value_heap left h))

/-- The body of the `..` loop with its heap effect: both operands are read by
`value_to_string`, the joined string is allocated, and both operands are passed
to `free_value`. -/
def concat_step_heap (ops : FloatOps) (left right : Cell) (h : Heap) : Cell × Heap :=
  let h1 := (h.reads (string_reads left)).reads (string_reads right)
  (Cell.str h1.next (value_to_string ops left.value 256 ++ value_to_string ops right.value 256),
    free_value_heap right (free_value_heap left h1.alloc))

mutual

/-- `parse_primary` with the heap. The table branch allocates the `items` array
before it parses the elements. -/
def parse_primary_heap (ops : FloatOps) (slots : List Slot) :
    Nat → Parser → Heap → Option (Except Fault (Cell × Parser × Heap))
  | 0, _, _ => none
  | fuel + 1, p0, h =>
    let p := skip_whitespace p0
    if p.current_char = '(' then
      match parse_expression_precedence_heap ops slots fuel 0 (next_char p) h with
      | none => none
      | some (.error f) => some (.error f)
      | some (.ok (val, p1, h1)) =>
        some (.ok (val, if p1.current_char = ')' then next_char p1 else p1, h1))
    else if p.current_char = '"' then some (.ok (parse_string_heap (next_char p) h))
    else if isdigit p.current_char ∨ (p.current_char = '-' ∧ isdigit p.peek) then
      some (.ok ((parse_number_heap ops p).1, (parse_number_heap ops p).2, h))
    else if isalpha p.current_char then
      let r := parse_name_loop (p.src_ptr.length + 1) p []
      if r.2.length < 64 then some (.ok (resolve_name_heap slots r.2, r.1, h))
      else some (.error Fault.overrun)
    else if p.current_char = '{' then
      parse_table_loop_heap ops slots fuel h.next [] (skip_whitespace (next_char p)) h.alloc
    else some (.ok (Cell.nil, p, h))

/-- The element loop of the table branch; `ptr` is the address of `items`. -/
def parse_table_loop_heap (ops : FloatOps) (slots : List Slot) :
    Nat → Nat → List Cell → Parser → Heap → Option (Except Fault (Cell × Parser × Heap))
  | 0, _, _, _, _ => none
  | fuel + 1, ptr, items, p, h =>
    if p.current_char ≠ '\x00' ∧ p.current_char ≠ '}' ∧ items.length < MAX_TABLE_ITEMS then
      match parse_expression_precedence_heap ops slots fuel 0 p h with
      | none => none
      | some (.error f) => some (.error f)
      | some (.ok (v, p1, h1)) =>
        let p2 := skip_whitespace p1
        let p3 := if p2.current_char = ',' then skip_whitespace (next_char p2) else p2
        parse_table_loop_heap ops slots fuel ptr (items ++ [v]) p3 h1
    else some (.ok (Cell.table ptr items, if p.current_char = '}' then next_char p else p, h))

def parse_expression_precedence_heap (ops : FloatOps) (slots : List Slot) :
    Nat → Int → Parser → Heap → Option (Except Fault (Cell × Parser × Heap))
  | 0, _, _, _ => none
  | fuel + 1, min_precedence, p, h =>
    match parse_primary_heap ops slots fuel p h with
    | none => none
    | some (.error f) => some (.error f)
    | some (.ok (left, p1, h1)) =>
      match math_loop_heap ops slots fuel min_precedence left (skip_whitespace p1) h1 with
      | none => none
      | some (.error f) => some (.error f)
      | some (.ok (left1, p2, h2)) => concat_loop_heap ops slots fuel left1 p2 h2

def math_loop_heap (ops : FloatOps) (slots : List Slot) :
    Nat → Int → Cell → Parser → Heap → Option (Except Fault (Cell × Parser × Heap))
  | 0, _, _, _, _ => none
  | fuel + 1, min_precedence, left, p, h =>
    if strchr_ops p.current_char then
      let op := p.current_char
      let prec := get_precedence op
      if prec < min_precedence then some (.ok (left, p, h))
      else
        match parse_expression_precedence_heap ops slots fuel (prec + 1)
            (skip_whitespace (next_char p)) h with
        | none => none
        | some (.error f) => some (.error f)
        | some (.ok (right, p1, h1)) =>
          match parse_math_operator_heap ops left op right h1 with
          | .error f => some (.error f)
          | .ok (left1, h2) =>
            math_loop_heap ops slots fuel min_precedence left1 (skip_whitespace p1) h2
    else some (.ok (left, p, h))

def concat_loop_heap (ops : FloatOps) (slots : List Slot) :
    Nat → Cell → Parser → Heap → Option (Except Fault (Cell × Parser × Heap))
  | 0, _, _, _ => none
  | fuel + 1, left, p, h =>
    if p.current_char = '.' ∧ p.peek = '.' then
      match parse_expression_precedence_heap ops slots fuel 3
          (skip_whitespace (next_char (next_char p))) h with
      | none => none
      | some (.error f) => some (.error f)
      | some (.ok (right, p1, h1)) =>
        concat_loop_heap ops slots fuel (concat_step_heap ops left right h1).1
          (skip_whitespace p1) (concat_step_heap ops left right h1).2
    else some (.ok (left, p, h))

end

/-- `evaluate_expression` with the heap: the value with its addresses, and the
heap after the evaluation. -/
def evaluate_expression_heap (ops : FloatOps) (slots : List Slot) (fuel : Nat)
    (expr_str : CStr) (h : Heap) : Option (Except Fault (Cell × Heap)) :=
  (parse_expression_precedence_heap ops slots fuel 0
    (next_char { current_char := '\x00', src_ptr := expr_str }) h).map
    (Except.map (fun r => (r.1, r.2.2)))

/-- A parser result without its addresses and without the heap. -/
def erase (r : Cell × Parser × Heap) : Value × Parser := (r.1.value, r.2.1)

/-- The state of `execute_script` with the heap: as `ExecState`, with the
table holding the addresses of its values, and the heap. -/
structure HeapState where
  pc : Nat
  loop_starts : List Nat
  loop_stack_top : Int
  slots : List Slot
  heap : Heap
  stdout : CStr
  trace : List Nat

/-- The state without the addresses and the heap. -/
def HeapState.state (st : HeapState) : ExecState :=
  { pc := st.pc, loop_starts := st.loop_starts, loop_stack_top := st.loop_stack_top,
    vars := st.slots.map Slot.variable, stdout := st.stdout, trace := st.trace }

/-- The `print` branch with the heap: `print_value(val)` reads the blocks of
`val`, then `free_value(val)` releases them. -/
def exec_print_heap (ops : FloatOps) (efuel : Nat) (st : HeapState) (line : CStr) :
    Option (Except Fault HeapState) :=
  match evaluate_expression_heap ops st.slots efuel (line.drop 5) st.heap with
  | none => none
  | some (.error f) => some (.error f)
  | some (.ok (val, h1)) =>
    some (.ok { st with
      stdout := st.stdout ++ print_value ops val.value
      heap := free_value_heap val (h1.reads (print_reads val))
      pc := st.pc + 1 })

/-- The `var` branch with the heap: `set_variable` releases the value the name
held and stores `val` with its pointers. -/
def exec_var_heap (ops : FloatOps) (efuel : Nat) (st : HeapState) (line : CStr) :
    Option (Except Fault HeapState) :=
  if 64 ≤ ((scan_var_name line).getD []).length then some (.error Fault.overrun)
  else
    match strchr line '=' with
    | none => some (.ok { st with pc := st.pc + 1 })
    | some value_part =>
      match evaluate_expression_heap ops st.slots efuel (value_part.drop 1) st.heap with
      | none => none
      | some (.error f) => some (.error f)
      | some (.ok (val, h1)) =>
        match scan_var_name line with
        | none => some (.error Fault.uninit)
        | some name =>
          some (.ok { st with
            slots := (set_variable_heap st.slots name val).1
            heap := (set_variable_heap st.slots name val).2.foldl Heap.free h1
            pc := st.pc + 1 })

/-- The jump `pc = find_match(script, pc)` with the `pc++` that follows it. -/
def exec_skip_heap (script : Script) (st : HeapState) : Option (Except Fault HeapState) :=
  match find_match script st.pc with
  | .error f => some (.error f)
  | .ok m => some (.ok { st with pc := m + 1 })

/-- The `if` branch with the heap: `is_truthy(cond_val)` reads the buffer of a
String, and `free_value(cond_val)` ends the branch. -/
def exec_if_heap (ops : FloatOps) (efuel : Nat) (script : Script) (st : HeapState)
    (line : CStr) : Option (Except Fault HeapState) :=
  match evaluate_expression_heap ops st.slots efuel (line.drop 2) st.heap with
  | none => none
  | some (.error f) => some (.error f)
  | some (.ok (cond_val, h1)) =>
    if !is_truthy cond_val.value then
      exec_skip_heap script
        { st with heap := free_value_heap cond_val (h1.reads (string_reads cond_val)) }
    else
      some (.ok { st with
        heap := free_value_heap cond_val (h1.reads (string_reads cond_val))
        pc := st.pc + 1 })

def push_loop_heap (st : HeapState) : HeapState :=
  if st.loop_stack_top < (MAX_BLOCK_DEPTH : Int) - 1 then
    { st with
      loop_starts := st.loop_starts.set (st.loop_stack_top + 1).toNat st.pc
      loop_stack_top := st.loop_stack_top + 1 }
  else st

/-- The `while` branch with the heap. -/
def exec_while_heap (ops : FloatOps) (efuel : Nat) (script : Script) (st : HeapState)
    (line : CStr) : Option (Except Fault HeapState) :=
  match evaluate_expression_heap ops st.slots efuel (line.drop 5) st.heap with
  | none => none
  | some (.error f) => some (.error f)
  | some (.ok (cond_val, h1)) =>
    if !is_truthy cond_val.value then
      match find_match script st.pc with
      | .error f => some (.error f)
      | .ok m =>
        some (.ok { push_loop_heap st with
          pc := m + 1
          loop_stack_top := (push_loop_heap st).loop_stack_top - 1
          heap := free_value_heap cond_val (h1.reads (string_reads cond_val)) })
    else
      some (.ok { push_loop_heap st with
        pc := st.pc + 1
        heap := free_value_heap cond_val (h1.reads (string_reads cond_val)) })

/-- The `end` branch; it does not touch the heap. -/
def exec_end_heap (script : Script) (st : HeapState) : Option (Except Fault HeapState) :=
  if st.loop_stack_top ≥ 0 then
    if 10 ≤ (first_token (script.getD (st.loop_starts.getD st.loop_stack_top.toNat 0) [])).length
    then some (.error Fault.overrun)
    else if first_token (script.getD (st.loop_starts.getD st.loop_stack_top.toNat 0) []) = []
    then some (.error Fault.uninit)
    else if first_token (script.getD (st.loop_starts.getD st.loop_stack_top.toNat 0) [])
        = "while".toList
    then some (.ok { st with pc := st.loop_starts.getD st.loop_stack_top.toNat 0 })
    else some (.ok { st with loop_stack_top := st.loop_stack_top - 1, pc := st.pc + 1 })
  else some (.ok { st with pc := st.pc + 1 })

def enter_line_heap (st : HeapState) : HeapState := { st with trace := st.trace ++ [st.pc] }

/-- One iteration of the main loop of `execute_script` with the heap, as
`execute_step`. -/
def execute_line_heap (ops : FloatOps) (efuel : Nat) (script : Script) (st : HeapState) :
    Option (Except Fault HeapState) :=
  if 64 ≤ (first_token (script.getD st.pc [])).length then some (.error Fault.overrun)
  else if first_token (script.getD st.pc []) = "print".toList then
    exec_print_heap ops efuel (enter_line_heap st) (script.getD st.pc [])
  else if first_token (script.getD st.pc []) = "var".toList then
    exec_var_heap ops efuel (enter_line_heap st) (script.getD st.pc [])
  else if first_token (script.getD st.pc []) = "if".toList then
    exec_if_heap ops efuel script (enter_line_heap st) (script.getD st.pc [])
  else if first_token (script.getD st.pc []) = "else".toList then
    exec_skip_heap script (enter_line_heap st)
  else if first_token (script.getD st.pc []) = "while".toList then
    exec_while_heap ops efuel script (enter_line_heap st) (script.getD st.pc [])
  else if first_token (script.getD st.pc []) = "end".toList then
    exec_end_heap script (enter_line_heap st)
  else some (.ok { enter_line_heap st with pc := st.pc + 1 })

/-- One iteration of the main loop within the behaviour C defines: when the
iteration has read or released a released block, it ends with `Fault.heap`. -/
def execute_step_heap (ops : FloatOps) (efuel : Nat) (script : Script) (st : HeapState) :
    Option (Except Fault HeapState) :=
  match execute_line_heap ops efuel script st with
  | some (.ok st1) => if st1.heap.bad then some (.error Fault.heap) else some (.ok st1)
  | r => r

/-- The main loop with the heap, for at most `fuel` iterations. -/
def execute_loop_heap (ops : FloatOps) (efuel : Nat) (script : Script) :
    Nat → HeapState → Option (Except Fault HeapState)
  | 0, _ => none
  | fuel + 1, st =>
    if st.pc < script.length then
      match execute_step_heap ops efuel script st with
      | none => none
      | some (.error f) => some (.error f)
      | some (.ok st1) => execute_loop_heap ops efuel script fuel st1
    else some (.ok st)

/-- The state in which `execute_script` enters its main loop, the table being
`slots` and the heap `heap`. -/
def init_heap_state (slots : List Slot) (heap : Heap) : HeapState :=
  { pc := 0, loop_starts := List.replicate MAX_BLOCK_DEPTH 0, loop_stack_top := -1,
    slots := slots, heap := heap, stdout := [], trace := [] }

/-- `execute_script` with the heap. -/
def execute_script_heap (ops : FloatOps) (efuel fuel : Nat) (script : Script)
    (slots : List Slot) (heap : Heap) : Option (Except Fault HeapState) :=
  execute_loop_heap ops efuel script fuel (init_heap_state slots heap)

/-- The states `execute_script` passes through at the test of its main loop,
within the behaviour C defines: the run starts from the table `slots` and a
heap in which no released block has been touched, and every step taken ends
without a `Fault`. -/
inductive Reachable (ops : FloatOps) (efuel : Nat) (script : Script) (slots : List Slot)
    (heap : Heap) : HeapState → Prop where
  | init : heap.bad = false → Reachable ops efuel script slots heap (init_heap_state slots heap)
  | step (st st1 : HeapState) : Reachable ops efuel script slots heap st →
      st.pc < script.length → execute_step_heap ops efuel script st = some (.ok st1) →
      Reachable ops efuel script slots heap st1

/-- The heap before anything is allocated. -/
def empty_heap : Heap := { next := 0, freed := [], bad := false }

/-- The state of `countdown_script` after its first two lines: the `while` at
index 1 has been entered. -/
def countdown_state : HeapState :=
  { pc := 2, loop_starts := (List.replicate MAX_BLOCK_DEPTH 0).set 0 1, loop_stack_top := 0,
    slots := [⟨['i'], Cell.int 2⟩], heap := empty_heap, stdout := [], trace := [0, 1] }

/-- A String is stored in a variable and printed twice. -/
def print_twice_script : Script := script_of ["var s = \"hi\"", "print s", "print s"]

/-! # Theorems -/

/-! ## Basic facts about the cursor -/

theorem isdigit_ne {c d : Char} (hc : isdigit c = true) (hd : isdigit d = false) : c ≠ d := by
  rintro rfl
  rw [hc] at hd
  exact Bool.noConfusion hd

theorem next_char_cons (x c : Char) (cs : CStr) (h : c ≠ '\x00') :
    next_char ⟨x, c :: cs⟩ = ⟨c, cs⟩ := by
  simp [next_char, h]

theorem skip_whitespace_loop_stop (n : Nat) (p : Parser) (h1 : p.current_char ≠ ' ')
    (h2 : p.current_char ≠ '\t') : skip_whitespace_loop n p = p := by
  cases n with
  | zero => rfl
  | succ n => simp [skip_whitespace_loop, h1, h2]

theorem skip_whitespace_stop (p : Parser) (h1 : p.current_char ≠ ' ')
    (h2 : p.current_char ≠ '\t') : skip_whitespace p = p :=
  skip_whitespace_loop_stop _ p h1 h2

theorem skip_whitespace_loop_spaces (c : Char) (cs : CStr) (h0 : c ≠ '\x00') (h1 : c ≠ ' ')
    (h2 : c ≠ '\t') :
    ∀ (n fuel : Nat), n + 1 ≤ fuel →
      skip_whitespace_loop fuel ⟨' ', List.replicate n ' ' ++ c :: cs⟩ = ⟨c, cs⟩ := by
  intro n
  induction n with
  | zero =>
    intro fuel hf
    obtain ⟨k, rfl⟩ : ∃ k, fuel = k + 1 := ⟨fuel - 1, by omega⟩
    simp only [skip_whitespace_loop, List.replicate, List.nil_append, true_or, if_true,
      next_char_cons _ _ _ h0]
    exact skip_whitespace_loop_stop _ _ h1 h2
  | succ n ih =>
    intro fuel hf
    obtain ⟨k, rfl⟩ : ∃ k, fuel = k + 1 := ⟨fuel - 1, by omega⟩
    simp only [skip_whitespace_loop, List.replicate, List.cons_append, true_or, if_true,
      next_char_cons _ _ _ (show ' ' ≠ '\x00' by decide)]
    exact ih k (by omega)

/-- Skipping a run of spaces in front of a character that is no white space. -/
theorem skip_whitespace_spaces (x c : Char) (cs : CStr) (n : Nat) (h0 : c ≠ '\x00')
    (h1 : c ≠ ' ') (h2 : c ≠ '\t') :
    skip_whitespace (next_char ⟨x, List.replicate n ' ' ++ c :: cs⟩) = ⟨c, cs⟩ := by
  cases n with
  | zero =>
    rw [List.replicate, List.nil_append, next_char_cons _ _ _ h0]
    exact skip_whitespace_stop _ h1 h2
  | succ n =>
    rw [List.replicate, List.cons_append, next_char_cons _ _ _ (by decide)]
    exact skip_whitespace_loop_spaces c cs h0 h1 h2 n _ (by simp)

theorem skip_whitespace_loop_not_ws :
    ∀ (fuel : Nat) (p : Parser), p.src_ptr.length + 1 ≤ fuel →
      (skip_whitespace_loop fuel p).current_char ≠ ' ' ∧
        (skip_whitespace_loop fuel p).current_char ≠ '\t' := by
  intro fuel
  induction fuel with
  | zero => intro p h; omega
  | succ n ih =>
    intro p h
    by_cases hws : p.current_char = ' ' ∨ p.current_char = '\t'
    · rw [skip_whitespace_loop, if_pos hws]
      obtain ⟨x, s⟩ := p
      cases s with
      | nil =>
        rw [show next_char ⟨x, []⟩ = ⟨'\x00', []⟩ from rfl,
          skip_whitespace_loop_stop _ _ (by decide) (by decide)]
        exact ⟨by decide, by decide⟩
      | cons c cs =>
        by_cases hc : c = '\x00'
        · have h0 : ('\x00' : Char) ≠ ' ' ∧ ('\x00' : Char) ≠ '\t' := ⟨by decide, by decide⟩
          rw [show next_char ⟨x, c :: cs⟩ = ⟨'\x00', c :: cs⟩ by simp [next_char, hc],
            skip_whitespace_loop_stop _ _ h0.1 h0.2]
          exact h0
        · rw [next_char_cons _ _ _ hc]
          exact ih ⟨c, cs⟩ (by simp at h ⊢; omega)
    · rw [skip_whitespace_loop, if_neg hws]
      exact ⟨fun e => hws (Or.inl e), fun e => hws (Or.inr e)⟩

/-- After `skip_whitespace` the cursor is on no space and no tab. -/
theorem skip_whitespace_not_ws (p : Parser) :
    (skip_whitespace p).current_char ≠ ' ' ∧ (skip_whitespace p).current_char ≠ '\t' :=
  skip_whitespace_loop_not_ws _ p (le_refl _)

theorem skip_whitespace_idem (p : Parser) :
    skip_whitespace (skip_whitespace p) = skip_whitespace p :=
  skip_whitespace_stop _ (skip_whitespace_not_ws p).1 (skip_whitespace_not_ws p).2

/-! ## Number literals -/

theorem parse_number_loop_digits (x : Char) (xs : CStr) (hx : isdigit x = false)
    (hx1 : x ≠ '.') (hx0 : x ≠ '\x00') :
    ∀ (ds : CStr) (c : Char) (buf : CStr) (n : Nat), isdigit c = true →
      (∀ d ∈ ds, isdigit d = true) → buf.length + ds.length + 1 ≤ 127 → ds.length + 1 ≤ n →
      parse_number_loop n ⟨c, ds ++ x :: xs⟩ buf = (⟨x, xs⟩, buf ++ c :: ds) := by
  intro ds
  induction ds with
  | nil =>
    intro c buf n hc _ hlen hn
    obtain ⟨m, rfl⟩ : ∃ m, n = m + 1 := ⟨n - 1, by omega⟩
    have hlen1 : buf.length < 127 := by simp at hlen; omega
    cases m with
    | zero => simp [parse_number_loop, hc, hlen1, next_char, hx0]
    | succ m => simp [parse_number_loop, hc, hlen1, next_char, hx0, hx, hx1]
  | cons d ds ih =>
    intro c buf n hc hds hlen hn
    obtain ⟨m, rfl⟩ : ∃ m, n = m + 1 := ⟨n - 1, by omega⟩
    have hd : isdigit d = true := hds d (List.mem_cons_self _ _)
    have hd0 : d ≠ '\x00' := isdigit_ne hd (by decide)
    have hlen1 : buf.length < 127 := by simp at hlen; omega
    have step : parse_number_loop (m + 1) ⟨c, (d :: ds) ++ x :: xs⟩ buf
        = parse_number_loop m ⟨d, ds ++ x :: xs⟩ (buf ++ [c]) := by
      simp [parse_number_loop, hc, hlen1, next_char, hd0]
    rw [step, ih d (buf ++ [c]) m hd (fun e he => hds e (List.mem_cons_of_mem _ he))
      (by simp at hlen ⊢; omega) (by simp at hn; omega)]
    simp

theorem atoi_digits_eq (ds : CStr) (h : ∀ d ∈ ds, isdigit d = true) (acc : Nat) :
    atoi_digits acc ds = acc * 10 ^ ds.length + lit_value ds := by
  induction ds generalizing acc with
  | nil => simp [atoi_digits, lit_value]
  | cons d ds ih =>
    have hd : isdigit d = true := h d (List.mem_cons_self _ _)
    rw [atoi_digits, if_pos hd, ih (fun e he => h e (List.mem_cons_of_mem _ he))]
    simp only [lit_value, List.map_cons, List.reverse_cons, Nat.ofDigits_append,
      Nat.ofDigits_singleton, List.length_reverse, List.length_map, List.length_cons]
    ring

theorem wrap32_eq_to_int32 (x : Int) : wrap32 x = to_int32 x := by
  unfold wrap32 to_int32
  split <;> omega

theorem wrap32_of_range (x : Int) (h0 : 0 ≤ x) (h1 : x < 2 ^ 31) : wrap32 x = x := by
  unfold wrap32
  omega

theorem strtol_clamp_of_range (x : Int) (h0 : -2 ^ 31 ≤ x) (h1 : x < 2 ^ 31) :
    strtol_clamp x = x := by
  unfold strtol_clamp
  omega

theorem atoi_lit (l : CStr) (h : lit_ok l) : atoi l = lit_value l := by
  obtain ⟨hne, hd, hv⟩ := h
  have hv1 : (lit_value l : Int) < 2 ^ 31 := by exact_mod_cast hv
  have hv0 : (0 : Int) ≤ lit_value l := Int.natCast_nonneg _
  cases l with
  | nil => exact absurd rfl hne
  | cons c cs =>
    have hc : isdigit c = true := hd c (List.mem_cons_self _ _)
    have h1 : isspace c = false := by
      cases hs : isspace c with
      | false => rfl
      | true =>
        exfalso
        simp only [isspace, Bool.or_eq_true, decide_eq_true_eq] at hs
        rcases hs with ((((h | h) | h) | h) | h) | h <;> exact isdigit_ne hc (by decide) h
    have h2 : c ≠ '-' := isdigit_ne hc (by decide)
    have h3 : c ≠ '+' := isdigit_ne hc (by decide)
    have hdrop : (c :: cs).dropWhile isspace = c :: cs := by simp [List.dropWhile, h1]
    have hval : atoi_digits 0 (c :: cs) = lit_value (c :: cs) := by
      rw [atoi_digits_eq _ hd]; simp
    unfold atoi
    rw [hdrop]
    split
    · rename_i heq; exact absurd (List.cons.inj heq).1 h2
    · rename_i heq; exact absurd (List.cons.inj heq).1 h3
    · rw [hval, strtol_clamp_of_range _ (by omega) (by omega)]
      exact wrap32_of_range _ (by omega) (by omega)

/-! ## Unfolding equations of the parser -/

theorem parse_expression_precedence_succ (ops : FloatOps) (vars : List Variable) (fuel : Nat)
    (min_precedence : Int) (p : Parser) :
    parse_expression_precedence ops vars (fuel + 1) min_precedence p =
      match parse_primary ops vars fuel p with
      | none => none
      | some (.error f) => some (.error f)
      | some (.ok (left, p1)) =>
        match math_loop ops vars fuel min_precedence left (skip_whitespace p1) with
        | none => none
        | some (.error f) => some (.error f)
        | some (.ok (left1, p2)) => concat_loop ops vars fuel left1 p2 := rfl

theorem math_loop_succ (ops : FloatOps) (vars : List Variable) (fuel : Nat)
    (min_precedence : Int) (left : Value) (p : Parser) :
    math_loop ops vars (fuel + 1) min_precedence left p =
      if strchr_ops p.current_char then
        if get_precedence p.current_char < min_precedence then some (.ok (left, p))
        else
          match parse_expression_precedence ops vars fuel (get_precedence p.current_char + 1)
              (skip_whitespace (next_char p)) with
          | none => none
          | some (.error f) => some (.error f)
          | some (.ok (right, p1)) =>
            match parse_math_operator ops left p.current_char right with
            | .error f => some (.error f)
            | .ok left1 => math_loop ops vars fuel min_precedence left1 (skip_whitespace p1)
      else some (.ok (left, p)) := rfl

theorem concat_loop_succ (ops : FloatOps) (vars : List Variable) (fuel : Nat)
    (left : Value) (p : Parser) :
    concat_loop ops vars (fuel + 1) left p =
      if p.current_char = '.' ∧ p.peek = '.' then
        match parse_expression_precedence ops vars fuel 3
            (skip_whitespace (next_char (next_char p))) with
        | none => none
        | some (.error f) => some (.error f)
        | some (.ok (right, p1)) =>
          concat_loop ops vars fuel (concat_step ops left right) (skip_whitespace p1)
      else some (.ok (left, p)) := rfl

theorem parse_primary_succ (ops : FloatOps) (vars : List Variable) (fuel : Nat) (p0 : Parser) :
    parse_primary ops vars (fuel + 1) p0 =
      if (skip_whitespace p0).current_char = '(' then
        match parse_expression_precedence ops vars fuel 0 (next_char (skip_whitespace p0)) with
        | none => none
        | some (.error f) => some (.error f)
        | some (.ok (val, p1)) =>
          some (.ok (val, if p1.current_char = ')' then next_char p1 else p1))
      else if (skip_whitespace p0).current_char = '"' then
        some (.ok (parse_string (next_char (skip_whitespace p0))))
      else if isdigit (skip_whitespace p0).current_char ∨
          ((skip_whitespace p0).current_char = '-' ∧ isdigit (skip_whitespace p0).peek) then
        some (.ok (parse_number ops (skip_whitespace p0)))
      else if isalpha (skip_whitespace p0).current_char then
        if (parse_name_loop ((skip_whitespace p0).src_ptr.length + 1)
            (skip_whitespace p0) []).2.length < 64 then
          some (.ok (resolve_name vars
              (parse_name_loop ((skip_whitespace p0).src_ptr.length + 1) (skip_whitespace p0) []).2,
            (parse_name_loop ((skip_whitespace p0).src_ptr.length + 1) (skip_whitespace p0) []).1))
        else some (.error Fault.overrun)
      else if (skip_whitespace p0).current_char = '{' then
        parse_table_loop ops vars fuel [] (skip_whitespace (next_char (skip_whitespace p0)))
      else some (.ok (Value.nil, skip_whitespace p0)) := rfl

/-- `parse_primary` starts by skipping white space. -/
theorem parse_primary_skip (ops : FloatOps) (vars : List Variable) (fuel : Nat) (p : Parser) :
    parse_primary ops vars fuel p = parse_primary ops vars fuel (skip_whitespace p) := by
  cases fuel with
  | zero => rfl
  | succ n => simp only [parse_primary, skip_whitespace_idem]

/-! ## Operator chains: the parser against the reference semantics -/

theorem parse_number_lit (ops : FloatOps) (c : Char) (ds : CStr) (hl : lit_ok (c :: ds))
    (hlen : (c :: ds).length ≤ 127) (x : Char) (xs : CStr) (hx : isdigit x = false)
    (hx1 : x ≠ '.') (hx0 : x ≠ '\x00') :
    parse_number ops ⟨c, ds ++ x :: xs⟩ = (Value.int (lit_value (c :: ds)), ⟨x, xs⟩) := by
  have hc : isdigit c = true := hl.2.1 c (List.mem_cons_self _ _)
  have hds : ∀ d ∈ ds, isdigit d = true := fun d hd => hl.2.1 d (List.mem_cons_of_mem _ hd)
  have hloop := parse_number_loop_digits x xs hx hx1 hx0 ds c [] ((ds ++ x :: xs).length + 1) hc hds
    (by simp at hlen ⊢; omega) (by simp)
  have hdot : '.' ∉ c :: ds := by
    intro hmem
    exact isdigit_ne (hl.2.1 _ hmem) (by decide) rfl
  unfold parse_number
  simp only [hloop, List.nil_append]
  rw [if_neg hdot, atoi_lit _ hl]

theorem parse_primary_lit (ops : FloatOps) (vars : List Variable) (n : Nat) (c : Char)
    (ds : CStr) (hl : lit_ok (c :: ds)) (hlen : (c :: ds).length ≤ 127) (x : Char) (xs : CStr)
    (hx : isdigit x = false) (hx1 : x ≠ '.') (hx0 : x ≠ '\x00') :
    parse_primary ops vars (n + 1) ⟨c, ds ++ x :: xs⟩
      = some (.ok (Value.int (lit_value (c :: ds)), ⟨x, xs⟩)) := by
  have hc : isdigit c = true := hl.2.1 c (List.mem_cons_self _ _)
  have h1 : c ≠ ' ' := isdigit_ne hc (by decide)
  have h2 : c ≠ '\t' := isdigit_ne hc (by decide)
  have h3 : c ≠ '(' := isdigit_ne hc (by decide)
  have h4 : c ≠ '"' := isdigit_ne hc (by decide)
  have hskip : skip_whitespace ⟨c, ds ++ x :: xs⟩ = ⟨c, ds ++ x :: xs⟩ :=
    skip_whitespace_stop _ h1 h2
  simp only [parse_primary, hskip, h3, h4, hc, if_false, true_or, if_true,
    parse_number_lit ops c ds hl hlen x xs hx hx1 hx0]

/-- With a divisor that is not negative the remainder does not trap. -/
theorem parse_math_operator_mul (ops : FloatOps) (m : MulOp) (x y : Int) (hy0 : 0 ≤ y) :
    parse_math_operator ops (Value.int x) m.toChar (Value.int y)
      = .ok (Value.int (ref_mul m x y)) := by
  have hy1 : y ≠ -1 := by omega
  cases m
  · simp [parse_math_operator, MulOp.toChar, int_arith, ref_mul, wrap32_eq_to_int32]
  · by_cases hy : y = 0 <;>
      simp [parse_math_operator, MulOp.toChar, int_arith, ref_mul, hy, hy1, wrap32_eq_to_int32]

theorem parse_math_operator_add (ops : FloatOps) (a : AddOp) (x y : Int) :
    parse_math_operator ops (Value.int x) a.toChar (Value.int y)
      = .ok (Value.int (ref_add a x y)) := by
  cases a <;> simp [parse_math_operator, AddOp.toChar, int_arith, ref_add, wrap32_eq_to_int32]

/-- Skipping white space from the first character of a rendered operator
leads onto the operator. -/
theorem render_op_shape (op : Char) (g : Gap) (rest : CStr) (hd : isdigit op = false)
    (h : op ≠ '.') (h0 : op ≠ '\x00') (h1 : op ≠ ' ') (h2 : op ≠ '\t') :
    ∃ x xs, render_op op g rest = x :: xs ∧ isdigit x = false ∧ x ≠ '.' ∧ x ≠ '\x00' ∧
      skip_whitespace ⟨x, xs⟩ = ⟨op, List.replicate g.after ' ' ++ rest⟩ := by
  obtain ⟨b, a⟩ := g
  cases b with
  | zero =>
    exact ⟨op, _, by simp [render_op], hd, h, h0, skip_whitespace_stop _ h1 h2⟩
  | succ b =>
    refine ⟨' ', List.replicate b ' ' ++ op :: (List.replicate a ' ' ++ rest),
      by simp [render_op, List.replicate], by decide, by decide, by decide, ?_⟩
    exact skip_whitespace_loop_spaces op _ h0 h1 h2 b _ (by simp)

/-- What follows a literal in a rendered chain: no digit and no dot, and
skipping white space from there leads to the operator position. -/
theorem chain_tail_shape (fs : List (MulOp × Gap × CStr)) (ts : List (AddOp × Gap × Term)) :
    ∃ x xs, render_factors fs ++ render_terms ts = x :: xs ∧ isdigit x = false ∧ x ≠ '.' ∧
      x ≠ '\x00' ∧ skip_whitespace ⟨x, xs⟩ = op_cursor fs ts := by
  cases fs with
  | nil =>
    cases ts with
    | nil =>
      exact ⟨'\n', [], rfl, by decide, by decide, by decide,
        skip_whitespace_stop _ (by decide) (by decide)⟩
    | cons at_ ts =>
      obtain ⟨a, g, t⟩ := at_
      obtain ⟨x, xs, e, hx⟩ := render_op_shape a.toChar g (t.render ++ render_terms ts)
        (by cases a <;> decide) (by cases a <;> decide) (by cases a <;> decide)
        (by cases a <;> decide) (by cases a <;> decide)
      exact ⟨x, xs, by simpa [render_factors, render_terms] using e, hx⟩
  | cons ml fs =>
    obtain ⟨m, g, l⟩ := ml
    obtain ⟨x, xs, e, hx⟩ := render_op_shape m.toChar g (l ++ (render_factors fs ++ render_terms ts))
      (by cases m <;> decide) (by cases m <;> decide) (by cases m <;> decide)
      (by cases m <;> decide) (by cases m <;> decide)
    refine ⟨x, xs, ?_, hx⟩
    rw [← e]
    simp [render_factors, render_op]

theorem op_cursor_not_ws (fs : List (MulOp × Gap × CStr)) (ts : List (AddOp × Gap × Term)) :
    (op_cursor fs ts).current_char ≠ ' ' ∧ (op_cursor fs ts).current_char ≠ '\t' ∧
      (op_cursor fs ts).current_char ≠ '.' := by
  cases fs with
  | nil =>
    cases ts with
    | nil => exact ⟨by decide, by decide, by decide⟩
    | cons at_ ts =>
      obtain ⟨a, g, t⟩ := at_
      cases a <;> simp only [op_cursor, AddOp.toChar] <;> exact ⟨by decide, by decide, by decide⟩
  | cons ml fs =>
    obtain ⟨m, g, l⟩ := ml
    cases m <;> simp only [op_cursor, MulOp.toChar] <;> exact ⟨by decide, by decide, by decide⟩

theorem skip_whitespace_op_cursor (fs : List (MulOp × Gap × CStr))
    (ts : List (AddOp × Gap × Term)) : skip_whitespace (op_cursor fs ts) = op_cursor fs ts :=
  skip_whitespace_stop _ (op_cursor_not_ws fs ts).1 (op_cursor_not_ws fs ts).2.1

theorem concat_loop_op_cursor (ops : FloatOps) (vars : List Variable) (n : Nat) (left : Value)
    (fs : List (MulOp × Gap × CStr)) (ts : List (AddOp × Gap × Term)) :
    concat_loop ops vars (n + 1) left (op_cursor fs ts) = some (.ok (left, op_cursor fs ts)) := by
  rw [concat_loop_succ, if_neg]
  exact fun h => (op_cursor_not_ws fs ts).2.2 h.1

/-- At an operator position the operator loop stops when every operator has a
lower precedence than asked for. -/
theorem math_loop_op_cursor_stop (ops : FloatOps) (vars : List Variable) (n : Nat)
    (min_precedence : Int) (left : Value) (fs : List (MulOp × Gap × CStr))
    (ts : List (AddOp × Gap × Term)) (h : fs = [] ∧ 2 ≤ min_precedence ∨ 3 ≤ min_precedence) :
    math_loop ops vars (n + 1) min_precedence left (op_cursor fs ts)
      = some (.ok (left, op_cursor fs ts)) := by
  rw [math_loop_succ]
  cases fs with
  | nil =>
    cases ts with
    | nil => rfl
    | cons at_ ts =>
      obtain ⟨a, g, t⟩ := at_
      have hp : get_precedence (op_cursor [] ((a, g, t) :: ts)).current_char = 1 := by
        cases a <;> rfl
      have hs : strchr_ops (op_cursor [] ((a, g, t) :: ts)).current_char = true := by
        cases a <;> rfl
      rw [hs, hp, if_pos rfl, if_pos (by omega)]
  | cons ml fs =>
    obtain ⟨m, g, l⟩ := ml
    have hp : get_precedence (op_cursor ((m, g, l) :: fs) ts).current_char = 2 := by
      cases m <;> rfl
    have hs : strchr_ops (op_cursor ((m, g, l) :: fs) ts).current_char = true := by
      cases m <;> rfl
    have h3 : (3 : Int) ≤ min_precedence := by
      rcases h with h | h
      · exact absurd h.1 (by simp)
      · exact h
    rw [hs, hp, if_pos rfl, if_pos (by omega)]

/-- A literal parsed as the right operand of `*` or `%`. -/
theorem parse_factor (ops : FloatOps) (vars : List Variable) (n : Nat) (c : Char) (ds : CStr)
    (hl : lit_ok (c :: ds)) (hlen : (c :: ds).length ≤ 127) (fs : List (MulOp × Gap × CStr))
    (ts : List (AddOp × Gap × Term)) :
    parse_expression_precedence ops vars (n + 2) 3
        ⟨c, ds ++ (render_factors fs ++ render_terms ts)⟩
      = some (.ok (Value.int (lit_value (c :: ds)), op_cursor fs ts)) := by
  obtain ⟨x, xs, hk, hx, hx1, hx0, hskip⟩ := chain_tail_shape fs ts
  rw [hk, parse_expression_precedence_succ, parse_primary_lit ops vars n c ds hl hlen x xs hx hx1 hx0]
  simp only [hskip]
  rw [math_loop_op_cursor_stop ops vars n 3 _ fs ts (Or.inr (le_refl _))]
  simp only [concat_loop_op_cursor]

/-- Stepping over an operator and the spaces behind it, onto a literal. -/
theorem skip_to_literal (op c : Char) (n : Nat) (ds k : CStr) (hc : isdigit c = true) :
    skip_whitespace (next_char ⟨op, List.replicate n ' ' ++ ((c :: ds) ++ k)⟩) = ⟨c, ds ++ k⟩ :=
  skip_whitespace_spaces op c (ds ++ k) n (isdigit_ne hc (by decide)) (isdigit_ne hc (by decide))
    (isdigit_ne hc (by decide))

/-- The operator loop folds the remaining factors of a term from the left. -/
theorem math_loop_factors (ops : FloatOps) (vars : List Variable) (min_precedence : Int)
    (hmin : min_precedence ≤ 2) (ts : List (AddOp × Gap × Term)) :
    ∀ (fs : List (MulOp × Gap × CStr)) (acc : Int) (fuel : Nat), fs.length + 3 ≤ fuel →
      (∀ f ∈ fs, lit_ok f.2.2 ∧ f.2.2.length ≤ 127) →
      math_loop ops vars fuel min_precedence (Value.int acc) (op_cursor fs ts)
        = math_loop ops vars (fuel - fs.length) min_precedence
            (Value.int (fs.foldl (fun acc f => ref_mul f.1 acc (lit_value f.2.2)) acc))
            (op_cursor [] ts) := by
  intro fs
  induction fs with
  | nil => intro acc fuel _ _; rfl
  | cons ml fs ih =>
    intro acc fuel hfuel hok
    obtain ⟨m, g, l⟩ := ml
    obtain ⟨hl, hlen⟩ := hok (m, g, l) (List.mem_cons_self _ _)
    obtain ⟨k, rfl⟩ : ∃ k, fuel = k + 2 + 1 := ⟨fuel - 3, by simp at hfuel; omega⟩
    cases l with
    | nil => exact absurd rfl hl.1
    | cons c ds =>
      have hc : isdigit c = true := hl.2.1 c (List.mem_cons_self _ _)
      have hp : get_precedence m.toChar = 2 := by cases m <;> rfl
      have hs : strchr_ops m.toChar = true := by cases m <;> rfl
      rw [math_loop_succ]
      simp only [op_cursor, hs, hp, if_true]
      rw [if_neg (by omega), skip_to_literal _ _ _ _ _ hc]
      rw [show (2 : Int) + 1 = 3 from rfl, parse_factor ops vars k c ds hl hlen fs ts]
      simp only [parse_math_operator_mul ops m acc _ (Int.natCast_nonneg _),
        skip_whitespace_op_cursor]
      rw [ih _ (k + 2) (by simp at hfuel; omega)
        (fun f hf => hok f (List.mem_cons_of_mem _ hf))]
      simp only [List.foldl_cons, List.length_cons]
      congr 1
      omega

/-- A whole term parsed as the right operand of `+` or `-`. -/
theorem parse_term (ops : FloatOps) (vars : List Variable) (fuel : Nat) (c : Char) (ds : CStr)
    (fs : List (MulOp × Gap × CStr)) (ts : List (AddOp × Gap × Term))
    (hok : ∀ l ∈ Term.lits ⟨c :: ds, fs⟩, lit_ok l ∧ l.length ≤ 127)
    (hfuel : fs.length + 4 ≤ fuel) :
    parse_expression_precedence ops vars fuel 2
        ⟨c, ds ++ (render_factors fs ++ render_terms ts)⟩
      = some (.ok (Value.int (Term.eval ⟨c :: ds, fs⟩), op_cursor [] ts)) := by
  obtain ⟨n, rfl⟩ : ∃ n, fuel = n + 1 + 1 := ⟨fuel - 2, by omega⟩
  obtain ⟨hl, hlen⟩ := hok (c :: ds) (List.mem_cons_self _ _)
  have hfs : ∀ f ∈ fs, lit_ok f.2.2 ∧ f.2.2.length ≤ 127 := fun f hf =>
    hok f.2.2 (List.mem_cons_of_mem _ (List.mem_map_of_mem _ hf))
  obtain ⟨x, xs, hk, hx, hx1, hx0, hskip⟩ := chain_tail_shape fs ts
  rw [hk, parse_expression_precedence_succ,
    parse_primary_lit ops vars n c ds hl hlen x xs hx hx1 hx0]
  simp only [hskip]
  rw [math_loop_factors ops vars 2 (le_refl _) ts fs _ (n + 1) (by omega) hfs]
  obtain ⟨j, hj⟩ : ∃ j, n + 1 - fs.length = j + 1 := ⟨n - fs.length, by omega⟩
  rw [hj, math_loop_op_cursor_stop ops vars j 2 _ [] ts (Or.inl ⟨rfl, le_refl _⟩)]
  simp only [concat_loop_op_cursor]
  rfl

/-- The operator loop at the top level folds the remaining summands from the left. -/
theorem math_loop_terms (ops : FloatOps) (vars : List Variable) :
    ∀ (ts : List (AddOp × Gap × Term)) (acc : Int) (fuel : Nat),
      (ts.map (fun a => a.2.2.factors.length + 1)).sum + 4 ≤ fuel →
      (∀ a ∈ ts, ∀ l ∈ a.2.2.lits, lit_ok l ∧ l.length ≤ 127) →
      math_loop ops vars fuel 0 (Value.int acc) (op_cursor [] ts)
        = some (.ok (Value.int (ts.foldl (fun acc a => ref_add a.1 acc a.2.2.eval) acc),
            ⟨'\n', []⟩)) := by
  intro ts
  induction ts with
  | nil =>
    intro acc fuel hfuel _
    obtain ⟨n, rfl⟩ : ∃ n, fuel = n + 1 := ⟨fuel - 1, by omega⟩
    rfl
  | cons at_ ts ih =>
    intro acc fuel hfuel hok
    obtain ⟨a, g, t⟩ := at_
    obtain ⟨l, fs⟩ := t
    have hok1 := hok (a, g, ⟨l, fs⟩) (List.mem_cons_self _ _)
    obtain ⟨hl, hlen⟩ := hok1 l (List.mem_cons_self _ _)
    simp only [List.map_cons, List.sum_cons] at hfuel
    obtain ⟨n, rfl⟩ : ∃ n, fuel = n + 1 := ⟨fuel - 1, by omega⟩
    cases l with
    | nil => exact absurd rfl hl.1
    | cons c ds =>
      have hc : isdigit c = true := hl.2.1 c (List.mem_cons_self _ _)
      have hp : get_precedence a.toChar = 1 := by cases a <;> rfl
      have hs : strchr_ops a.toChar = true := by cases a <;> rfl
      rw [math_loop_succ]
      simp only [op_cursor, hs, hp, if_true]
      rw [if_neg (by omega)]
      have hren : Term.render ⟨c :: ds, fs⟩ ++ render_terms ts
          = (c :: ds) ++ (render_factors fs ++ render_terms ts) := by
        simp [Term.render]
      rw [hren, skip_to_literal _ _ _ _ _ hc, show (1 : Int) + 1 = 2 from rfl,
        parse_term ops vars n c ds fs ts hok1 (by omega)]
      simp only [parse_math_operator_add, skip_whitespace_op_cursor]
      rw [ih _ n (by omega) (fun b hb => hok b (List.mem_cons_of_mem _ hb))]
      rfl

/-- C1, as amended: for every expression made of non-negative decimal literals
(each fitting a signed 32-bit int and at most 127 digits long) joined by
operators from `+ - * %` with any number of spaces around each operator and
ended by a newline, also when spaces precede it, `evaluate_expression` returns
the Int of the reference evaluation (`*` and `%` bind tighter than `+` and `-`,
each level from left to right, 32-bit arithmetic with `x % 0 = 0`), for every
fuel of at least the number of operators plus 5. -/
theorem evaluate_expression_chain (ops : FloatOps) (vars : List Variable) (e : Sum)
    (lead : Nat) (hok : ∀ l ∈ e.lits, lit_ok l ∧ l.length ≤ 127) (fuel : Nat)
    (hfuel : e.operators + 5 ≤ fuel) :
    evaluate_expression ops vars fuel (List.replicate lead ' ' ++ e.render)
      = some (.ok (Value.int e.eval)) := by
  obtain ⟨⟨l, fs⟩, ts⟩ := e
  have hhead : ∀ l1 ∈ Term.lits ⟨l, fs⟩, lit_ok l1 ∧ l1.length ≤ 127 := fun l1 h1 =>
    hok l1 (List.mem_append_left _ h1)
  have hts : ∀ a ∈ ts, ∀ l1 ∈ a.2.2.lits, lit_ok l1 ∧ l1.length ≤ 127 := fun a ha l1 h1 =>
    hok l1 (List.mem_append_right _
      (List.mem_flatten.2 ⟨_, List.mem_map_of_mem (fun a => a.2.2.lits) ha, h1⟩))
  obtain ⟨hl, hlen⟩ := hhead l (List.mem_cons_self _ _)
  have hfs : ∀ f ∈ fs, lit_ok f.2.2 ∧ f.2.2.length ≤ 127 := fun f hf =>
    hhead f.2.2 (List.mem_cons_of_mem _ (List.mem_map_of_mem _ hf))
  simp only [Sum.operators] at hfuel
  obtain ⟨n, rfl⟩ : ∃ n, fuel = n + 1 + 1 := ⟨fuel - 2, by omega⟩
  cases l with
  | nil => exact absurd rfl hl.1
  | cons c ds =>
    have hc : isdigit c = true := hl.2.1 c (List.mem_cons_self _ _)
    obtain ⟨x, xs, hk, hx, hx1, hx0, hskip⟩ := chain_tail_shape fs ts
    have hren : Sum.render ⟨⟨c :: ds, fs⟩, ts⟩ = c :: (ds ++ x :: xs) := by
      simp [Sum.render, Term.render, ← hk]
    unfold evaluate_expression
    rw [hren, parse_expression_precedence_succ, parse_primary_skip,
      skip_whitespace_spaces _ c _ lead (isdigit_ne hc (by decide)) (isdigit_ne hc (by decide))
        (isdigit_ne hc (by decide)),
      parse_primary_lit ops vars n c ds hl hlen x xs hx hx1 hx0]
    simp only [hskip]
    rw [math_loop_factors ops vars 0 (by omega) ts fs _ (n + 1) (by omega) hfs,
      math_loop_terms ops vars ts _ _ (by omega) hts]
    simp only [concat_loop_succ]
    rfl

/-- The expression `1 + 2 * 3` meets the hypotheses of `evaluate_expression_chain`
and evaluates to the Int 7, also behind the space that `print 1 + 2 * 3`
leaves in front of it. -/
theorem evaluate_expression_chain_witness :
    evaluate_expression float_free_ops [] 7 "1 + 2 * 3\n".toList = some (.ok (Value.int 7)) ∧
      evaluate_expression float_free_ops [] 7 " 1 + 2 * 3\n".toList
        = some (.ok (Value.int 7)) :=
  ⟨evaluate_expression_chain float_free_ops [] expr_1_2_3 0 (by decide) 7 (by decide),
    evaluate_expression_chain float_free_ops [] expr_1_2_3 1 (by decide) 7 (by decide)⟩

set_option maxRecDepth 1000000 in
/-- C1, as stated, fails on a literal of more than 127 digits: the literal
`long_literal` (127 zeros and a one) denotes 1 and fits an int, but
`parse_number` reads only its first 127 digits and the evaluation returns the
Int 0, whatever the fuel. -/
theorem evaluate_expression_long_literal :
    lit_ok long_literal ∧ Sum.eval ⟨⟨long_literal, []⟩, []⟩ = 1 ∧
      (∀ n, evaluate_expression float_free_ops [] (n + 2) (Sum.render ⟨⟨long_literal, []⟩, []⟩)
        = some (.ok (Value.int 0))) := by
  refine ⟨by decide, by decide, ?_⟩
  intro n
  rfl

/-- Every chain of literals joined by `+ - * %` is the rendering of an
expression that groups its literals into terms, so `evaluate_expression_chain`
covers every such string. -/
theorem render_chain_is_sum (rest : List (Char × Gap × CStr))
    (hops : ∀ r ∈ rest, r.1 = '+' ∨ r.1 = '-' ∨ r.1 = '*' ∨ r.1 = '%') (first : CStr) :
    ∃ e : Sum, e.render = render_chain first rest ∧
      e.lits = first :: rest.map (fun r => r.2.2) ∧ e.operators = rest.length := by
  induction rest generalizing first with
  | nil => exact ⟨⟨⟨first, []⟩, []⟩, by simp [Sum.render, Term.render, render_factors,
      render_terms, render_chain, render_chain_tail], by simp [Sum.lits, Term.lits],
      by simp [Sum.operators]⟩
  | cons r rest ih =>
    obtain ⟨op, g, l⟩ := r
    obtain ⟨⟨⟨h, fs⟩, ts⟩, hr, hl, ho⟩ := ih (fun r hr => hops r (List.mem_cons_of_mem _ hr)) l
    simp only [Sum.render, Term.render, render_chain] at hr
    simp only [Sum.lits, Term.lits, List.cons_append, List.cons.injEq] at hl
    simp only [Sum.operators] at ho
    have hop := hops (op, g, l) (List.mem_cons_self _ _)
    simp only at hop
    obtain ⟨hh, hl⟩ := hl
    subst hh
    rcases hop with rfl | rfl | rfl | rfl
    · refine ⟨⟨⟨first, []⟩, (AddOp.add, g, ⟨h, fs⟩) :: ts⟩, ?_, ?_, ?_⟩
      · simp [Sum.render, Term.render, render_factors, render_terms, render_chain,
          render_chain_tail, AddOp.toChar, ← hr]
      · simp [Sum.lits, Term.lits, hl]
      · simp [Sum.operators, ← ho]; omega
    · refine ⟨⟨⟨first, []⟩, (AddOp.sub, g, ⟨h, fs⟩) :: ts⟩, ?_, ?_, ?_⟩
      · simp [Sum.render, Term.render, render_factors, render_terms, render_chain,
          render_chain_tail, AddOp.toChar, ← hr]
      · simp [Sum.lits, Term.lits, hl]
      · simp [Sum.operators, ← ho]; omega
    · refine ⟨⟨⟨first, (MulOp.mul, g, h) :: fs⟩, ts⟩, ?_, ?_, ?_⟩
      · simp [Sum.render, Term.render, render_factors, render_chain,
          render_chain_tail, MulOp.toChar, render_op, ← hr]
      · simp [Sum.lits, Term.lits, hl]
      · simp [Sum.operators, ← ho]; omega
    · refine ⟨⟨⟨first, (MulOp.mod, g, h) :: fs⟩, ts⟩, ?_, ?_, ?_⟩
      · simp [Sum.render, Term.render, render_factors, render_chain,
          render_chain_tail, MulOp.toChar, render_op, ← hr]
      · simp [Sum.lits, Term.lits, hl]
      · simp [Sum.operators, ← ho]; omega

/-! ## Concrete runs of `execute_script` -/

/-- C2: on the counting loop of scenario 4 the run halts after two lines and
prints nothing. The guard `i < 3` is read as the variable `i` alone (the
operator loop knows no `<`), its value 0 is falsy, and the loop is skipped. -/
theorem count_script_prints_nothing (e f : Nat) :
    (execute_script float_free_ops (e + 3) (f + 3) count_script []).map
        (Except.map (fun st => (st.stdout, st.trace, st.pc)))
      = some (.ok ([], [0, 1], 5)) := rfl

set_option maxHeartbeats 4000000 in
/-- C3: with a true condition the run of `if_else_script` executes line 1 of
the first branch and also line 6 (`print 3`) of the `else` branch: the `else`
handler jumps to the `end` of the nested `if` instead of its own. -/
theorem if_else_script_runs_both (e f : Nat) :
    (execute_script float_free_ops (e + 3) (f + 6) if_else_script []).map
        (Except.map (fun st => (st.stdout, st.trace)))
      = some (.ok ("1\n3\n".toList, [0, 1, 2, 6, 7])) := rfl

set_option maxHeartbeats 4000000 in
/-- C4: the guard of the `while` of `while_if_script` is false at the first
test, yet line 4 (`print 2`) of its body is executed: the scan for the matching
`end` stops at the `end` of the nested `if`. -/
theorem while_if_script_runs_body (e f : Nat) :
    (execute_script float_free_ops (e + 3) (f + 4) while_if_script []).map
        (Except.map (fun st => (st.stdout, st.trace)))
      = some (.ok ("2\n".toList, [0, 4, 5])) := rfl

/-! ## Block matching -/

theorem find_match_loop_cons (keyword line : CStr) (rest : List CStr) (depth : Int) (pc : Nat)
    (hfit : (first_token line).length < 10) (hk0 : keyword ≠ []) :
    find_match_loop keyword (line :: rest) depth pc =
      if first_token line = keyword then find_match_loop keyword rest (depth + 1) (pc + 1)
      else if first_token line = "end".toList then
        if depth - 1 = 0 then .ok pc else find_match_loop keyword rest (depth - 1) (pc + 1)
      else if keyword = "if".toList ∧ first_token line = "else".toList then
        if depth = 1 then .ok pc else find_match_loop keyword rest depth (pc + 1)
      else find_match_loop keyword rest depth (pc + 1) := by
  have h : ¬ 10 ≤ (first_token line).length := by omega
  rw [find_match_loop, if_neg h, if_neg hk0]

/-- A token of 10 characters or more ends the scan with an overrun. -/
theorem find_match_loop_overrun (keyword line : CStr) (rest : List CStr) (depth : Int) (pc : Nat)
    (hlong : 10 ≤ (first_token line).length) :
    find_match_loop keyword (line :: rest) depth pc = .error Fault.overrun := by
  rw [find_match_loop, if_pos hlong]

theorem tokens_fit_cons (l : CStr) (rest : List CStr) :
    tokens_fit (l :: rest) ↔ (first_token l).length < 10 ∧ tokens_fit rest := by
  simp [tokens_fit]

theorem tokens_fit_append (xs ys : List CStr) :
    tokens_fit (xs ++ ys) ↔ tokens_fit xs ∧ tokens_fit ys := by
  simp only [tokens_fit, List.mem_append]
  exact ⟨fun h => ⟨fun l hl => h l (Or.inl hl), fun l hl => h l (Or.inr hl)⟩,
    fun h l hl => hl.elim (h.1 l) (h.2 l)⟩

/-- Scanning across properly nested lines, whose tokens fit the array, leaves
the depth as it was. -/
theorem find_match_loop_nested (keyword : CStr) (hk : keyword ≠ "end".toList)
    (hk0 : keyword ≠ []) (body : List CStr) (hb : Nested keyword body) :
    tokens_fit body → ∀ (rest : List CStr) (depth : Int) (pc : Nat), 1 ≤ depth →
      find_match_loop keyword (body ++ rest) depth pc
        = find_match_loop keyword rest depth (pc + body.length) := by
  induction hb with
  | nil => intro _ rest depth pc _; rfl
  | plain l rest1 h1 h2 h3 _ ih =>
    intro hfit rest depth pc hd
    obtain ⟨hl, hrest⟩ := (tokens_fit_cons _ _).1 hfit
    rw [List.cons_append, find_match_loop_cons _ _ _ _ _ hl hk0, if_neg h1, if_neg h2,
      if_neg (fun h => h3 h.1 h.2), ih hrest rest depth (pc + 1) hd, List.length_cons]
    congr 1
    omega
  | block hd body1 tl rest1 h1 _ h2 _ ihb ihr =>
    intro hfit rest depth pc hdep
    obtain ⟨hfhd, hfit1⟩ := (tokens_fit_cons _ _).1 hfit
    obtain ⟨hfb, hfit2⟩ := (tokens_fit_append _ _).1 hfit1
    obtain ⟨hftl, hfr⟩ := (tokens_fit_cons _ _).1 hfit2
    have h3 : first_token tl ≠ keyword := fun h => hk (h.symm.trans h2)
    rw [List.cons_append, List.append_assoc, find_match_loop_cons _ _ _ _ _ hfhd hk0, if_pos h1,
      ihb hfb _ (depth + 1) (pc + 1) (by omega), List.cons_append,
      find_match_loop_cons _ _ _ _ _ hftl hk0, if_neg h3,
      if_pos h2, if_neg (by omega), ihr hfr rest _ _ (by omega)]
    simp only [List.length_cons, List.length_append]
    congr 1
    · omega
    · omega
  | block_else hd body1 el body2 tl rest1 hif h1 _ h2 _ h3 _ ih1 ih2 ihr =>
    intro hfit rest depth pc hdep
    obtain ⟨hfhd, hfit1⟩ := (tokens_fit_cons _ _).1 hfit
    obtain ⟨hfb1, hfit2⟩ := (tokens_fit_append _ _).1 hfit1
    obtain ⟨hfel, hfit3⟩ := (tokens_fit_cons _ _).1 hfit2
    obtain ⟨hfb2, hfit4⟩ := (tokens_fit_append _ _).1 hfit3
    obtain ⟨hftl, hfr⟩ := (tokens_fit_cons _ _).1 hfit4
    have h4 : first_token tl ≠ keyword := fun h => hk (h.symm.trans h3)
    have h5 : first_token el ≠ keyword := by
      rw [h2, hif]; decide
    have h6 : first_token el ≠ "end".toList := by
      rw [h2]; decide
    rw [List.cons_append, List.append_assoc, find_match_loop_cons _ _ _ _ _ hfhd hk0, if_pos h1,
      ih1 hfb1 _ (depth + 1) (pc + 1) (by omega), List.cons_append, List.append_assoc,
      find_match_loop_cons _ _ _ _ _ hfel hk0, if_neg h5, if_neg h6, if_pos ⟨hif, h2⟩,
      if_neg (by omega), ih2 hfb2 _ _ _ (by omega), List.cons_append,
      find_match_loop_cons _ _ _ _ _ hftl hk0, if_neg h4, if_pos h3,
      if_neg (by omega), ihr hfr rest _ _ (by omega)]
    simp only [List.length_cons, List.length_append]
    congr 1
    · omega
    · omega

theorem find_match_at (pre : List CStr) (hd : CStr) (rest : List CStr)
    (hfit : (first_token hd).length < 10) :
    find_match (pre ++ hd :: rest) pre.length
      = find_match_loop (first_token hd) rest 1 (pre.length + 1) := by
  unfold find_match
  have h1 : (pre ++ hd :: rest).getD pre.length [] = hd := by
    induction pre with
    | nil => rfl
    | cons x pre ih => simpa [List.getD] using ih
  have h2 : (pre ++ hd :: rest).drop (pre.length + 1) = rest := by
    rw [← List.drop_drop]
    simp
  have h : ¬ 10 ≤ (first_token hd).length := by omega
  simp only [h1, h2]
  rw [if_neg h]

/-- Where a line of `xs ++ ys` lies: in `xs` or in `ys`. -/
theorem append_split (xs ys pre post : List CStr) (hd : CStr)
    (h : xs ++ ys = pre ++ hd :: post) :
    (∃ p, xs = pre ++ hd :: p ∧ post = p ++ ys) ∨ (∃ q, pre = xs ++ q ∧ ys = q ++ hd :: post) := by
  induction xs generalizing pre with
  | nil => exact Or.inr ⟨pre, rfl, h⟩
  | cons x xs ih =>
    cases pre with
    | nil =>
      simp only [List.cons_append, List.nil_append, List.cons.injEq] at h
      exact Or.inl ⟨xs, by simp [h.1], h.2.symm⟩
    | cons y pre =>
      simp only [List.cons_append, List.cons.injEq] at h
      rcases ih pre h.2 with ⟨p, hp, hq⟩ | ⟨q, hp, hq⟩
      · exact Or.inl ⟨p, by simp [h.1, hp], hq⟩
      · exact Or.inr ⟨q, by simp [h.1, hp], hq⟩

/-- In properly nested lines every opening line has a partner: the lines after
it start with a properly nested body (for `if`, possibly split by an `else`)
followed by an `end`. -/
theorem nested_opener_has_partner (opener : CStr) (hk : opener ≠ "end".toList)
    (hk2 : opener ≠ "else".toList) (script : List CStr) (h : Nested opener script) :
    ∀ (pre post : List CStr) (hd : CStr), script = pre ++ hd :: post → first_token hd = opener →
      ∃ body tl post1, post = body ++ tl :: post1 ∧ first_token tl = "end".toList ∧
        (Nested opener body ∨ ∃ b1 el b2, body = b1 ++ el :: b2 ∧ opener = "if".toList ∧
          Nested opener b1 ∧ first_token el = "else".toList ∧ Nested opener b2) := by
  induction h with
  | nil => intro pre post hd h _; simp at h
  | plain l rest h1 _ _ _ ih =>
    intro pre post hd h hop
    cases pre with
    | nil =>
      simp only [List.nil_append, List.cons.injEq] at h
      exact absurd (h.1 ▸ hop) h1
    | cons y pre =>
      simp only [List.cons_append, List.cons.injEq] at h
      exact ih pre post hd h.2 hop
  | block hd0 body0 tl0 rest0 _ hb0 htl0 _ ihb ihr =>
    intro pre post hd h hop
    cases pre with
    | nil =>
      simp only [List.nil_append, List.cons.injEq] at h
      exact ⟨body0, tl0, rest0, h.2.symm, htl0, Or.inl hb0⟩
    | cons y pre =>
      simp only [List.cons_append, List.cons.injEq] at h
      rcases append_split _ _ _ _ _ h.2 with ⟨p, hp, hq⟩ | ⟨q, _, hq⟩
      · obtain ⟨body, tl, post1, e1, e2, e3⟩ := ihb pre p hd hp hop
        exact ⟨body, tl, post1 ++ tl0 :: rest0, by simp [hq, e1], e2, e3⟩
      · cases q with
        | nil =>
          simp only [List.nil_append, List.cons.injEq] at hq
          exact absurd ((hq.1 ▸ hop).symm.trans htl0) hk
        | cons z q =>
          simp only [List.cons_append, List.cons.injEq] at hq
          exact ihr q post hd hq.2 hop
  | block_else hd0 body1 el0 body2 tl0 rest0 hif _ hb1 hel0 hb2 htl0 _ ih1 ih2 ihr =>
    intro pre post hd h hop
    cases pre with
    | nil =>
      simp only [List.nil_append, List.cons.injEq] at h
      exact ⟨body1 ++ el0 :: body2, tl0, rest0, by simp [← h.2], htl0,
        Or.inr ⟨body1, el0, body2, rfl, hif, hb1, hel0, hb2⟩⟩
    | cons y pre =>
      simp only [List.cons_append, List.cons.injEq] at h
      rcases append_split _ _ _ _ _ h.2 with ⟨p, hp, hq⟩ | ⟨q, _, hq⟩
      · obtain ⟨body, tl, post1, e1, e2, e3⟩ := ih1 pre p hd hp hop
        exact ⟨body, tl, post1 ++ el0 :: (body2 ++ tl0 :: rest0), by simp [hq, e1], e2, e3⟩
      · cases q with
        | nil =>
          simp only [List.nil_append, List.cons.injEq] at hq
          exact absurd ((hq.1 ▸ hop).symm.trans hel0) hk2
        | cons z q =>
          simp only [List.cons_append, List.cons.injEq] at hq
          rcases append_split _ _ _ _ _ hq.2 with ⟨p, hp, hq2⟩ | ⟨q2, _, hq2⟩
          · obtain ⟨body, tl, post1, e1, e2, e3⟩ := ih2 q p hd hp hop
            exact ⟨body, tl, post1 ++ tl0 :: rest0, by simp [hq2, e1], e2, e3⟩
          · cases q2 with
            | nil =>
              simp only [List.nil_append, List.cons.injEq] at hq2
              exact absurd ((hq2.1 ▸ hop).symm.trans htl0) hk
            | cons z2 q2 =>
              simp only [List.cons_append, List.cons.injEq] at hq2
              exact ihr q2 post hd hq2.2 hop

/-- In a script whose blocks are all of one kind (`opener` is `while` or `if`),
`find_match` on an opening line returns the index of that line's own partner,
provided the token of every line it scans fits the 10-byte array. For a block
`opener body end` with properly nested `body` it is the index of that `end`;
for an `if body else body2 end` it is the index of that `else`. The lines
before and after the block are arbitrary. -/
theorem find_match_own_partner (opener : CStr)
    (hop : opener = "while".toList ∨ opener = "if".toList) (pre post body : List CStr)
    (hd tl : CStr) (hhd : first_token hd = opener) (hbody : Nested opener body)
    (htl : first_token tl = "end".toList) (hfit : tokens_fit body) :
    find_match (pre ++ hd :: (body ++ tl :: post)) pre.length
        = .ok (pre.length + 1 + body.length) ∧
      ∀ (el : CStr) (body2 : List CStr), opener = "if".toList →
        first_token el = "else".toList → Nested opener body2 →
        find_match (pre ++ hd :: (body ++ el :: (body2 ++ tl :: post))) pre.length
          = .ok (pre.length + 1 + body.length) := by
  have hk : opener ≠ "end".toList := by
    rcases hop with rfl | rfl <;> decide
  have hk0 : opener ≠ [] := by
    rcases hop with rfl | rfl <;> decide
  have hfhd : (first_token hd).length < 10 := by
    rw [hhd]; rcases hop with rfl | rfl <;> decide
  have hftl : (first_token tl).length < 10 := by
    rw [htl]; decide
  have h3 : first_token tl ≠ opener := fun h => hk (h.symm.trans htl)
  constructor
  · rw [find_match_at _ _ _ hfhd, hhd,
      find_match_loop_nested opener hk hk0 body hbody hfit _ 1 _ (le_refl _),
      find_match_loop_cons _ _ _ _ _ hftl hk0, if_neg h3, if_pos htl, if_pos (by norm_num)]
  · intro el body2 hif hel _
    have h5 : first_token el ≠ opener := by
      rw [hel, hif]; decide
    have h6 : first_token el ≠ "end".toList := by
      rw [hel]; decide
    have hfel : (first_token el).length < 10 := by
      rw [hel]; decide
    rw [find_match_at _ _ _ hfhd, hhd,
      find_match_loop_nested opener hk hk0 body hbody hfit _ 1 _ (le_refl _),
      find_match_loop_cons _ _ _ _ _ hfel hk0, if_neg h5, if_neg h6, if_pos ⟨hif, hel⟩,
      if_pos rfl]

/-- Two nested `while` loops: the outer `while` of `nested_while_script` finds
its own `end` at index 4, not the inner one at index 3. -/
theorem find_match_nested_while : find_match nested_while_script 0 = .ok 4 :=
  (find_match_own_partner "while".toList (Or.inl rfl) [] ["print 2\n".toList]
    ["while b\n".toList, "print 1\n".toList, "end\n".toList] "while a\n".toList "end\n".toList
    (by decide)
    (Nested.block "while b\n".toList ["print 1\n".toList] "end\n".toList [] (by decide)
      (Nested.plain _ _ (by decide) (by decide) (by decide) Nested.nil) (by decide) Nested.nil)
    (by decide) (by decide)).1

/-- When a scanned line of the body starts with a token of 10 characters or
more, the scan of such a block does not reach the partner: it ends writing past
the array `line_keyword`. `before` are the lines of the body in front of that
line, properly nested and with tokens that fit. -/
theorem find_match_body_overrun (opener : CStr)
    (hop : opener = "while".toList ∨ opener = "if".toList) (pre before rest : List CStr)
    (hd long : CStr) (hhd : first_token hd = opener) (hbefore : Nested opener before)
    (hfit : tokens_fit before) (hlong : 10 ≤ (first_token long).length) :
    find_match (pre ++ hd :: (before ++ long :: rest)) pre.length = .error Fault.overrun := by
  have hk : opener ≠ "end".toList := by
    rcases hop with rfl | rfl <;> decide
  have hk0 : opener ≠ [] := by
    rcases hop with rfl | rfl <;> decide
  have hfhd : (first_token hd).length < 10 := by
    rw [hhd]; rcases hop with rfl | rfl <;> decide
  rw [find_match_at _ _ _ hfhd, hhd,
    find_match_loop_nested opener hk hk0 before hbefore hfit _ 1 _ (le_refl _),
    find_match_loop_overrun _ _ _ _ _ hlong]

/-- C5 fails on a line that starts with a token of 10 characters: in
`long_token_script` the partner of the `if` at index 0 is its `else` at index
2, but the scan copies the token `abcdefghij` of line 1 and its NUL, 11 bytes,
into the 10-byte array `line_keyword`, and ends there. With a token of 9
characters (`short_token_script`) the `else` is found. -/
theorem find_match_long_token :
    find_match long_token_script 0 = .error Fault.overrun ∧
      find_match short_token_script 0 = .ok 2 ∧
      Nested "if".toList ["abcdefghij\n".toList] := by
  refine ⟨by decide, by decide, ?_⟩
  exact Nested.plain _ _ (by decide) (by decide) (fun _ => by decide) Nested.nil

/-! ## String concatenation -/

theorem fmt_d_eq_toString (i : Int) : fmt_d i = (toString i).toList := by
  cases i with
  | ofNat n =>
    have h : ¬ (Int.ofNat n < 0) := by simp
    simp only [fmt_d, if_neg h]
    rfl
  | negSucc n =>
    have h : Int.negSucc n < 0 := Int.negSucc_lt_zero n
    simp only [fmt_d, if_pos h]
    rfl

theorem value_to_string_stringify (ops : FloatOps) (a : Value) (sa : CStr) (n : Nat)
    (ha : spec_stringify ops a = some sa) : value_to_string ops a n = sa.take (n - 1) := by
  cases a with
  | table items => simp [spec_stringify] at ha
  | int i =>
    simp only [spec_stringify, Option.some.injEq] at ha
    subst ha
    simp only [value_to_string, fmt_d_eq_toString]
  | str s =>
    simp only [spec_stringify, Option.some.injEq] at ha
    subst ha
    rfl
  | float f =>
    simp only [spec_stringify, Option.some.injEq] at ha
    subst ha
    rfl
  | bool b =>
    simp only [spec_stringify, Option.some.injEq] at ha
    subst ha
    rfl
  | nil =>
    simp only [spec_stringify, Option.some.injEq] at ha
    subst ha
    rfl

/-- C6, as amended: for all values `a` and `b` other than tables, the `..`
step yields the String made of the first 255 characters of `stringify a`
followed by the first 255 characters of `stringify b`; it is exactly
`stringify a` followed by `stringify b` when neither is longer than 255
characters. -/
theorem concat_step_stringify (ops : FloatOps) (a b : Value) (sa sb : CStr)
    (ha : spec_stringify ops a = some sa) (hb : spec_stringify ops b = some sb) :
    concat_step ops a b = Value.str (sa.take 255 ++ sb.take 255) ∧
      (sa.length ≤ 255 → sb.length ≤ 255 → concat_step ops a b = Value.str (sa ++ sb)) := by
  have h : concat_step ops a b = Value.str (sa.take 255 ++ sb.take 255) := by
    simp [concat_step, value_to_string_stringify ops a sa 256 ha,
      value_to_string_stringify ops b sb 256 hb]
  refine ⟨h, fun h1 h2 => ?_⟩
  rw [h, List.take_of_length_le h1, List.take_of_length_le h2]

/-- The strings `ab` and `c`, and the Int 12 with the Bool `true`. -/
theorem concat_step_stringify_witness :
    concat_step float_free_ops (Value.str "ab".toList) (Value.str "c".toList)
        = Value.str "abc".toList ∧
      concat_step float_free_ops (Value.int 12) (Value.bool true) = Value.str "12true".toList :=
  ⟨(concat_step_stringify float_free_ops (Value.str "ab".toList) (Value.str "c".toList)
      "ab".toList "c".toList rfl rfl).2 (by decide) (by decide),
    (concat_step_stringify float_free_ops (Value.int 12) (Value.bool true)
      "12".toList "true".toList rfl rfl).2 (by decide) (by decide)⟩

set_option maxRecDepth 1000000 in
/-- C6, as stated, fails on a string of more than 255 characters: joining
`long_string` (256 letters) with the empty string yields a String of 255
letters, not `long_string` itself. The same happens when the two operands are
parsed from the expression `"aa..a" .. ""`. -/
theorem concat_step_long_string :
    spec_stringify float_free_ops (Value.str long_string) = some long_string ∧
      spec_stringify float_free_ops (Value.str []) = some [] ∧
      concat_step float_free_ops (Value.str long_string) (Value.str [])
        = Value.str (List.replicate 255 'a') ∧
      concat_step float_free_ops (Value.str long_string) (Value.str [])
        ≠ Value.str (long_string ++ []) ∧
      evaluate_expression float_free_ops [] 4
          ('"' :: (long_string ++ "\" .. \"\"\n".toList))
        = some (.ok (Value.str (List.replicate 255 'a'))) := by
  have h3 : concat_step float_free_ops (Value.str long_string) (Value.str [])
      = Value.str (List.replicate 255 'a') := rfl
  refine ⟨rfl, rfl, h3, ?_, rfl⟩
  rw [h3]
  intro h
  injection h with h
  have := congrArg List.length h
  simp [long_string] at this

/-! ## Arithmetic -/

theorem to_int32_range (x : Int) : int_range (to_int32 x) := by
  unfold to_int32 int_range
  split <;> constructor <;> omega

theorem tmod_bounds (a b : Int) :
    (0 ≤ a → 0 ≤ Int.tmod a b ∧ Int.tmod a b ≤ a) ∧ (a ≤ 0 → a ≤ Int.tmod a b ∧ Int.tmod a b ≤ 0) := by
  cases a with
  | ofNat m =>
    cases b with
    | ofNat n =>
      have h : ((m % n : Nat) : Int) ≤ m := by exact_mod_cast Nat.mod_le m n
      simp only [Int.tmod, Int.ofNat_eq_coe]
      omega
    | negSucc n =>
      have h : ((m % Nat.succ n : Nat) : Int) ≤ m := by exact_mod_cast Nat.mod_le m _
      simp only [Int.tmod, Int.ofNat_eq_coe]
      omega
  | negSucc m =>
    cases b with
    | ofNat n =>
      have h : ((Nat.succ m % n : Nat) : Int) ≤ Nat.succ m := by exact_mod_cast Nat.mod_le _ _
      simp only [Int.tmod, Int.ofNat_eq_coe, Int.negSucc_eq]
      omega
    | negSucc n =>
      have h : ((Nat.succ m % Nat.succ n : Nat) : Int) ≤ Nat.succ m := by
        exact_mod_cast Nat.mod_le _ _
      simp only [Int.tmod, Int.ofNat_eq_coe, Int.negSucc_eq]
      omega

/-- For Int operands `a` and `b` in the range of `int` and an operator among
`+ - * %`, `parse_math_operator` returns the Int whose payload is the native
32-bit result (wraparound for `+ - *`, the remainder truncating toward zero for
`%`, and 0 for `a % 0`), with one exception: `INT_MIN % -1` ends with SIGFPE.
The native result is again in the range of `int`. -/
theorem parse_math_operator_int (ops : FloatOps) (a b : Int) (op : Char)
    (ha : int_range a) (hb : int_range b)
    (hop : op = '+' ∨ op = '-' ∨ op = '*' ∨ op = '%') :
    parse_math_operator ops (Value.int a) op (Value.int b)
        = (if op = '%' ∧ a = INT_MIN ∧ b = -1 then .error Fault.sigfpe
          else .ok (Value.int (native_int op a b))) ∧
      int_range (native_int op a b) := by
  have hmod : b ≠ 0 → wrap32 (Int.tmod a b) = a - b * Int.tdiv a b ∧
      int_range (a - b * Int.tdiv a b) := by
    intro _
    have hb := tmod_bounds a b
    rw [← Int.tmod_def]
    unfold int_range at ha ⊢
    unfold wrap32
    omega
  rcases hop with rfl | rfl | rfl | rfl
  · exact ⟨by simp [parse_math_operator, int_arith, native_int, wrap32_eq_to_int32],
      by simp [native_int, to_int32_range]⟩
  · exact ⟨by simp [parse_math_operator, int_arith, native_int, wrap32_eq_to_int32],
      by simp [native_int, to_int32_range]⟩
  · exact ⟨by simp [parse_math_operator, int_arith, native_int, wrap32_eq_to_int32],
      by simp [native_int, to_int32_range]⟩
  · by_cases hb0 : b = 0
    · subst hb0
      exact ⟨by simp [parse_math_operator, int_arith, native_int], by
        simp [native_int, int_range]⟩
    · refine ⟨?_, by simpa [native_int, hb0] using (hmod hb0).2⟩
      by_cases ht : a = -2 ^ 31 ∧ b = -1
      · simp [parse_math_operator, int_arith, hb0, ht, INT_MIN]
      · have ht2 : ¬ (a = INT_MIN ∧ b = -1) := ht
        have ht3 : ¬ (a = -2147483648 ∧ b = -1) := fun h => ht ⟨by rw [h.1]; norm_num, h.2⟩
        simp [parse_math_operator, int_arith, native_int, hb0, ht2, ht3, (hmod hb0).1]

/-- The payloads of `2147483647 + 1`, `-7 % 2` and `5 % 0`. -/
theorem parse_math_operator_int_examples :
    parse_math_operator float_free_ops (Value.int 2147483647) '+' (Value.int 1)
        = .ok (Value.int (-2147483648)) ∧
      parse_math_operator float_free_ops (Value.int (-7)) '%' (Value.int 2)
        = .ok (Value.int (-1)) ∧
      parse_math_operator float_free_ops (Value.int 5) '%' (Value.int 0) = .ok (Value.int 0) :=
  ⟨(parse_math_operator_int float_free_ops 2147483647 1 '+' (by decide) (by decide)
      (by decide)).1,
    (parse_math_operator_int float_free_ops (-7) 2 '%' (by decide) (by decide) (by decide)).1,
    (parse_math_operator_int float_free_ops 5 0 '%' (by decide) (by decide) (by decide)).1⟩

/-- C7 fails on `INT_MIN % -1`: both operands are in the range of `int` and
the native result the claim states is 0, but the guard of `%` tests the divisor
for 0 only and the division traps. The line `print -2147483648 % -1` reaches
it: the run ends with SIGFPE and prints nothing. -/
theorem parse_math_operator_int_min_rem (ops : FloatOps) :
    int_range INT_MIN ∧ int_range (-1) ∧ native_int '%' INT_MIN (-1) = 0 ∧
      parse_math_operator ops (Value.int INT_MIN) '%' (Value.int (-1)) = .error Fault.sigfpe ∧
      evaluate_expression ops [] 5 " -2147483648 % -1\n".toList = some (.error Fault.sigfpe) ∧
      execute_script ops 5 2 rem_script [] = some (.error Fault.sigfpe) := by
  refine ⟨by decide, by decide, by decide, rfl, rfl, rfl⟩

/-- C8: for numeric operands (each Int or Float), `parse_math_operator` with
`/` returns a value whose tag is Float, also for Int by Int and for a zero
divisor. -/
theorem parse_math_operator_div_float (ops : FloatOps) (a b : Value) (ha : numeric a)
    (hb : numeric b) :
    (parse_math_operator ops a '/' b).map Value.type = .ok ValueType.VAL_FLOAT := by
  cases a <;> cases b <;>
    simp_all [numeric, Value.type, parse_math_operator, Except.map]

/-- The division of the Int 6 by the Int 0 yields a Float. -/
theorem parse_math_operator_div_float_witness :
    (parse_math_operator float_free_ops (Value.int 6) '/' (Value.int 0)).map Value.type
      = .ok ValueType.VAL_FLOAT :=
  parse_math_operator_div_float float_free_ops (Value.int 6) (Value.int 0) (by decide)
    (by decide)

/-- For every operator, `parse_math_operator` returns Nil when an operand is
not an Int or a Float; it ends with SIGFPE exactly on `INT_MIN % -1`; and it
returns a value other than Nil exactly when both operands are numeric and the
operation is not `INT_MIN % -1`. -/
theorem parse_math_operator_nil_iff (ops : FloatOps) (left right : Value) (op : Char) :
    (¬ (numeric left ∧ numeric right) → parse_math_operator ops left op right = .ok Value.nil) ∧
      (parse_math_operator ops left op right = .error Fault.sigfpe ↔
        left = Value.int INT_MIN ∧ op = '%' ∧ right = Value.int (-1)) ∧
      ((∃ v, parse_math_operator ops left op right = .ok v ∧ v.type ≠ ValueType.VAL_NIL) ↔
        numeric left ∧ numeric right ∧
          ¬ (left = Value.int INT_MIN ∧ op = '%' ∧ right = Value.int (-1))) := by
  cases left <;> cases right <;>
    try (simp [numeric, Value.type, parse_math_operator]; done)
  rename_i a b
  by_cases hop : op = '/'
  · subst hop
    simp [numeric, Value.type, parse_math_operator]
  · by_cases hm : op = '%'
    · subst hm
      by_cases hb0 : b = 0
      · subst hb0
        simp [numeric, Value.type, parse_math_operator, int_arith]
      · by_cases ht : a = -2 ^ 31 ∧ b = -1
        · obtain ⟨rfl, rfl⟩ := ht
          simp [numeric, Value.type, parse_math_operator, int_arith, INT_MIN]
        · have ht2 : ¬ (a = INT_MIN ∧ b = -1) := ht
          have ht3 : ¬ (a = -2147483648 ∧ b = -1) := fun h => ht ⟨by rw [h.1]; norm_num, h.2⟩
          simp [numeric, Value.type, parse_math_operator, int_arith, hb0, ht2, ht3]
    · have h1 : ∃ i, int_arith op a b = .ok i := by
        unfold int_arith
        simp only [hm, if_false]
        split
        · exact ⟨_, rfl⟩
        · split
          · exact ⟨_, rfl⟩
          · split <;> exact ⟨_, rfl⟩
      obtain ⟨i, hi⟩ := h1
      simp [numeric, Value.type, parse_math_operator, hop, hm, hi]

/-- C9 fails on `INT_MIN % -1`: both operands are numeric, yet
`parse_math_operator` returns no value at all, so no value other than Nil: the
division traps. -/
theorem parse_math_operator_numeric_no_value (ops : FloatOps) :
    numeric (Value.int INT_MIN) ∧ numeric (Value.int (-1)) ∧
      ¬ ∃ v, parse_math_operator ops (Value.int INT_MIN) '%' (Value.int (-1)) = .ok v := by
  refine ⟨by decide, by decide, ?_⟩
  rintro ⟨v, hv⟩
  have h : parse_math_operator ops (Value.int INT_MIN) '%' (Value.int (-1))
      = .error Fault.sigfpe := rfl
  rw [h] at hv
  exact Except.noConfusion hv

/-! ## The variable table -/

theorem get_variable_absent (vars : List Variable) (name : CStr) (h : ¬ present vars name) :
    get_variable vars name = Value.nil := by
  induction vars with
  | nil => rfl
  | cons v vs ih =>
    have h1 : v.name ≠ name := fun e => h ⟨v, List.mem_cons_self _ _, e⟩
    have h2 : ¬ present vs name := fun ⟨x, hx, e⟩ => h ⟨x, List.mem_cons_of_mem _ hx, e⟩
    rw [get_variable, if_neg h1, ih h2]

theorem set_variable_loop_none (vars : List Variable) (name : CStr) (val : Value) :
    set_variable_loop vars name val = none ↔ ¬ present vars name := by
  induction vars with
  | nil => simp [set_variable_loop, present]
  | cons v vs ih =>
    by_cases h1 : v.name = name
    · simp [set_variable_loop, h1, present]
    · simp only [set_variable_loop, if_neg h1, Option.map_eq_none', ih]
      simp [present, h1]

theorem set_variable_loop_get (vars : List Variable) (name : CStr) (val : Value)
    (vs1 : List Variable) (h : set_variable_loop vars name val = some vs1) :
    get_variable vs1 name = val ∧ ∀ m, m ≠ name → get_variable vs1 m = get_variable vars m := by
  induction vars generalizing vs1 with
  | nil => simp [set_variable_loop] at h
  | cons v vs ih =>
    by_cases h1 : v.name = name
    · simp only [set_variable_loop, if_pos h1, Option.some.injEq] at h
      subst h
      refine ⟨by simp [get_variable, h1], fun m hm => ?_⟩
      have h2 : v.name ≠ m := fun e => hm (e.symm.trans h1)
      simp [get_variable, h2]
    · simp only [set_variable_loop, if_neg h1, Option.map_eq_some'] at h
      obtain ⟨vs2, h2, rfl⟩ := h
      obtain ⟨e1, e2⟩ := ih vs2 h2
      refine ⟨by simp [get_variable, h1, e1], fun m hm => ?_⟩
      simp [get_variable, e2 m hm]

theorem get_variable_append (vars : List Variable) (x : Variable) (m : CStr) :
    get_variable (vars ++ [x]) m
      = if present vars m then get_variable vars m else if x.name = m then x.value else Value.nil := by
  classical
  induction vars with
  | nil => simp [get_variable, present]
  | cons v vs ih =>
    by_cases h1 : v.name = m
    · have : present (v :: vs) m := ⟨v, List.mem_cons_self _ _, h1⟩
      simp [get_variable, h1, this]
    · have hp : present (v :: vs) m ↔ present vs m := by
        simp [present, h1]
      simp only [List.cons_append, get_variable, if_neg h1, hp]
      exact ih

theorem set_variable_get_cases (vars : List Variable) (n : CStr) (v : Value) (hn : n.length ≤ 63) :
    (present vars n ∨ vars.length < MAX_VARS → get_variable (set_variable vars n v) n = v) ∧
      (¬ present vars n → ¬ vars.length < MAX_VARS →
        set_variable vars n v = vars ∧ get_variable (set_variable vars n v) n = Value.nil) ∧
      (∀ m, m ≠ n → get_variable (set_variable vars n v) m = get_variable vars m) := by
  classical
  have htake : n.take 63 = n := List.take_of_length_le hn
  cases hloop : set_variable_loop vars n v with
  | some vs1 =>
    have hp : present vars n := by
      by_contra hc
      rw [(set_variable_loop_none vars n v).2 hc] at hloop
      exact Option.noConfusion hloop
    obtain ⟨e1, e2⟩ := set_variable_loop_get vars n v vs1 hloop
    have hset : set_variable vars n v = vs1 := by simp [set_variable, hloop]
    rw [hset]
    exact ⟨fun _ => e1, fun h => absurd hp h, e2⟩
  | none =>
    have hp : ¬ present vars n := (set_variable_loop_none vars n v).1 hloop
    by_cases hlen : vars.length < MAX_VARS
    · have hset : set_variable vars n v = vars ++ [{ name := n, value := v }] := by
        simp [set_variable, hloop, hlen, htake]
      rw [hset]
      refine ⟨fun _ => by simp [get_variable_append, hp], fun _ h => absurd hlen h, fun m hm => ?_⟩
      rw [get_variable_append]
      by_cases hpm : present vars m
      · simp [hpm]
      · simp [hpm, get_variable_absent vars m hpm, Ne.symm hm]
    · have hset : set_variable vars n v = vars := by simp [set_variable, hloop, hlen]
      rw [hset]
      exact ⟨fun h => by
        rcases h with h | h
        · exact absurd h hp
        · exact absurd h hlen, fun _ _ => ⟨rfl, get_variable_absent vars n hp⟩, fun _ _ => rfl⟩

theorem get_variable_never_set (assigns : List (CStr × Value)) (m : CStr)
    (hlen : ∀ a ∈ assigns, a.1.length ≤ 63) (hne : ∀ a ∈ assigns, a.1 ≠ m)
    (vars : List Variable) :
    get_variable (set_all vars assigns) m = get_variable vars m := by
  induction assigns generalizing vars with
  | nil => rfl
  | cons a as ih =>
    have h1 := (set_variable_get_cases vars a.1 a.2 (hlen a (List.mem_cons_self _ _))).2.2 m
      (Ne.symm (hne a (List.mem_cons_self _ _)))
    simp only [set_all, List.foldl_cons] at ih ⊢
    rw [ih (fun b hb => hlen b (List.mem_cons_of_mem _ hb))
      (fun b hb => hne b (List.mem_cons_of_mem _ hb)), h1]

/-- C10: for every table, every name `n` of at most 63 characters and every
value `v`: after `set_variable(n, v)`, `get_variable(n)` returns `v` when `n`
was present or the table held fewer than 256 entries; otherwise the table is
left as it was and `get_variable(n)` returns Nil; `get_variable(m)` is unchanged
for every other name `m`; and after any sequence of assignments from the empty
table, a name that was never assigned reads as Nil. -/
theorem set_get_variable (vars : List Variable) (n : CStr) (v : Value) (hn : n.length ≤ 63) :
    (present vars n ∨ vars.length < MAX_VARS → get_variable (set_variable vars n v) n = v) ∧
      (¬ present vars n → ¬ vars.length < MAX_VARS →
        set_variable vars n v = vars ∧ get_variable (set_variable vars n v) n = Value.nil) ∧
      (∀ m, m ≠ n → get_variable (set_variable vars n v) m = get_variable vars m) ∧
      (∀ (assigns : List (CStr × Value)) (m : CStr), (∀ a ∈ assigns, a.1.length ≤ 63) →
        (∀ a ∈ assigns, a.1 ≠ m) → get_variable (set_all [] assigns) m = Value.nil) := by
  obtain ⟨h1, h2, h3⟩ := set_variable_get_cases vars n v hn
  exact ⟨h1, h2, h3, fun assigns m hl hne => get_variable_never_set assigns m hl hne []⟩

/-- Assigning `y` in a table that holds `x`: `y` reads as the new value and `x`
as before. -/
theorem set_get_variable_witness :
    get_variable (set_variable [⟨"x".toList, Value.int 1⟩] "y".toList (Value.int 2)) "y".toList
        = Value.int 2 ∧
      get_variable (set_variable [⟨"x".toList, Value.int 1⟩] "y".toList (Value.int 2)) "x".toList
        = get_variable [⟨"x".toList, Value.int 1⟩] "x".toList :=
  ⟨(set_get_variable [⟨"x".toList, Value.int 1⟩] "y".toList (Value.int 2) (by decide)).1
      (Or.inr (by decide)),
    (set_get_variable [⟨"x".toList, Value.int 1⟩] "y".toList (Value.int 2) (by decide)).2.2.1
      "x".toList (by decide)⟩

/-! ## Truthiness -/

/-- C14: `is_truthy` is false for Nil, the stored boolean for a Bool, true
exactly for a nonzero payload of an Int and of a Float (every bit pattern but
those of `+0.0` and `-0.0`), true exactly for a non-empty String and for a
Table with at least one element. -/
theorem is_truthy_ladder :
    is_truthy Value.nil = false ∧
      (∀ b, is_truthy (Value.bool b) = b) ∧
      (∀ i, is_truthy (Value.int i) = true ↔ i ≠ 0) ∧
      (∀ f : F32, f.bits < 2 ^ 32 →
        (is_truthy (Value.float f) = false ↔ f.bits = 0 ∨ f.bits = 2 ^ 31)) ∧
      (∀ s, is_truthy (Value.str s) = true ↔ s ≠ []) ∧
      (∀ items, is_truthy (Value.table items) = true ↔ 0 < items.length) := by
  refine ⟨rfl, fun _ => rfl, fun i => by simp [is_truthy], fun f hf => ?_,
    fun s => by simp [is_truthy, List.length_pos], fun items => by simp [is_truthy]⟩
  simp only [is_truthy, F32.nonzero, bne_eq_false_iff_eq, beq_iff_eq]
  omega

/-! ## Unmatched blocks -/

/-- An index the scan returns lies between the line before its first line and
its last line. -/
theorem find_match_loop_bounds (keyword : CStr) :
    ∀ (lines : List CStr) (depth : Int) (pc r : Nat), 1 ≤ pc →
      find_match_loop keyword lines depth pc = .ok r →
      pc - 1 ≤ r ∧ r ≤ pc + lines.length - 1 := by
  intro lines
  induction lines with
  | nil =>
    intro depth pc r h hr
    simp only [find_match_loop, Except.ok.injEq] at hr
    simp only [List.length_nil]
    omega
  | cons l rest ih =>
    intro depth pc r h hr
    have h1 := fun d hd => ih d (pc + 1) r (by omega) hd
    rw [find_match_loop] at hr
    simp only [List.length_cons]
    split at hr
    · exact Except.noConfusion hr
    · split at hr
      · exact Except.noConfusion hr
      · split at hr
        · have := h1 _ hr; omega
        · split at hr
          · split at hr
            · simp only [Except.ok.injEq] at hr; omega
            · have := h1 _ hr; omega
          · split at hr
            · split at hr
              · simp only [Except.ok.injEq] at hr; omega
              · have := h1 _ hr; omega
            · have := h1 _ hr; omega

/-- When the keyword is set and every token fits, the scan returns an index. -/
theorem find_match_loop_ok (keyword : CStr) (hk0 : keyword ≠ []) :
    ∀ (lines : List CStr) (depth : Int) (pc : Nat), tokens_fit lines →
      ∃ r, find_match_loop keyword lines depth pc = .ok r := by
  intro lines
  induction lines with
  | nil => intro depth pc _; exact ⟨_, rfl⟩
  | cons l rest ih =>
    intro depth pc hfit
    obtain ⟨hl, hrest⟩ := (tokens_fit_cons _ _).1 hfit
    rw [find_match_loop_cons _ _ _ _ _ hl hk0]
    split
    · exact ih _ _ hrest
    · split
      · split
        · exact ⟨_, rfl⟩
        · exact ih _ _ hrest
      · split
        · split
          · exact ⟨_, rfl⟩
          · exact ih _ _ hrest
        · exact ih _ _ hrest

/-- An index `find_match` returns lies between its start line and the last line. -/
theorem find_match_ge (script : Script) (s r : Nat) (hs : s < script.length)
    (hr : find_match script s = .ok r) : s ≤ r ∧ r + 1 ≤ script.length := by
  unfold find_match at hr
  simp only at hr
  split at hr
  · exact Except.noConfusion hr
  · have hb := find_match_loop_bounds _ _ _ _ _ (by omega) hr
    have hlen : (script.drop (s + 1)).length = script.length - (s + 1) := List.length_drop _ _
    omega

/-- On a start line with a token, `find_match` returns an index when the tokens
of the start line and of the lines behind it fit the arrays. -/
theorem find_match_ok (script : Script) (s : Nat)
    (hk0 : first_token (script.getD s []) ≠ [])
    (hk : (first_token (script.getD s [])).length < 10)
    (hfit : tokens_fit (script.drop (s + 1))) : ∃ r, find_match script s = .ok r := by
  have h : ¬ 10 ≤ (first_token (script.getD s [])).length := by omega
  unfold find_match
  simp only
  rw [if_neg h]
  exact find_match_loop_ok _ hk0 _ _ _ hfit

theorem depth_from_cons (keyword : CStr) (d : Int) (l : CStr) (before : List CStr) :
    depth_from keyword d (l :: before)
      = depth_from keyword
          (if first_token l = keyword then d + 1
            else if first_token l = "end".toList then d - 1 else d) before := by
  unfold depth_from
  by_cases h1 : first_token l = keyword
  · rw [if_pos h1, List.countP_cons_of_pos _ _ (by simpa using h1),
      List.countP_cons_of_neg _ _ (by simp [h1])]
    push_cast
    omega
  · rw [if_neg h1, List.countP_cons_of_neg _ _ (by simpa using h1)]
    by_cases h2 : first_token l = "end".toList
    · rw [if_pos h2, List.countP_cons_of_pos _ _ (by simp only [decide_eq_true_eq]; exact ⟨h1, h2⟩)]
      push_cast
      omega
    · rw [if_neg h2, List.countP_cons_of_neg _ _ (by
        simp only [decide_eq_true_eq]; exact fun h => h2 h.2)]

/-- When no line stops the scan, and every token fits, it runs to the end of
the script. -/
theorem find_match_loop_unmatched (keyword : CStr) (hk0 : keyword ≠ []) :
    ∀ (lines : List CStr) (depth : Int) (pc : Nat), tokens_fit lines →
      (∀ before line after, lines = before ++ line :: after →
        ¬ (first_token line ≠ keyword ∧ depth_from keyword depth before = 1 ∧
          (first_token line = "end".toList ∨
            (keyword = "if".toList ∧ first_token line = "else".toList)))) →
      find_match_loop keyword lines depth pc = .ok (pc + lines.length - 1) := by
  intro lines
  induction lines with
  | nil => intro depth pc _ _; simp [find_match_loop]
  | cons l rest ih =>
    intro depth pc hfit h
    obtain ⟨hl, hfrest⟩ := (tokens_fit_cons _ _).1 hfit
    have h0 := h [] l rest rfl
    have hd0 : depth_from keyword depth [] = depth := by simp [depth_from]
    rw [hd0] at h0
    have hrest : ∀ d, d = (if first_token l = keyword then depth + 1
        else if first_token l = "end".toList then depth - 1 else depth) →
        find_match_loop keyword rest d (pc + 1) = .ok (pc + 1 + rest.length - 1) := by
      intro d hd
      apply ih _ _ hfrest
      intro before line after e
      have := h (l :: before) line after (by simp [e])
      rw [depth_from_cons, ← hd] at this
      exact this
    have hidx : pc + 1 + rest.length - 1 = pc + (rest.length + 1) - 1 := by omega
    rw [find_match_loop_cons _ _ _ _ _ hl hk0]
    simp only [List.length_cons]
    by_cases h1 : first_token l = keyword
    · rw [if_pos h1, hrest _ (by rw [if_pos h1]), hidx]
    · rw [if_neg h1]
      by_cases h2 : first_token l = "end".toList
      · rw [if_pos h2]
        have hne : ¬ depth - 1 = 0 := fun e => h0 ⟨h1, by omega, Or.inl h2⟩
        rw [if_neg hne, hrest _ (by rw [if_neg h1, if_pos h2]), hidx]
      · rw [if_neg h2]
        by_cases h3 : keyword = "if".toList ∧ first_token l = "else".toList
        · rw [if_pos h3]
          have hne : ¬ depth = 1 := fun e => h0 ⟨h1, e, Or.inr h3⟩
          rw [if_neg hne, hrest _ (by rw [if_neg h1, if_neg h2]), hidx]
        · rw [if_neg h3, hrest _ (by rw [if_neg h1, if_neg h2]), hidx]

/-- For a start line `s` with a token, when the tokens of line `s` and of the
lines behind it fit the 10-byte arrays: `find_match` returns an index between
`s` and the last index; and when no later line stops the scan (no `end` that
brings the depth to 0 and, for an `if`, no `else` at depth 1) it is the last
index, after which the main loop of `execute_script` exits. An index that
`find_match` returns lies between `s` and the last index in any case. -/
theorem find_match_unmatched (script : Script) (s : Nat) (hs : s < script.length)
    (hk0 : first_token (script.getD s []) ≠ [])
    (hfit : tokens_fit (script.drop s)) :
    (∃ r, find_match script s = .ok r ∧ s ≤ r ∧ r ≤ script.length - 1) ∧
      (∀ r, find_match script s = .ok r → s ≤ r ∧ r ≤ script.length - 1) ∧
      ((∀ before line after, script.drop (s + 1) = before ++ line :: after →
          ¬ scan_stops (first_token (script.getD s [])) before line) →
        find_match script s = .ok (script.length - 1) ∧
          ∀ (ops : FloatOps) (efuel fuel : Nat) (st : ExecState),
            st.pc = script.length - 1 + 1 →
            execute_loop ops efuel script (fuel + 1) st = some (.ok st)) := by
  have hdrop : script.drop s = script.getD s [] :: script.drop (s + 1) := by
    rw [List.getD_eq_getElem _ _ hs]
    exact List.drop_eq_getElem_cons hs
  rw [hdrop] at hfit
  obtain ⟨hk, hfit1⟩ := (tokens_fit_cons _ _).1 hfit
  have hbound : ∀ r, find_match script s = .ok r → s ≤ r ∧ r ≤ script.length - 1 := by
    intro r hr
    have := find_match_ge script s r hs hr
    omega
  obtain ⟨r, hr⟩ := find_match_ok script s hk0 hk hfit1
  have hlen : (script.drop (s + 1)).length = script.length - (s + 1) := List.length_drop _ _
  refine ⟨⟨r, hr, hbound r hr⟩, hbound, fun hun => ?_⟩
  have he : find_match script s = .ok (script.length - 1) := by
    have h : ¬ 10 ≤ (first_token (script.getD s [])).length := by omega
    unfold find_match
    simp only
    rw [if_neg h, find_match_loop_unmatched _ hk0 _ _ _ hfit1 hun, hlen]
    congr 1
    omega
  refine ⟨he, fun ops efuel fuel st hst => ?_⟩
  have : ¬ st.pc < script.length := by omega
  simp [execute_loop, this]

/-- The `while` of `open_while_script` has no `end`: `find_match` returns the
last index, 1. -/
theorem find_match_open_while : find_match open_while_script 0 = .ok 1 :=
  ((find_match_unmatched open_while_script 0 (by decide) (by decide) (by decide)).2.2 (by
    intro before line after h
    have h2 : ["print 1\n".toList] = before ++ line :: after := h
    cases before with
    | nil =>
      simp only [List.nil_append, List.cons.injEq] at h2
      rw [← h2.1]
      exact fun hstop => by
        rcases hstop.2.2 with e | e
        · exact absurd e (by decide)
        · exact absurd e.1 (by decide)
    | cons b bs =>
      simp only [List.cons_append, List.cons.injEq] at h2
      exact absurd h2.2 (by simp))).1

/-- C15 fails on a line that starts with a token of 10 characters or more: on
`long_line_script` (`while a`, a line of 24 letters, `end`) `find_match` returns
no index at all, so none between 0 and 2: the scan copies the 24 letters and
their NUL into the 10-byte array `line_keyword` and ends there. The same holds
without the `end`, where the claim states the last index, 1. -/
theorem find_match_long_line :
    find_match long_line_script 0 = .error Fault.overrun ∧
      (¬ ∃ r, find_match long_line_script 0 = .ok r) ∧
      find_match (long_line_script.take 2) 0 = .error Fault.overrun := by
  refine ⟨by decide, ?_, by decide⟩
  rintro ⟨r, hr⟩
  have h : find_match long_line_script 0 = .error Fault.overrun := by decide
  rw [h] at hr
  exact Except.noConfusion hr

/-! ## Divergence at the end of the input -/

/-- At the end of the input a right operand is Nil and nothing is consumed. -/
theorem parse_operand_at_end (ops : FloatOps) (vars : List Variable) (fuel : Nat) :
    parse_expression_precedence ops vars fuel 1 end_cursor = none ∨
      parse_expression_precedence ops vars fuel 1 end_cursor
        = some (.ok (Value.nil, end_cursor)) := by
  cases fuel with
  | zero => exact Or.inl rfl
  | succ n =>
    cases n with
    | zero => exact Or.inl rfl
    | succ k => exact Or.inr rfl

/-- At the end of the input the operator loop of the top level never exits:
`strchr` finds the NUL, its precedence 0 is not below 0, and `next_char` stays
on the NUL. -/
theorem math_loop_at_end (ops : FloatOps) (vars : List Variable) :
    ∀ (fuel : Nat) (left : Value), math_loop ops vars fuel 0 left end_cursor = none := by
  intro fuel
  induction fuel with
  | zero => intro left; rfl
  | succ n ih =>
    intro left
    rw [math_loop_succ]
    have h1 : strchr_ops end_cursor.current_char = true := rfl
    have h2 : get_precedence end_cursor.current_char = 0 := rfl
    have h3 : skip_whitespace (next_char end_cursor) = end_cursor := rfl
    rw [h1, h2, h3, if_pos rfl, if_neg (by omega)]
    have h4 : parse_math_operator ops left end_cursor.current_char Value.nil = .ok Value.nil := by
      cases left <;> rfl
    rcases parse_operand_at_end ops vars n with h | h
    · rw [show (0 : Int) + 1 = 1 from rfl, h]
    · rw [show (0 : Int) + 1 = 1 from rfl, h]
      simp only [h4]
      exact ih _

/-- C16: on the expression `1` without a newline, and on the unterminated
string literal `"a` followed by a newline, `evaluate_expression` returns no
value whatever the fuel: once the cursor is on the terminating NUL the operator
loop of the top level runs forever. -/
theorem evaluate_expression_diverges (ops : FloatOps) (vars : List Variable) (fuel : Nat) :
    evaluate_expression ops vars fuel "1".toList = none ∧
      evaluate_expression ops vars fuel "\"a\n".toList = none := by
  unfold evaluate_expression
  cases fuel with
  | zero => exact ⟨rfl, rfl⟩
  | succ n =>
    cases n with
    | zero => exact ⟨rfl, rfl⟩
    | succ k =>
      have h1 : parse_primary ops vars (k + 1) (next_char ⟨'\x00', "1".toList⟩)
          = some (.ok (Value.int 1, end_cursor)) := rfl
      have h2 : parse_primary ops vars (k + 1) (next_char ⟨'\x00', "\"a\n".toList⟩)
          = some (.ok (Value.str "a\n".toList, end_cursor)) := rfl
      have h3 : skip_whitespace end_cursor = end_cursor := rfl
      simp only [parse_expression_precedence_succ, h1, h2, h3, math_loop_at_end]
      exact ⟨rfl, rfl⟩

/-! ## More concrete runs -/

/-- C11: the line `print 1` prints `1`, but the same line behind one space
prints `nil`: the keyword is found behind the space, while the expression is
still taken from offset 5 of the line, here `t 1`. -/
theorem indented_print_differs :
    (execute_script float_free_ops 5 5 print_script []).map (Except.map (fun st => st.stdout))
        = some (.ok "1\n".toList) ∧
      (execute_script float_free_ops 5 5 indented_print_script []).map
          (Except.map (fun st => st.stdout))
        = some (.ok "nil\n".toList) := by
  constructor <;> decide!

/-- C17: after the loop of `countdown_script` has run its body twice and
exited, the loop stack holds two entries for the `while` line (index 1) where
it held none before: every return to the `while` line pushes one more. -/
theorem countdown_script_leaves_entries :
    (execute_script float_free_ops 5 20 countdown_script []).map
        (Except.map (fun st => (st.loop_stack_top, st.loop_starts.take 2, st.trace)))
      = some (.ok (1, [1, 1], [0, 1, 2, 3, 1, 2, 3, 1])) := by
  decide!

/-! ## Number literals: what `parse_number` consumes -/

theorem parse_number_loop_stop (fuel : Nat) (p : Parser) (buf : CStr) (hb : buf ≠ [])
    (h : number_char p.current_char = false) : parse_number_loop fuel p buf = (p, buf) := by
  cases fuel with
  | zero => rfl
  | succ n =>
    have h1 : isdigit p.current_char = false := by
      simp only [number_char, Bool.or_eq_false_iff] at h; exact h.1
    have h2 : p.current_char ≠ '.' := by
      simp only [number_char, Bool.or_eq_false_iff, beq_eq_false_iff_ne] at h; exact h.2
    have h3 : buf.length ≠ 0 := fun e => hb (List.length_eq_zero.1 e)
    simp [parse_number_loop, h1, h2, h3]

/-- What lies ahead after `next_char`: the old rest of the input, as far as
digits and dots go. -/
theorem takeWhile_next_char (p : Parser) :
    ((next_char p).current_char :: (next_char p).src_ptr).takeWhile number_char
      = p.src_ptr.takeWhile number_char := by
  obtain ⟨x, s⟩ := p
  cases s with
  | nil => rfl
  | cons c cs =>
    by_cases hc : c = '\x00'
    · subst hc; rfl
    · rw [next_char_cons _ _ _ hc]

theorem next_char_fuel (p : Parser) (fuel : Nat) (h : p.src_ptr.length + 1 ≤ fuel + 1) :
    (next_char p).src_ptr.length + 1 ≤ fuel ∨ (next_char p).current_char = '\x00' := by
  obtain ⟨x, s⟩ := p
  cases s with
  | nil => exact Or.inr rfl
  | cons c cs =>
    by_cases hc : c = '\x00'
    · subst hc; exact Or.inr rfl
    · rw [next_char_cons _ _ _ hc]
      exact Or.inl (by simpa using h)

theorem parse_number_loop_rest :
    ∀ (fuel : Nat) (p : Parser) (buf : CStr), buf ≠ [] →
      (p.src_ptr.length + 1 ≤ fuel ∨ p.current_char = '\x00') →
      parse_number_loop fuel p buf
        = (next_char^[(((p.current_char :: p.src_ptr).takeWhile number_char).take
              (127 - buf.length)).length] p,
            buf ++ ((p.current_char :: p.src_ptr).takeWhile number_char).take
              (127 - buf.length)) := by
  intro fuel
  induction fuel with
  | zero =>
    intro p buf hb h
    have h0 : p.current_char = '\x00' := by
      rcases h with h | h
      · omega
      · exact h
    have : number_char p.current_char = false := by rw [h0]; rfl
    simp [parse_number_loop, List.takeWhile, this]
  | succ n ih =>
    intro p buf hb h
    by_cases hc : number_char p.current_char = true
    · by_cases hl : buf.length < 127
      · have hcond : (isdigit p.current_char = true ∨ p.current_char = '.' ∨
            (buf.length = 0 ∧ p.current_char = '-')) ∧ buf.length < 127 := by
          simp only [number_char, Bool.or_eq_true, beq_iff_eq] at hc
          rcases hc with hc | hc
          · exact ⟨Or.inl hc, hl⟩
          · exact ⟨Or.inr (Or.inl hc), hl⟩
        have hfuel : (next_char p).src_ptr.length + 1 ≤ n ∨ (next_char p).current_char = '\x00' := by
          rcases h with h | h
          · exact next_char_fuel p n h
          · rw [h] at hc; exact absurd hc (by decide)
        rw [parse_number_loop, if_pos hcond, ih (next_char p) (buf ++ [p.current_char])
          (by simp) hfuel, takeWhile_next_char]
        obtain ⟨k, hk⟩ : ∃ k, 127 - buf.length = k + 1 := ⟨126 - buf.length, by omega⟩
        have hk2 : 127 - (buf ++ [p.current_char]).length = k := by simp; omega
        rw [hk, hk2, List.takeWhile_cons_of_pos hc, List.take_succ_cons]
        simp [Function.iterate_succ_apply]
      · have hcond : ¬ ((isdigit p.current_char = true ∨ p.current_char = '.' ∨
            (buf.length = 0 ∧ p.current_char = '-')) ∧ buf.length < 127) := fun e => hl e.2
        have h0 : 127 - buf.length = 0 := by omega
        rw [parse_number_loop, if_neg hcond, h0]
        simp
    · have hc2 : number_char p.current_char = false := by simpa using hc
      rw [parse_number_loop_stop _ _ _ hb hc2, List.takeWhile_cons_of_neg hc]
      simp

/-- The loop of `parse_number` from the start of a literal. -/
theorem parse_number_loop_text (p : Parser) :
    parse_number_loop (p.src_ptr.length + 1) p []
      = (next_char^[(number_text (p.current_char :: p.src_ptr)).length] p,
          number_text (p.current_char :: p.src_ptr)) := by
  by_cases hc : number_char p.current_char = true ∨ p.current_char = '-'
  · have hcond : (isdigit p.current_char = true ∨ p.current_char = '.' ∨
        (([] : CStr).length = 0 ∧ p.current_char = '-')) ∧ ([] : CStr).length < 127 := by
      refine ⟨?_, by simp⟩
      rcases hc with hc | hc
      · simp only [number_char, Bool.or_eq_true, beq_iff_eq] at hc
        rcases hc with hc | hc
        · exact Or.inl hc
        · exact Or.inr (Or.inl hc)
      · exact Or.inr (Or.inr ⟨rfl, hc⟩)
    have htext : number_text (p.current_char :: p.src_ptr)
        = p.current_char :: (p.src_ptr.takeWhile number_char).take 126 := by
      unfold number_text
      split
      · rename_i cs heq
        rw [List.cons.injEq] at heq
        rw [heq.1, heq.2]; rfl
      · rename_i hne
        have hnc : number_char p.current_char = true := by
          rcases hc with hc | hc
          · exact hc
          · exact absurd (by rw [hc]) (hne p.src_ptr)
        rw [List.takeWhile_cons_of_pos hnc]; rfl
    rw [parse_number_loop, if_pos hcond, parse_number_loop_rest _ _ _ (by simp)
      (next_char_fuel p _ (le_refl _)), takeWhile_next_char, htext]
    simp [Function.iterate_succ_apply]
  · have hnc : number_char p.current_char = false := by
      cases h : number_char p.current_char with
      | false => rfl
      | true => exact absurd (Or.inl h) hc
    have hm : p.current_char ≠ '-' := fun e => hc (Or.inr e)
    have htext : number_text (p.current_char :: p.src_ptr) = [] := by
      unfold number_text
      split
      · rename_i cs heq
        rw [List.cons.injEq] at heq
        exact absurd heq.1 hm
      · rw [List.takeWhile_cons_of_neg (by simp [hnc])]; rfl
    have hcond : ¬ ((isdigit p.current_char = true ∨ p.current_char = '.' ∨
        (([] : CStr).length = 0 ∧ p.current_char = '-')) ∧ ([] : CStr).length < 127) := by
      simp only [number_char, Bool.or_eq_false_iff, beq_eq_false_iff_ne] at hnc
      intro e
      rcases e.1 with e | e | e
      · rw [hnc.1] at e; exact Bool.noConfusion e
      · exact hnc.2 e
      · exact hm e.2
    rw [parse_number_loop, if_neg hcond, htext]
    rfl

/-- C12, as amended: `parse_number` consumes exactly `number_text` of its
input, that is an optional leading `-` followed by every digit and every dot
that comes next (any number of dots), up to 127 characters, and leaves the
cursor behind that text; it returns a Float if the text holds a dot and an Int
otherwise. -/
theorem parse_number_consumes (ops : FloatOps) (p : Parser) :
    parse_number ops p
      = (if '.' ∈ number_text (p.current_char :: p.src_ptr)
          then Value.float (ops.atof (number_text (p.current_char :: p.src_ptr)))
          else Value.int (atoi (number_text (p.current_char :: p.src_ptr))),
        next_char^[(number_text (p.current_char :: p.src_ptr)).length] p) := by
  unfold parse_number
  simp only [parse_number_loop_text]
  split <;> rfl

/-- C12, as stated, fails on `1..2`: with the cursor on the `1`, `parse_number`
consumes all of `1..2` and leaves the cursor on the newline, not on the first
dot; the text holds a dot, so the result is a Float and the expression `1..2`
evaluates to a Float, not to the String `12`. -/
theorem parse_number_two_dots :
    (parse_number float_free_ops ⟨'1', "..2\n".toList⟩).2 = ⟨'\n', []⟩ ∧
      (parse_number float_free_ops ⟨'1', "..2\n".toList⟩).2 ≠ ⟨'.', ".2\n".toList⟩ ∧
      (parse_number float_free_ops ⟨'1', "..2\n".toList⟩).1.type = ValueType.VAL_FLOAT ∧
      (evaluate_expression float_free_ops [] 5 "1..2\n".toList).map (Except.map Value.type)
        = some (.ok ValueType.VAL_FLOAT) := by
  refine ⟨by decide!, by decide!, by decide!, by decide!⟩

/-! ## Table literals -/

theorem parse_number_neg (ops : FloatOps) (d : Char) (ds : CStr) (hd : ∀ c ∈ d :: ds, isdigit c = true)
    (hv : -(2 : Int) ^ 31 ≤ -(lit_value (d :: ds) : Int)) (hlen : ('-' :: d :: ds).length ≤ 127)
    (x : Char) (xs : CStr) (hx : isdigit x = false) (hx1 : x ≠ '.') (hx0 : x ≠ '\x00') :
    parse_number ops ⟨'-', d :: (ds ++ x :: xs)⟩
      = (Value.int (-(lit_value (d :: ds) : Int)), ⟨x, xs⟩) := by
  have hd1 : isdigit d = true := hd d (List.mem_cons_self _ _)
  have hds : ∀ c ∈ ds, isdigit c = true := fun c hc => hd c (List.mem_cons_of_mem _ hc)
  have hloop := parse_number_loop_digits x xs hx hx1 hx0 ds d ['-'] ((ds ++ x :: xs).length + 1)
    hd1 hds (by simp at hlen ⊢; omega) (by simp)
  have hstep : parse_number_loop ((d :: (ds ++ x :: xs)).length + 1) ⟨'-', d :: (ds ++ x :: xs)⟩ []
      = (⟨x, xs⟩, '-' :: d :: ds) := by
    have h0 : d ≠ '\x00' := isdigit_ne hd1 (by decide)
    rw [show ('-' :: d :: ds : CStr) = ['-'] ++ d :: ds from rfl, ← hloop]
    simp [parse_number_loop, next_char, h0]
  have hdot : '.' ∉ '-' :: d :: ds := by
    intro hmem
    rcases List.mem_cons.1 hmem with h | h
    · exact absurd h (by decide)
    · exact isdigit_ne (hd _ h) (by decide) rfl
  have hval : atoi ('-' :: d :: ds) = -(lit_value (d :: ds) : Int) := by
    have h1 : ('-' :: d :: ds).dropWhile isspace = '-' :: d :: ds := by
      simp [List.dropWhile, isspace]
    unfold atoi
    rw [h1]
    simp only [atoi_digits_eq _ hd, zero_mul, zero_add]
    have : (0 : Int) ≤ lit_value (d :: ds) := Int.natCast_nonneg _
    rw [strtol_clamp_of_range _ hv (by omega)]
    unfold wrap32
    omega
  unfold parse_number
  simp only [hstep]
  rw [if_neg hdot, hval]

/-- An integer literal parsed by `parse_primary`; the cursor ends behind it. -/
theorem parse_primary_int_lit (ops : FloatOps) (vars : List Variable) (n : Nat) (l : IntLit)
    (hl : l.ok) (x : Char) (xs : CStr) (hx : isdigit x = false) (hx1 : x ≠ '.')
    (hx0 : x ≠ '\x00') :
    parse_primary ops vars (n + 1) (cursor_at (l.text ++ x :: xs))
      = some (.ok (Value.int l.value, ⟨x, xs⟩)) := by
  obtain ⟨neg, digits⟩ := l
  obtain ⟨hne, hd, hv, hlen⟩ := hl
  cases digits with
  | nil => exact absurd rfl hne
  | cons d ds =>
    have hd1 : isdigit d = true := hd d (List.mem_cons_self _ _)
    cases neg with
    | false =>
      simp only [IntLit.text, IntLit.value, Bool.false_eq_true, if_false] at hv hlen ⊢
      exact parse_primary_lit ops vars n d ds ⟨hne, hd, by
        unfold int_range at hv; exact_mod_cast hv.2⟩ hlen x xs hx hx1 hx0
    | true =>
      simp only [IntLit.text, IntLit.value, if_true] at hv hlen ⊢
      have hcur : cursor_at (('-' :: d :: ds) ++ x :: xs) = ⟨'-', d :: (ds ++ x :: xs)⟩ := rfl
      have hskip : skip_whitespace ⟨'-', d :: (ds ++ x :: xs)⟩ = ⟨'-', d :: (ds ++ x :: xs)⟩ :=
        skip_whitespace_stop _ (show ('-' : Char) ≠ ' ' by decide) (show ('-' : Char) ≠ '\t' by decide)
      have hpeek : isdigit (Parser.peek ⟨'-', d :: (ds ++ x :: xs)⟩) = true := hd1
      have h1 : ('-' : Char) ≠ '(' := by decide
      have h2 : ('-' : Char) ≠ '"' := by decide
      rw [hcur]
      simp only [parse_primary, hskip, h1, h2, hpeek, if_false, and_self, or_true, if_true,
        parse_number_neg ops d ds hd hv.1 hlen x xs hx hx1 hx0]

theorem parse_table_loop_succ (ops : FloatOps) (vars : List Variable) (fuel : Nat)
    (items : List Value) (p : Parser) :
    parse_table_loop ops vars (fuel + 1) items p =
      if p.current_char ≠ '\x00' ∧ p.current_char ≠ '}' ∧ items.length < MAX_TABLE_ITEMS then
        match parse_expression_precedence ops vars fuel 0 p with
        | none => none
        | some (.error f) => some (.error f)
        | some (.ok (v, p1)) =>
          parse_table_loop ops vars fuel (items ++ [v])
            (if (skip_whitespace p1).current_char = ',' then
              skip_whitespace (next_char (skip_whitespace p1)) else skip_whitespace p1)
      else some (.ok (Value.table items, if p.current_char = '}' then next_char p else p)) :=
  rfl

/-- The first character of an integer literal. -/
theorem int_lit_text_head (l : IntLit) (hl : l.ok) :
    ∃ c cs, l.text = c :: cs ∧ c ≠ '\x00' ∧ c ≠ ' ' ∧ c ≠ '\t' ∧ c ≠ '}' := by
  obtain ⟨neg, digits⟩ := l
  obtain ⟨hne, hd, _, _⟩ := hl
  cases neg with
  | true => exact ⟨'-', digits, rfl, by decide, by decide, by decide, by decide⟩
  | false =>
    cases digits with
    | nil => exact absurd rfl hne
    | cons d ds =>
      have hd1 : isdigit d = true := hd d (List.mem_cons_self _ _)
      exact ⟨d, ds, rfl, isdigit_ne hd1 (by decide), isdigit_ne hd1 (by decide),
        isdigit_ne hd1 (by decide), isdigit_ne hd1 (by decide)⟩

/-- A table element: an integer literal up to the comma or brace behind it. -/
theorem parse_element (ops : FloatOps) (vars : List Variable) (n : Nat) (l : IntLit) (hl : l.ok)
    (sep : Char) (hsep : sep = ',' ∨ sep = '}') (g : Gap) (rest : CStr) :
    parse_expression_precedence ops vars (n + 2) 0 (cursor_at (l.text ++ render_op sep g rest))
      = some (.ok (Value.int l.value, ⟨sep, List.replicate g.after ' ' ++ rest⟩)) := by
  obtain ⟨x, xs, e, hx, hx1, hx0, hskip⟩ := render_op_shape sep g rest
    (by rcases hsep with rfl | rfl <;> decide) (by rcases hsep with rfl | rfl <;> decide)
    (by rcases hsep with rfl | rfl <;> decide) (by rcases hsep with rfl | rfl <;> decide)
    (by rcases hsep with rfl | rfl <;> decide)
  have hs : strchr_ops sep = false := by rcases hsep with rfl | rfl <;> decide
  have hdot : sep ≠ '.' := by rcases hsep with rfl | rfl <;> decide
  rw [e, parse_expression_precedence_succ, parse_primary_int_lit ops vars n l hl x xs hx hx1 hx0]
  simp only [hskip, math_loop_succ, hs, concat_loop_succ]
  simp [hdot]

/-- The element loop collects the values of the elements, up to 64 in all. -/
theorem parse_table_loop_items (ops : FloatOps) (vars : List Variable) :
    ∀ (items : List (IntLit × Gap)) (acc : List Value) (fuel : Nat),
      (∀ it ∈ items, it.1.ok) → items.length + 2 ≤ fuel →
      (parse_table_loop ops vars fuel acc (cursor_at (render_items items))).map
          (Except.map Prod.fst)
        = some (.ok (Value.table (acc ++ (items.take (MAX_TABLE_ITEMS - acc.length)).map
            (fun it => Value.int it.1.value)))) := by
  intro items
  induction items with
  | nil =>
    intro acc fuel _ hf
    obtain ⟨f, rfl⟩ : ∃ f, fuel = f + 1 := ⟨fuel - 1, by simp at hf; omega⟩
    have hc : (cursor_at (render_items [])).current_char = '}' := rfl
    rw [parse_table_loop_succ, if_neg (fun h => h.2.1 hc)]
    simp [Except.map]
  | cons it rest ih =>
    intro acc fuel hok hf
    obtain ⟨l, g⟩ := it
    have hl : l.ok := hok (l, g) (List.mem_cons_self _ _)
    have hrest : ∀ it ∈ rest, it.1.ok := fun it h => hok it (List.mem_cons_of_mem _ h)
    obtain ⟨f, rfl⟩ : ∃ f, fuel = f + 2 + 1 := ⟨fuel - 3, by simp at hf; omega⟩
    by_cases hacc : acc.length < MAX_TABLE_ITEMS
    · obtain ⟨c, cs, htext, hc0, hc1, hc2, hc3⟩ := int_lit_text_head l hl
      obtain ⟨k, hk⟩ : ∃ k, MAX_TABLE_ITEMS - acc.length = k + 1 :=
        ⟨MAX_TABLE_ITEMS - acc.length - 1, by omega⟩
      have hk2 : MAX_TABLE_ITEMS - (acc ++ [Value.int l.value]).length = k := by
        simp; omega
      have hcur : ∀ s, (cursor_at (l.text ++ s)).current_char = c := fun s => by
        rw [htext]; rfl
      have hstep : ∀ (sep : Char) (hsep : sep = ',' ∨ sep = '}') (g1 : Gap) (tail : CStr)
          (p3 : Parser), (if sep = ',' then
              skip_whitespace (next_char ⟨sep, List.replicate g1.after ' ' ++ tail⟩)
            else ⟨sep, List.replicate g1.after ' ' ++ tail⟩) = p3 →
          parse_table_loop ops vars (f + 2 + 1) acc (cursor_at (l.text ++ render_op sep g1 tail))
            = parse_table_loop ops vars (f + 2) (acc ++ [Value.int l.value]) p3 := by
        intro sep hsep g1 tail p3 hp3
        have hskip : skip_whitespace ⟨sep, List.replicate g1.after ' ' ++ tail⟩
            = ⟨sep, List.replicate g1.after ' ' ++ tail⟩ :=
          skip_whitespace_stop _
            (show sep ≠ ' ' by rcases hsep with rfl | rfl <;> decide)
            (show sep ≠ '\t' by rcases hsep with rfl | rfl <;> decide)
        rw [parse_table_loop_succ, if_pos ⟨by rw [hcur]; exact hc0, by rw [hcur]; exact hc3, hacc⟩,
          parse_element ops vars f l hl sep hsep g1 tail]
        simp only [hskip, hp3]
      cases rest with
      | nil =>
        have hr : render_items [(l, g)] = l.text ++ render_op '}' ⟨g.before, 0⟩ ['\n'] := rfl
        rw [hr, hstep '}' (Or.inr rfl) ⟨g.before, 0⟩ ['\n'] (cursor_at (render_items [])) rfl,
          ih _ _ hrest (by simp), hk, hk2]
        simp
      | cons r rest1 =>
        have hr : render_items ((l, g) :: r :: rest1)
            = l.text ++ render_op ',' g (render_items (r :: rest1)) := rfl
        obtain ⟨c1, cs1, htext1, h10, h11, h12, _⟩ :=
          int_lit_text_head r.1 (hrest r (List.mem_cons_self _ _))
        have hhead : ∃ s1, render_items (r :: rest1) = c1 :: s1 := by
          obtain ⟨l1, g1⟩ := r
          cases rest1 with
          | nil => exact ⟨_, by
              rw [show render_items [(l1, g1)] = l1.text ++ render_op '}' ⟨g1.before, 0⟩ ['\n']
                from rfl, htext1]; rfl⟩
          | cons r2 rest2 => exact ⟨_, by
              rw [show render_items ((l1, g1) :: r2 :: rest2)
                = l1.text ++ render_op ',' g1 (render_items (r2 :: rest2)) from rfl, htext1]; rfl⟩
        obtain ⟨s1, hs1⟩ := hhead
        have hp3 : (if (',' : Char) = ',' then
              skip_whitespace (next_char ⟨',', List.replicate g.after ' ' ++ render_items (r :: rest1)⟩)
            else ⟨',', List.replicate g.after ' ' ++ render_items (r :: rest1)⟩)
            = cursor_at (render_items (r :: rest1)) := by
          rw [if_pos rfl, hs1, skip_whitespace_spaces _ c1 s1 g.after h10 h11 h12]
          rfl
        rw [hr, hstep ',' (Or.inl rfl) g _ _ hp3, ih _ _ hrest (by simp at hf ⊢; omega), hk, hk2]
        simp
    · have h0 : MAX_TABLE_ITEMS - acc.length = 0 := by omega
      rw [parse_table_loop_succ, if_neg (fun h => hacc h.2.2), h0]
      simp [Except.map]

/-- C13, as amended: for every table literal of `n` comma-separated integer
literals (each fitting an `int` and at most 127 characters long, spaces allowed
around the commas and inside the braces) followed by a newline,
`parse_primary` returns the Table of the values of the first `min n 64`
elements, in order; the elements beyond the 64th are dropped. -/
theorem parse_primary_table (ops : FloatOps) (vars : List Variable)
    (items : List (IntLit × Gap)) (lead : Nat) (hok : ∀ it ∈ items, it.1.ok) (fuel : Nat)
    (hfuel : items.length + 3 ≤ fuel) :
    (parse_primary ops vars fuel ⟨'{', List.replicate lead ' ' ++ render_items items⟩).map
          (Except.map Prod.fst)
        = some (.ok (Value.table
            ((items.take MAX_TABLE_ITEMS).map (fun it => Value.int it.1.value)))) ∧
      ((items.take MAX_TABLE_ITEMS).map (fun it => Value.int it.1.value)).length
        = min items.length 64 := by
  refine ⟨?_, by simp [MAX_TABLE_ITEMS, Nat.min_comm]⟩
  obtain ⟨f, rfl⟩ : ∃ f, fuel = f + 1 := ⟨fuel - 1, by omega⟩
  have hhead : ∃ c s, render_items items = c :: s ∧ c ≠ '\x00' ∧ c ≠ ' ' ∧ c ≠ '\t' := by
    cases items with
    | nil => exact ⟨'}', ['\n'], rfl, by decide, by decide, by decide⟩
    | cons it rest =>
      obtain ⟨l, g⟩ := it
      obtain ⟨c, cs, htext, h0, h1, h2, _⟩ := int_lit_text_head l (hok _ (List.mem_cons_self _ _))
      cases rest with
      | nil => exact ⟨c, _, by
          rw [show render_items [(l, g)] = l.text ++ render_op '}' ⟨g.before, 0⟩ ['\n'] from rfl,
            htext]; rfl, h0, h1, h2⟩
      | cons r rest1 => exact ⟨c, _, by
          rw [show render_items ((l, g) :: r :: rest1)
            = l.text ++ render_op ',' g (render_items (r :: rest1)) from rfl, htext]; rfl,
          h0, h1, h2⟩
  obtain ⟨c, s, hs, h0, h1, h2⟩ := hhead
  have hskip : skip_whitespace ⟨'{', List.replicate lead ' ' ++ render_items items⟩
      = ⟨'{', List.replicate lead ' ' ++ render_items items⟩ :=
    skip_whitespace_stop _ (show ('{' : Char) ≠ ' ' by decide) (show ('{' : Char) ≠ '\t' by decide)
  have hnext : skip_whitespace (next_char ⟨'{', List.replicate lead ' ' ++ render_items items⟩)
      = cursor_at (render_items items) := by
    rw [hs, skip_whitespace_spaces _ c s lead h0 h1 h2]; rfl
  have e1 : ('{' : Char) ≠ '(' := by decide
  have e2 : ('{' : Char) ≠ '"' := by decide
  have e3 : isdigit '{' = false := by decide
  have e4 : ('{' : Char) ≠ '-' := by decide
  have e5 : isalpha '{' = false := by decide
  rw [parse_primary_succ]
  simp only [hskip, hnext, e1, e2, e3, e4, e5, if_false, false_and, or_self, Bool.false_eq_true,
    if_true]
  have := parse_table_loop_items ops vars items [] f hok (by omega)
  simpa using this

/-- The table `{1, 2, 3}` has the three elements 1, 2, 3, and a table of 65
elements `7` keeps 64 of them. -/
theorem parse_primary_table_witness :
    (parse_primary float_free_ops [] 6 ⟨'{', "1, 2, 3\x7d\n".toList⟩).map (Except.map Prod.fst)
        = some (.ok (Value.table [Value.int 1, Value.int 2, Value.int 3])) ∧
      (parse_primary float_free_ops [] 68 ⟨'{', List.replicate 0 ' ' ++ render_items items_65⟩).map
          (Except.map Prod.fst)
        = some (.ok (Value.table
            ((items_65.take MAX_TABLE_ITEMS).map (fun it => Value.int it.1.value)))) ∧
      ((items_65.take MAX_TABLE_ITEMS).map (fun it => Value.int it.1.value)).length = 64 :=
  ⟨(parse_primary_table float_free_ops [] items_1_2_3 0 (by decide) 6 (by decide)).1,
    (parse_primary_table float_free_ops [] items_65 0 (by decide) 68 (by decide)).1,
    by decide⟩

set_option maxRecDepth 1000000 in
/-- C13, as stated, fails on an element of more than 127 digits: the table
whose only element is `long_literal` (127 zeros and a one, the number 1) is
parsed into the two elements 0 and 1. -/
theorem parse_primary_table_long_literal :
    int_range (IntLit.value ⟨false, long_literal⟩) ∧
      IntLit.value ⟨false, long_literal⟩ = 1 ∧
      (parse_primary float_free_ops [] 5 ⟨'{', render_items items_long⟩).map
          (Except.map Prod.fst)
        = some (.ok (Value.table [Value.int 0, Value.int 1])) := by
  refine ⟨by decide, by decide, rfl⟩

/-! ## Releasing the value a variable held -/

theorem free_values_eq (items : List Cell) :
    free_values items = (items.map free_value).flatten := by
  induction items with
  | nil => rfl
  | cons v vs ih => simp [free_values, ih]

/-- The name `name` is in the table with addresses. -/
theorem slot_present_iff (slots : List Slot) (name : CStr) :
    (∃ x ∈ slots, x.name = name) ↔ present (slots.map Slot.variable) name := by
  simp [present, Slot.variable]

/-- Without the addresses, the loop of `set_variable_heap` is the loop of
`set_variable`. -/
theorem set_variable_heap_loop_erase (slots : List Slot) (name : CStr) (val : Cell) :
    (set_variable_heap_loop slots name val).map (fun r => r.1.map Slot.variable)
      = set_variable_loop (slots.map Slot.variable) name val.value := by
  induction slots with
  | nil => rfl
  | cons x xs ih =>
    by_cases h1 : x.name = name
    · simp [set_variable_heap_loop, set_variable_loop, Slot.variable, h1]
    · simp only [set_variable_heap_loop, List.map_cons, set_variable_loop, Slot.variable,
        if_neg h1, ← ih, Option.map_map]
      rfl

/-- Without the addresses, `set_variable_heap` is `set_variable` and
`get_variable_heap` is `get_variable`. -/
theorem set_variable_heap_erase (slots : List Slot) (name : CStr) (val : Cell) :
    (set_variable_heap slots name val).1.map Slot.variable
        = set_variable (slots.map Slot.variable) name val.value ∧
      (get_variable_heap slots name).value = get_variable (slots.map Slot.variable) name := by
  constructor
  · have h := set_variable_heap_loop_erase slots name val
    unfold set_variable_heap set_variable
    cases hl : set_variable_heap_loop slots name val with
    | some r =>
      rw [hl] at h
      simp only [Option.map_some'] at h
      rw [← h]
    | none =>
      rw [hl] at h
      simp only [Option.map_none'] at h
      rw [← h]
      simp only [List.length_map]
      split
      · simp [Slot.variable]
      · rfl
  · induction slots with
    | nil => rfl
    | cons x xs ih =>
      by_cases h1 : x.name = name
      · simp [get_variable_heap, get_variable, Slot.variable, h1]
      · simp only [get_variable_heap, List.map_cons, get_variable, Slot.variable, if_neg h1]
        exact ih

/-- What the loop of `set_variable_heap` does when it finds the name: the
blocks of the value found are freed, the new value is read back, and the blocks
stored in the table are those of the other entries and of the new value. -/
theorem set_variable_heap_loop_some (slots : List Slot) (name : CStr) (val : Cell)
    (r : List Slot × List Nat) (h : set_variable_heap_loop slots name val = some r) :
    r.2 = free_value (get_variable_heap slots name) ∧ get_variable_heap r.1 name = val ∧
      (∃ x ∈ slots, x.name = name) ∧ (∃ x ∈ r.1, x.name = name) ∧
      (∀ a ∈ r.2, a ∈ table_blocks slots) ∧
      (∀ a ∈ table_blocks r.1, a ∈ table_blocks slots ∨ a ∈ free_value val) := by
  induction slots generalizing r with
  | nil => simp [set_variable_heap_loop] at h
  | cons x xs ih =>
    by_cases h1 : x.name = name
    · simp only [set_variable_heap_loop, if_pos h1, Option.some.injEq] at h
      subst h
      refine ⟨by simp [get_variable_heap, h1], by simp [get_variable_heap, h1],
        ⟨x, List.mem_cons_self _ _, h1⟩, ⟨_, List.mem_cons_self _ _, h1⟩, ?_, ?_⟩
      · intro a ha
        simp only [table_blocks, List.map_cons, List.flatten_cons, List.mem_append]
        exact Or.inl ha
      · intro a ha
        simp only [table_blocks, List.map_cons, List.flatten_cons, List.mem_append] at ha ⊢
        rcases ha with ha | ha
        · exact Or.inr ha
        · exact Or.inl (Or.inr ha)
    · simp only [set_variable_heap_loop, if_neg h1, Option.map_eq_some'] at h
      obtain ⟨r2, h2, rfl⟩ := h
      obtain ⟨e1, e2, ⟨y, hy, hyn⟩, ⟨z, hz, hzn⟩, e5, e6⟩ := ih r2 h2
      refine ⟨by simp [get_variable_heap, h1, e1], by simp [get_variable_heap, h1, e2],
        ⟨y, List.mem_cons_of_mem _ hy, hyn⟩, ⟨z, List.mem_cons_of_mem _ hz, hzn⟩, ?_, ?_⟩
      · intro a ha
        simp only [table_blocks, List.map_cons, List.flatten_cons, List.mem_append]
        exact Or.inr (e5 a ha)
      · intro a ha
        simp only [table_blocks, List.map_cons, List.flatten_cons, List.mem_append] at ha ⊢
        rcases ha with ha | ha
        · exact Or.inl (Or.inl ha)
        · rcases e6 a ha with h3 | h3
          · exact Or.inl (Or.inr h3)
          · exact Or.inr h3

theorem set_variable_heap_loop_none (slots : List Slot) (name : CStr) (val : Cell) :
    set_variable_heap_loop slots name val = none ↔ ¬ ∃ x ∈ slots, x.name = name := by
  induction slots with
  | nil => simp [set_variable_heap_loop]
  | cons x xs ih =>
    by_cases h1 : x.name = name
    · simp [set_variable_heap_loop, h1]
    · simp only [set_variable_heap_loop, if_neg h1, Option.map_eq_none', ih]
      simp [h1]

theorem get_variable_heap_append (slots : List Slot) (x : Slot) (name : CStr)
    (h : ¬ ∃ y ∈ slots, y.name = name) (hx : x.name = name) :
    get_variable_heap (slots ++ [x]) name = x.value := by
  induction slots with
  | nil => simp [get_variable_heap, hx]
  | cons y ys ih =>
    have h1 : y.name ≠ name := fun e => h ⟨y, List.mem_cons_self _ _, e⟩
    have h2 : ¬ ∃ z ∈ ys, z.name = name := fun ⟨z, hz, e⟩ => h ⟨z, List.mem_cons_of_mem _ hz, e⟩
    simp only [List.cons_append, get_variable_heap, if_neg h1]
    exact ih h2

/-- One call of `set_variable_heap` for a name that is stored or has room: the
blocks it frees are those of the value stored under the name before (none for a
new name), they were blocks of the table, the new value is stored under the
name, and the table holds no blocks but those it held and those of the new
value. -/
theorem set_variable_heap_call (slots : List Slot) (n : CStr) (v : Cell) (hn : n.length ≤ 63)
    (h : (∃ x ∈ slots, x.name = n) ∨ slots.length < MAX_VARS) :
    (set_variable_heap slots n v).2
        = (if ∃ x ∈ slots, x.name = n then free_value (get_variable_heap slots n) else []) ∧
      get_variable_heap (set_variable_heap slots n v).1 n = v ∧
      (∃ x ∈ (set_variable_heap slots n v).1, x.name = n) ∧
      (∀ a ∈ (set_variable_heap slots n v).2, a ∈ table_blocks slots) ∧
      (∀ a ∈ table_blocks (set_variable_heap slots n v).1,
        a ∈ table_blocks slots ∨ a ∈ free_value v) := by
  have htake : n.take 63 = n := List.take_of_length_le hn
  unfold set_variable_heap
  cases hl : set_variable_heap_loop slots n v with
  | some r =>
    obtain ⟨e1, e2, e3, e4, e5, e6⟩ := set_variable_heap_loop_some slots n v r hl
    simp only []
    rw [if_pos e3]
    exact ⟨e1, e2, e4, e5, e6⟩
  | none =>
    have hp := (set_variable_heap_loop_none slots n v).1 hl
    have hlen : slots.length < MAX_VARS := by
      rcases h with h | h
      · exact absurd h hp
      · exact h
    simp only []
    rw [if_pos hlen, if_neg hp, htake]
    refine ⟨rfl, get_variable_heap_append slots _ n hp rfl,
      ⟨_, List.mem_append_right _ (List.mem_singleton_self _), rfl⟩,
      fun a ha => by simp at ha, ?_⟩
    intro a ha
    simp only [table_blocks, List.map_append, List.flatten_append, List.mem_append, List.map_cons,
      List.map_nil, List.flatten_cons, List.flatten_nil, List.append_nil] at ha ⊢
    exact ha

/-- C20, as amended: for a name `n` of at most 63 characters that is in the
table or for which the table has room, and values `v1` and `v2` whose heap
blocks are their own (those of `v1` distinct from one another, from those of
`v2` and from those of the stored values; those of `v2` not among the stored
ones): after `set_variable(n, v1)` and `set_variable(n, v2)`, the second call
has passed exactly `v1` to `free_value` (which frees a Table's elements one by
one and then its array), the first call only the value stored under `n` before,
if there was one; so every block of `v1` has been freed exactly once and no
block of `v2` has been freed, and `v2` is the value stored under `n`. -/
theorem set_variable_releases_prior (slots : List Slot) (n : CStr) (v1 v2 : Cell)
    (hn : n.length ≤ 63) (h : (∃ x ∈ slots, x.name = n) ∨ slots.length < MAX_VARS)
    (hnodup : (free_value v1).Nodup)
    (h12 : ∀ a ∈ free_value v2, a ∉ free_value v1)
    (h1 : ∀ a ∈ free_value v1, a ∉ table_blocks slots)
    (h2 : ∀ a ∈ free_value v2, a ∉ table_blocks slots) :
    (set_variable_heap (set_variable_heap slots n v1).1 n v2).2 = free_value v1 ∧
      (set_variable_heap slots n v1).2
        = (if ∃ x ∈ slots, x.name = n then free_value (get_variable_heap slots n) else []) ∧
      (∀ a ∈ free_value v1,
        ((set_variable_heap slots n v1).2
          ++ (set_variable_heap (set_variable_heap slots n v1).1 n v2).2).count a = 1) ∧
      (∀ a ∈ free_value v2,
        ((set_variable_heap slots n v1).2
          ++ (set_variable_heap (set_variable_heap slots n v1).1 n v2).2).count a = 0) ∧
      get_variable_heap (set_variable_heap (set_variable_heap slots n v1).1 n v2).1 n = v2 ∧
      (∀ ptr items, free_value (Cell.table ptr items)
        = (items.map free_value).flatten ++ [ptr]) := by
  obtain ⟨a1, a2, a3, a4, _⟩ := set_variable_heap_call slots n v1 hn h
  obtain ⟨b1, b2, _, _, _⟩ := set_variable_heap_call (set_variable_heap slots n v1).1 n v2 hn
    (Or.inl a3)
  have hsecond : (set_variable_heap (set_variable_heap slots n v1).1 n v2).2 = free_value v1 := by
    rw [b1, if_pos a3, a2]
  refine ⟨hsecond, a1, fun a ha => ?_, fun a ha => ?_, b2, fun ptr items => by
    rw [free_value, free_values_eq]⟩
  · have h0 : (set_variable_heap slots n v1).2.count a = 0 :=
      List.count_eq_zero.2 (fun hmem => h1 a ha (a4 a hmem))
    rw [List.count_append, h0, hsecond, zero_add]
    exact List.count_eq_one_of_mem hnodup ha
  · have h0 : (set_variable_heap slots n v1).2.count a = 0 :=
      List.count_eq_zero.2 (fun hmem => h2 a ha (a4 a hmem))
    rw [List.count_append, h0, hsecond, zero_add]
    exact List.count_eq_zero.2 (h12 a ha)

/-- Reassigning `s`, which held the String at address 1, first to the Table at
address 4 with the Strings at 2 and 3 and then to the String at address 5:
the second call frees the blocks 2, 3, 4 of the Table, each once, the block 5
is not freed, and the String at 5 is stored. -/
theorem set_variable_releases_prior_witness :
    (set_variable_heap (set_variable_heap [⟨['s'], Cell.str 1 ['a']⟩] ['s']
        (Cell.table 4 [Cell.str 2 ['b'], Cell.str 3 ['c']])).1 ['s'] (Cell.str 5 ['d'])).2
        = [2, 3, 4] ∧
      (set_variable_heap [⟨['s'], Cell.str 1 ['a']⟩] ['s']
        (Cell.table 4 [Cell.str 2 ['b'], Cell.str 3 ['c']])).2 = [1] ∧
      free_value (Cell.str 5 ['d']) = [5] :=
  ⟨(set_variable_releases_prior [⟨['s'], Cell.str 1 ['a']⟩] ['s']
      (Cell.table 4 [Cell.str 2 ['b'], Cell.str 3 ['c']]) (Cell.str 5 ['d']) (by decide)
      (Or.inr (by decide)) (by decide) (by decide) (by decide) (by decide)).1,
    by decide, by decide⟩

/-- C20, as stated, fails when the table is full and the name is new: both
assignments to `x` are dropped, so neither call frees anything (the block 1 of
`v1`, the String `a`, is never freed) and `x` reads as Nil, not as `v2`. -/
theorem set_variable_full_table :
    full_table.length = MAX_VARS ∧ free_value (Cell.str 1 ['a']) = [1] ∧
      (set_variable_heap full_table ['x'] (Cell.str 1 ['a'])).2 = [] ∧
      (set_variable_heap (set_variable_heap full_table ['x'] (Cell.str 1 ['a'])).1 ['x']
        (Cell.int 2)).2 = [] ∧
      (get_variable_heap (set_variable_heap (set_variable_heap full_table ['x']
        (Cell.str 1 ['a'])).1 ['x'] (Cell.int 2)).1 ['x']).value.type = ValueType.VAL_NIL := by
  refine ⟨by decide!, by decide!, by decide!, by decide!, by decide!⟩

/-- What the amended claim leaves out: a value that shares its blocks with the
stored one. With `s` holding the String at address 7, the line `var s = s`
passes to `set_variable` the struct `get_variable` returned, a second pointer to
block 7: the call frees block 7 and stores the pointer to it again. -/
theorem set_variable_heap_shared :
    get_variable_heap [⟨['s'], Cell.str 7 ['h', 'i']⟩] ['s'] = Cell.str 7 ['h', 'i'] ∧
      (set_variable_heap [⟨['s'], Cell.str 7 ['h', 'i']⟩] ['s'] (Cell.str 7 ['h', 'i'])).2 = [7] ∧
      table_blocks (set_variable_heap [⟨['s'], Cell.str 7 ['h', 'i']⟩] ['s']
        (Cell.str 7 ['h', 'i'])).1 = [7] :=
  ⟨rfl, by decide, by decide⟩

/-! ## The heap: erasure of the addresses -/

theorem cell_values_eq (items : List Cell) : Cell.values items = items.map Cell.value := by
  induction items with
  | nil => rfl
  | cons c cs ih => simp [Cell.values, ih]

theorem parse_number_heap_erase (ops : FloatOps) (p : Parser) :
    ((parse_number_heap ops p).1.value, (parse_number_heap ops p).2) = parse_number ops p := by
  unfold parse_number_heap parse_number
  simp only []
  split <;> rfl

theorem resolve_name_heap_erase (slots : List Slot) (name : CStr) :
    (resolve_name_heap slots name).value = resolve_name (slots.map Slot.variable) name := by
  unfold resolve_name_heap resolve_name
  split
  · rfl
  · split
    · rfl
    · split
      · rfl
      · exact (set_variable_heap_erase slots name Cell.nil).2

theorem parse_math_operator_heap_erase (ops : FloatOps) (left right : Cell) (op : Char)
    (h : Heap) :
    (parse_math_operator_heap ops left op right h).map (fun r => r.1.value)
      = parse_math_operator ops left.value op right.value := by
  cases left <;> cases right <;>
    try (simp [parse_math_operator_heap, parse_math_operator, Cell.value, Except.map]; done)
  rename_i a b
  by_cases hop : op = '/'
  · simp [parse_math_operator_heap, parse_math_operator, Cell.value, Except.map, hop]
  · simp only [parse_math_operator_heap, parse_math_operator, Cell.value, if_neg hop]
    cases int_arith op a b <;> rfl

theorem parse_primary_heap_succ (ops : FloatOps) (slots : List Slot) (fuel : Nat) (p0 : Parser)
    (h : Heap) :
    parse_primary_heap ops slots (fuel + 1) p0 h =
      if (skip_whitespace p0).current_char = '(' then
        match parse_expression_precedence_heap ops slots fuel 0
            (next_char (skip_whitespace p0)) h with
        | none => none
        | some (.error f) => some (.error f)
        | some (.ok (val, p1, h1)) =>
          some (.ok (val, if p1.current_char = ')' then next_char p1 else p1, h1))
      else if (skip_whitespace p0).current_char = '"' then
        some (.ok (parse_string_heap (next_char (skip_whitespace p0)) h))
      else if isdigit (skip_whitespace p0).current_char ∨
          ((skip_whitespace p0).current_char = '-' ∧ isdigit (skip_whitespace p0).peek) then
        some (.ok ((parse_number_heap ops (skip_whitespace p0)).1,
          (parse_number_heap ops (skip_whitespace p0)).2, h))
      else if isalpha (skip_whitespace p0).current_char then
        if (parse_name_loop ((skip_whitespace p0).src_ptr.length + 1)
            (skip_whitespace p0) []).2.length < 64 then
          some (.ok (resolve_name_heap slots
              (parse_name_loop ((skip_whitespace p0).src_ptr.length + 1) (skip_whitespace p0) []).2,
            (parse_name_loop ((skip_whitespace p0).src_ptr.length + 1) (skip_whitespace p0) []).1,
            h))
        else some (.error Fault.overrun)
      else if (skip_whitespace p0).current_char = '{' then
        parse_table_loop_heap ops slots fuel h.next []
          (skip_whitespace (next_char (skip_whitespace p0))) h.alloc
      else some (.ok (Cell.nil, skip_whitespace p0, h)) := rfl

theorem parse_table_loop_heap_succ (ops : FloatOps) (slots : List Slot) (fuel ptr : Nat)
    (items : List Cell) (p : Parser) (h : Heap) :
    parse_table_loop_heap ops slots (fuel + 1) ptr items p h =
      if p.current_char ≠ '\x00' ∧ p.current_char ≠ '}' ∧ items.length < MAX_TABLE_ITEMS then
        match parse_expression_precedence_heap ops slots fuel 0 p h with
        | none => none
        | some (.error f) => some (.error f)
        | some (.ok (v, p1, h1)) =>
          parse_table_loop_heap ops slots fuel ptr (items ++ [v])
            (if (skip_whitespace p1).current_char = ',' then
              skip_whitespace (next_char (skip_whitespace p1)) else skip_whitespace p1) h1
      else some (.ok (Cell.table ptr items, if p.current_char = '}' then next_char p else p, h)) :=
  rfl

theorem parse_expression_precedence_heap_succ (ops : FloatOps) (slots : List Slot) (fuel : Nat)
    (min_precedence : Int) (p : Parser) (h : Heap) :
    parse_expression_precedence_heap ops slots (fuel + 1) min_precedence p h =
      match parse_primary_heap ops slots fuel p h with
      | none => none
      | some (.error f) => some (.error f)
      | some (.ok (left, p1, h1)) =>
        match math_loop_heap ops slots fuel min_precedence left (skip_whitespace p1) h1 with
        | none => none
        | some (.error f) => some (.error f)
        | some (.ok (left1, p2, h2)) => concat_loop_heap ops slots fuel left1 p2 h2 := rfl

theorem math_loop_heap_succ (ops : FloatOps) (slots : List Slot) (fuel : Nat)
    (min_precedence : Int) (left : Cell) (p : Parser) (h : Heap) :
    math_loop_heap ops slots (fuel + 1) min_precedence left p h =
      if strchr_ops p.current_char then
        if get_precedence p.current_char < min_precedence then some (.ok (left, p, h))
        else
          match parse_expression_precedence_heap ops slots fuel
              (get_precedence p.current_char + 1) (skip_whitespace (next_char p)) h with
          | none => none
          | some (.error f) => some (.error f)
          | some (.ok (right, p1, h1)) =>
            match parse_math_operator_heap ops left p.current_char right h1 with
            | .error f => some (.error f)
            | .ok (left1, h2) =>
              math_loop_heap ops slots fuel min_precedence left1 (skip_whitespace p1) h2
      else some (.ok (left, p, h)) := rfl

theorem concat_loop_heap_succ (ops : FloatOps) (slots : List Slot) (fuel : Nat)
    (left : Cell) (p : Parser) (h : Heap) :
    concat_loop_heap ops slots (fuel + 1) left p h =
      if p.current_char = '.' ∧ p.peek = '.' then
        match parse_expression_precedence_heap ops slots fuel 3
            (skip_whitespace (next_char (next_char p))) h with
        | none => none
        | some (.error f) => some (.error f)
        | some (.ok (right, p1, h1)) =>
          concat_loop_heap ops slots fuel (concat_step_heap ops left right h1).1
            (skip_whitespace p1) (concat_step_heap ops left right h1).2
      else some (.ok (left, p, h)) := rfl

/-- Without the addresses and the heap, the parser with the heap is the parser. -/
theorem parser_heap_erase (ops : FloatOps) (slots : List Slot) :
    ∀ (fuel : Nat),
      (∀ p h, (parse_primary_heap ops slots fuel p h).map (Except.map erase)
        = parse_primary ops (slots.map Slot.variable) fuel p) ∧
      (∀ ptr items p h, (parse_table_loop_heap ops slots fuel ptr items p h).map (Except.map erase)
        = parse_table_loop ops (slots.map Slot.variable) fuel (items.map Cell.value) p) ∧
      (∀ m p h, (parse_expression_precedence_heap ops slots fuel m p h).map (Except.map erase)
        = parse_expression_precedence ops (slots.map Slot.variable) fuel m p) ∧
      (∀ m left p h, (math_loop_heap ops slots fuel m left p h).map (Except.map erase)
        = math_loop ops (slots.map Slot.variable) fuel m left.value p) ∧
      (∀ left p h, (concat_loop_heap ops slots fuel left p h).map (Except.map erase)
        = concat_loop ops (slots.map Slot.variable) fuel left.value p) := by
  intro fuel
  induction fuel with
  | zero => exact ⟨fun _ _ => rfl, fun _ _ _ _ => rfl, fun _ _ _ => rfl, fun _ _ _ _ => rfl,
      fun _ _ _ => rfl⟩
  | succ n ih =>
    obtain ⟨ih1, ih2, ih3, ih4, ih5⟩ := ih
    refine ⟨?_, ?_, ?_, ?_, ?_⟩
    · intro p h
      rw [parse_primary_heap_succ, parse_primary_succ]
      split
      · rw [← ih3]
        cases parse_expression_precedence_heap ops slots n 0 (next_char (skip_whitespace p)) h with
        | none => rfl
        | some r =>
          cases r with
          | error f => rfl
          | ok x => rfl
      · split
        · rfl
        · split
          · rw [← parse_number_heap_erase]
            rfl
          · split
            · split
              · simp only [Option.map_some', Except.map, erase, resolve_name_heap_erase]
              · rfl
            · split
              · exact ih2 _ [] _ _
              · rfl
    · intro ptr items p h
      rw [parse_table_loop_heap_succ, parse_table_loop_succ]
      simp only [List.length_map]
      split
      · rw [← ih3]
        cases parse_expression_precedence_heap ops slots n 0 p h with
        | none => rfl
        | some r =>
          cases r with
          | error f => rfl
          | ok x =>
            obtain ⟨v, p1, h1⟩ := x
            simp only [Option.map_some', Except.map, erase]
            rw [ih2]
            simp
      · simp only [Option.map_some', Except.map, erase, Cell.value, cell_values_eq]
    · intro m p h
      rw [parse_expression_precedence_heap_succ, parse_expression_precedence_succ, ← ih1 p h]
      cases parse_primary_heap ops slots n p h with
      | none => rfl
      | some r =>
        cases r with
        | error f => rfl
        | ok x =>
          obtain ⟨left, p1, h1⟩ := x
          simp only [Option.map_some', Except.map, erase]
          rw [← ih4 m left _ h1]
          cases math_loop_heap ops slots n m left (skip_whitespace p1) h1 with
          | none => rfl
          | some r =>
            cases r with
            | error f => rfl
            | ok y =>
              obtain ⟨left1, p2, h2⟩ := y
              simp only [Option.map_some', Except.map, erase]
              exact ih5 _ _ _
    · intro m left p h
      rw [math_loop_heap_succ, math_loop_succ]
      split
      · split
        · rfl
        · rw [← ih3 _ _ h]
          cases parse_expression_precedence_heap ops slots n (get_precedence p.current_char + 1)
              (skip_whitespace (next_char p)) h with
          | none => rfl
          | some r =>
            cases r with
            | error f => rfl
            | ok x =>
              obtain ⟨right, p1, h1⟩ := x
              simp only [Option.map_some', Except.map, erase]
              rw [← parse_math_operator_heap_erase ops left right p.current_char h1]
              cases parse_math_operator_heap ops left p.current_char right h1 with
              | error f => rfl
              | ok y =>
                obtain ⟨left1, h2⟩ := y
                simp only [Except.map]
                exact ih4 _ _ _ _
      · rfl
    · intro left p h
      rw [concat_loop_heap_succ, concat_loop_succ]
      split
      · rw [← ih3 _ _ h]
        cases parse_expression_precedence_heap ops slots n 3
            (skip_whitespace (next_char (next_char p))) h with
        | none => rfl
        | some r =>
          cases r with
          | error f => rfl
          | ok x =>
            obtain ⟨right, p1, h1⟩ := x
            simp only [Option.map_some', Except.map, erase]
            rw [ih5]
            rfl
      · rfl

/-- Without the addresses and the heap, `evaluate_expression_heap` is
`evaluate_expression`. -/
theorem evaluate_expression_heap_erase (ops : FloatOps) (slots : List Slot) (fuel : Nat)
    (expr_str : CStr) (h : Heap) :
    (evaluate_expression_heap ops slots fuel expr_str h).map (Except.map (fun r => r.1.value))
      = evaluate_expression ops (slots.map Slot.variable) fuel expr_str := by
  unfold evaluate_expression_heap evaluate_expression
  rw [← (parser_heap_erase ops slots fuel).2.2.1]
  cases parse_expression_precedence_heap ops slots fuel 0
      (next_char { current_char := '\x00', src_ptr := expr_str }) h with
  | none => rfl
  | some r =>
    cases r with
    | error f => rfl
    | ok x => rfl

theorem exec_print_heap_erase (ops : FloatOps) (efuel : Nat) (st : HeapState) (line : CStr) :
    (exec_print_heap ops efuel st line).map (Except.map HeapState.state)
      = exec_print ops efuel st.state line := by
  unfold exec_print_heap exec_print
  have he := evaluate_expression_heap_erase ops st.slots efuel (line.drop 5) st.heap
  have hv : st.state.vars = st.slots.map Slot.variable := rfl
  rw [hv, ← he]
  cases evaluate_expression_heap ops st.slots efuel (line.drop 5) st.heap with
  | none => rfl
  | some r =>
    cases r with
    | error f => rfl
    | ok x => rfl

theorem exec_var_heap_erase (ops : FloatOps) (efuel : Nat) (st : HeapState) (line : CStr) :
    (exec_var_heap ops efuel st line).map (Except.map HeapState.state)
      = exec_var ops efuel st.state line := by
  unfold exec_var_heap exec_var
  split
  · rfl
  · cases strchr line '=' with
    | none => rfl
    | some value_part =>
      simp only []
      have he := evaluate_expression_heap_erase ops st.slots efuel (value_part.drop 1) st.heap
      have hv : st.state.vars = st.slots.map Slot.variable := rfl
      rw [hv, ← he]
      cases evaluate_expression_heap ops st.slots efuel (value_part.drop 1) st.heap with
      | none => rfl
      | some r =>
        cases r with
        | error f => rfl
        | ok x =>
          obtain ⟨val, h1⟩ := x
          simp only [Option.map_some', Except.map]
          cases scan_var_name line with
          | none => rfl
          | some name =>
            simp only [Option.map_some', Except.map, HeapState.state,
              (set_variable_heap_erase st.slots name val).1]

theorem exec_skip_heap_erase (script : Script) (st : HeapState) :
    (exec_skip_heap script st).map (Except.map HeapState.state) = exec_skip script st.state := by
  unfold exec_skip_heap exec_skip
  have hpc : st.state.pc = st.pc := rfl
  rw [hpc]
  cases find_match script st.pc <;> rfl

theorem exec_if_heap_erase (ops : FloatOps) (efuel : Nat) (script : Script) (st : HeapState)
    (line : CStr) :
    (exec_if_heap ops efuel script st line).map (Except.map HeapState.state)
      = exec_if ops efuel script st.state line := by
  unfold exec_if_heap exec_if
  have he := evaluate_expression_heap_erase ops st.slots efuel (line.drop 2) st.heap
  have hv : st.state.vars = st.slots.map Slot.variable := rfl
  rw [hv, ← he]
  cases evaluate_expression_heap ops st.slots efuel (line.drop 2) st.heap with
  | none => rfl
  | some r =>
    cases r with
    | error f => rfl
    | ok x =>
      obtain ⟨val, h1⟩ := x
      simp only [Option.map_some', Except.map]
      split
      · exact exec_skip_heap_erase script _
      · rfl

theorem push_loop_heap_state (st : HeapState) : (push_loop_heap st).state = push_loop st.state := by
  unfold push_loop_heap push_loop
  have h : st.state.loop_stack_top = st.loop_stack_top := rfl
  rw [h]
  split <;> rfl

theorem push_loop_heap_frame (st : HeapState) :
    (push_loop_heap st).slots = st.slots ∧ (push_loop_heap st).stdout = st.stdout ∧
      (push_loop_heap st).trace = st.trace := by
  unfold push_loop_heap
  split <;> exact ⟨rfl, rfl, rfl⟩

theorem exec_while_heap_erase (ops : FloatOps) (efuel : Nat) (script : Script) (st : HeapState)
    (line : CStr) :
    (exec_while_heap ops efuel script st line).map (Except.map HeapState.state)
      = exec_while ops efuel script st.state line := by
  unfold exec_while_heap exec_while
  have he := evaluate_expression_heap_erase ops st.slots efuel (line.drop 5) st.heap
  have hv : st.state.vars = st.slots.map Slot.variable := rfl
  have hpc : st.state.pc = st.pc := rfl
  rw [hv, ← he, hpc, ← push_loop_heap_state]
  cases evaluate_expression_heap ops st.slots efuel (line.drop 5) st.heap with
  | none => rfl
  | some r =>
    cases r with
    | error f => rfl
    | ok x =>
      obtain ⟨val, h1⟩ := x
      simp only [Option.map_some', Except.map]
      split
      · cases find_match script st.pc <;> rfl
      · rfl

theorem exec_end_heap_erase (script : Script) (st : HeapState) :
    (exec_end_heap script st).map (Except.map HeapState.state) = exec_end script st.state := by
  unfold exec_end_heap exec_end
  have h1 : st.state.loop_stack_top = st.loop_stack_top := rfl
  have h2 : st.state.loop_starts = st.loop_starts := rfl
  rw [h1, h2]
  split
  · split
    · rfl
    · split
      · rfl
      · split <;> rfl
  · rfl

/-- Without the addresses and the heap, one iteration with the heap is
`execute_step`. -/
theorem execute_line_heap_erase (ops : FloatOps) (efuel : Nat) (script : Script)
    (st : HeapState) :
    (execute_line_heap ops efuel script st).map (Except.map HeapState.state)
      = execute_step ops efuel script st.state := by
  unfold execute_line_heap execute_step
  have hpc : st.state.pc = st.pc := rfl
  have hen : enter_line st.state = (enter_line_heap st).state := rfl
  rw [hpc, hen]
  split
  · rfl
  split
  · exact exec_print_heap_erase _ _ _ _
  split
  · exact exec_var_heap_erase _ _ _ _
  split
  · exact exec_if_heap_erase _ _ _ _ _
  split
  · exact exec_skip_heap_erase _ _
  split
  · exact exec_while_heap_erase _ _ _ _ _
  split
  · exact exec_end_heap_erase _ _
  · rfl

/-! ## One step of the main loop -/

theorem exec_skip_ok (script : Script) (st st1 : ExecState)
    (h : exec_skip script st = some (.ok st1)) :
    ∃ m, find_match script st.pc = .ok m ∧ st1 = { st with pc := m + 1 } := by
  unfold exec_skip at h
  split at h
  · exact absurd h (by simp)
  · rename_i m hm
    simp only [Option.some.injEq, Except.ok.injEq] at h
    exact ⟨m, hm, h.symm⟩

theorem exec_print_ok (ops : FloatOps) (efuel : Nat) (st st1 : ExecState) (line : CStr)
    (h : exec_print ops efuel st line = some (.ok st1)) :
    ∃ val, evaluate_expression ops st.vars efuel (line.drop 5) = some (.ok val) ∧
      st1 = { st with stdout := st.stdout ++ print_value ops val, pc := st.pc + 1 } := by
  unfold exec_print at h
  split at h
  · exact absurd h (by simp)
  · exact absurd h (by simp)
  · rename_i val hv
    simp only [Option.some.injEq, Except.ok.injEq] at h
    exact ⟨val, hv, h.symm⟩

theorem exec_var_ok (ops : FloatOps) (efuel : Nat) (st st1 : ExecState) (line : CStr)
    (h : exec_var ops efuel st line = some (.ok st1)) :
    (strchr line '=' = none ∧ st1 = { st with pc := st.pc + 1 }) ∨
      ∃ value_part val name, strchr line '=' = some value_part ∧
        evaluate_expression ops st.vars efuel (value_part.drop 1) = some (.ok val) ∧
        scan_var_name line = some name ∧ name.length < 64 ∧
        st1 = { st with vars := set_variable st.vars name val, pc := st.pc + 1 } := by
  unfold exec_var at h
  split at h
  · exact absurd h (by simp)
  · rename_i hlen
    split at h
    · rename_i hs
      simp only [Option.some.injEq, Except.ok.injEq] at h
      exact Or.inl ⟨hs, h.symm⟩
    · rename_i value_part hs
      split at h
      · exact absurd h (by simp)
      · exact absurd h (by simp)
      · rename_i val hv
        split at h
        · exact absurd h (by simp)
        · rename_i name hn
          simp only [Option.some.injEq, Except.ok.injEq] at h
          refine Or.inr ⟨value_part, val, name, hs, hv, hn, ?_, h.symm⟩
          rw [hn] at hlen
          simp only [Option.getD_some] at hlen
          omega

theorem exec_if_ok (ops : FloatOps) (efuel : Nat) (script : Script) (st st1 : ExecState)
    (line : CStr) (h : exec_if ops efuel script st line = some (.ok st1)) :
    ∃ cond_val, evaluate_expression ops st.vars efuel (line.drop 2) = some (.ok cond_val) ∧
      ((is_truthy cond_val = false ∧
          ∃ m, find_match script st.pc = .ok m ∧ st1 = { st with pc := m + 1 }) ∨
        (is_truthy cond_val = true ∧ st1 = { st with pc := st.pc + 1 })) := by
  unfold exec_if at h
  split at h
  · exact absurd h (by simp)
  · exact absurd h (by simp)
  · rename_i cond_val hv
    refine ⟨cond_val, hv, ?_⟩
    split at h
    · rename_i hc
      exact Or.inl ⟨by simpa using hc, exec_skip_ok script st st1 h⟩
    · rename_i hc
      simp only [Option.some.injEq, Except.ok.injEq] at h
      exact Or.inr ⟨by simpa using hc, h.symm⟩

theorem exec_while_ok (ops : FloatOps) (efuel : Nat) (script : Script) (st st1 : ExecState)
    (line : CStr) (h : exec_while ops efuel script st line = some (.ok st1)) :
    ∃ cond_val, evaluate_expression ops st.vars efuel (line.drop 5) = some (.ok cond_val) ∧
      ((is_truthy cond_val = false ∧ ∃ m, find_match script st.pc = .ok m ∧
          st1 = { push_loop st with
            pc := m + 1, loop_stack_top := (push_loop st).loop_stack_top - 1 }) ∨
        (is_truthy cond_val = true ∧ st1 = { push_loop st with pc := st.pc + 1 })) := by
  unfold exec_while at h
  split at h
  · exact absurd h (by simp)
  · exact absurd h (by simp)
  · rename_i cond_val hv
    refine ⟨cond_val, hv, ?_⟩
    split at h
    · rename_i hc
      split at h
      · exact absurd h (by simp)
      · rename_i m hm
        simp only [Option.some.injEq, Except.ok.injEq] at h
        exact Or.inl ⟨by simpa using hc, m, hm, h.symm⟩
    · rename_i hc
      simp only [Option.some.injEq, Except.ok.injEq] at h
      exact Or.inr ⟨by simpa using hc, h.symm⟩

theorem exec_end_ok (script : Script) (st st1 : ExecState)
    (h : exec_end script st = some (.ok st1)) :
    (st.loop_stack_top < 0 ∧ st1 = { st with pc := st.pc + 1 }) ∨
      (0 ≤ st.loop_stack_top ∧
        ((first_token (script.getD (st.loop_starts.getD st.loop_stack_top.toNat 0) [])
            = "while".toList ∧
            st1 = { st with pc := st.loop_starts.getD st.loop_stack_top.toNat 0 }) ∨
          (first_token (script.getD (st.loop_starts.getD st.loop_stack_top.toNat 0) [])
            ≠ "while".toList ∧
            st1 = { st with loop_stack_top := st.loop_stack_top - 1, pc := st.pc + 1 }))) := by
  unfold exec_end at h
  split at h
  · rename_i htop
    split at h
    · exact absurd h (by simp)
    · split at h
      · exact absurd h (by simp)
      · split at h
        · rename_i hw
          simp only [Option.some.injEq, Except.ok.injEq] at h
          exact Or.inr ⟨htop, Or.inl ⟨hw, h.symm⟩⟩
        · rename_i hw
          simp only [Option.some.injEq, Except.ok.injEq] at h
          exact Or.inr ⟨htop, Or.inr ⟨hw, h.symm⟩⟩
  · rename_i htop
    simp only [Option.some.injEq, Except.ok.injEq] at h
    exact Or.inl ⟨by omega, h.symm⟩

/-- What one step does to the program counter and the loop stack. -/
theorem execute_step_cases (ops : FloatOps) (efuel : Nat) (script : Script) (st st1 : ExecState)
    (h : execute_step ops efuel script st = some (.ok st1)) :
    st1.trace = st.trace ++ [st.pc] ∧
      ((st1.loop_starts = st.loop_starts ∧ st1.loop_stack_top = st.loop_stack_top ∧
          (st1.pc = st.pc + 1 ∨ ∃ m, find_match script st.pc = .ok m ∧ st1.pc = m + 1)) ∨
        (first_token (script.getD st.pc []) = "while".toList ∧
          st.loop_stack_top < (MAX_BLOCK_DEPTH : Int) - 1 ∧
          st1.loop_starts = st.loop_starts.set (st.loop_stack_top + 1).toNat st.pc ∧
          ((st1.loop_stack_top = st.loop_stack_top + 1 ∧ st1.pc = st.pc + 1) ∨
            (st1.loop_stack_top = st.loop_stack_top ∧
              ∃ m, find_match script st.pc = .ok m ∧ st1.pc = m + 1))) ∨
        (first_token (script.getD st.pc []) = "while".toList ∧
          ¬ st.loop_stack_top < (MAX_BLOCK_DEPTH : Int) - 1 ∧
          st1.loop_starts = st.loop_starts ∧
          st1.loop_stack_top = st.loop_stack_top - 1 ∧
          ∃ m, find_match script st.pc = .ok m ∧ st1.pc = m + 1) ∨
        (first_token (script.getD st.pc []) = "end".toList ∧ 0 ≤ st.loop_stack_top ∧
          st1.loop_starts = st.loop_starts ∧
          ((first_token (script.getD (st.loop_starts.getD st.loop_stack_top.toNat 0) [])
              = "while".toList ∧ st1.loop_stack_top = st.loop_stack_top ∧
              st1.pc = st.loop_starts.getD st.loop_stack_top.toNat 0) ∨
            (first_token (script.getD (st.loop_starts.getD st.loop_stack_top.toNat 0) [])
              ≠ "while".toList ∧ st1.loop_stack_top = st.loop_stack_top - 1 ∧
              st1.pc = st.pc + 1)))) := by
  unfold execute_step at h
  split at h
  · exact absurd h (by simp)
  split at h
  · obtain ⟨val, _, rfl⟩ := exec_print_ok _ _ _ _ _ h
    exact ⟨rfl, Or.inl ⟨rfl, rfl, Or.inl rfl⟩⟩
  split at h
  · rcases exec_var_ok _ _ _ _ _ h with ⟨_, rfl⟩ | ⟨_, _, _, _, _, _, _, rfl⟩
    · exact ⟨rfl, Or.inl ⟨rfl, rfl, Or.inl rfl⟩⟩
    · exact ⟨rfl, Or.inl ⟨rfl, rfl, Or.inl rfl⟩⟩
  split at h
  · obtain ⟨_, _, hc⟩ := exec_if_ok _ _ _ _ _ _ h
    rcases hc with ⟨_, m, hm, rfl⟩ | ⟨_, rfl⟩
    · exact ⟨rfl, Or.inl ⟨rfl, rfl, Or.inr ⟨m, hm, rfl⟩⟩⟩
    · exact ⟨rfl, Or.inl ⟨rfl, rfl, Or.inl rfl⟩⟩
  split at h
  · obtain ⟨m, hm, rfl⟩ := exec_skip_ok _ _ _ h
    exact ⟨rfl, Or.inl ⟨rfl, rfl, Or.inr ⟨m, hm, rfl⟩⟩⟩
  split at h
  · rename_i hw
    obtain ⟨_, _, hc⟩ := exec_while_ok _ _ _ _ _ _ h
    by_cases hpush : st.loop_stack_top < (MAX_BLOCK_DEPTH : Int) - 1
    · have hp : push_loop (enter_line st) = { enter_line st with
          loop_starts := st.loop_starts.set (st.loop_stack_top + 1).toNat st.pc
          loop_stack_top := st.loop_stack_top + 1 } := by
        unfold push_loop
        rw [if_pos (by exact hpush)]
        rfl
      rw [hp] at hc
      rcases hc with ⟨_, m, hm, rfl⟩ | ⟨_, rfl⟩
      · exact ⟨rfl, Or.inr (Or.inl ⟨hw, hpush, rfl, Or.inr ⟨by simp, m, hm, rfl⟩⟩)⟩
      · exact ⟨rfl, Or.inr (Or.inl ⟨hw, hpush, rfl, Or.inl ⟨rfl, rfl⟩⟩)⟩
    · have hp : push_loop (enter_line st) = enter_line st := by
        unfold push_loop
        rw [if_neg (by exact hpush)]
      rw [hp] at hc
      rcases hc with ⟨_, m, hm, rfl⟩ | ⟨_, rfl⟩
      · exact ⟨rfl, Or.inr (Or.inr (Or.inl ⟨hw, hpush, rfl, rfl, m, hm, rfl⟩))⟩
      · exact ⟨rfl, Or.inl ⟨rfl, rfl, Or.inl rfl⟩⟩
  split at h
  · rename_i he
    rcases exec_end_ok _ _ _ h with ⟨htop, rfl⟩ | ⟨htop, ⟨hw, rfl⟩ | ⟨hw, rfl⟩⟩
    · exact ⟨rfl, Or.inl ⟨rfl, rfl, Or.inl rfl⟩⟩
    · exact ⟨rfl, Or.inr (Or.inr (Or.inr ⟨he, htop, rfl, Or.inl ⟨hw, rfl, rfl⟩⟩))⟩
    · exact ⟨rfl, Or.inr (Or.inr (Or.inr ⟨he, htop, rfl, Or.inr ⟨hw, rfl, rfl⟩⟩))⟩
  · simp only [Option.some.injEq, Except.ok.injEq] at h
    subst h
    exact ⟨rfl, Or.inl ⟨rfl, rfl, Or.inl rfl⟩⟩

/-- A first token of 64 characters or more ends the step with an overrun of
the array `keyword`. -/
theorem execute_step_overrun (ops : FloatOps) (efuel : Nat) (script : Script) (st : ExecState)
    (h : 64 ≤ (first_token (script.getD st.pc [])).length) :
    execute_step ops efuel script st = some (.error Fault.overrun) := by
  unfold execute_step
  rw [if_pos h]

/-- `execute_script` runs its main loop from `init_state`. -/
theorem execute_script_eq (ops : FloatOps) (efuel fuel : Nat) (script : Script)
    (vars : List Variable) :
    execute_script ops efuel fuel script vars
      = execute_loop ops efuel script fuel (init_state vars) := rfl

theorem getD_set_self (l : List Nat) (i v : Nat) (h : i < l.length) : (l.set i v).getD i 0 = v := by
  simp [List.getElem?_set_self h]

theorem getD_set_ne (l : List Nat) (i j v : Nat) (h : i ≠ j) : (l.set i v).getD j 0 = l.getD j 0 := by
  simp [List.getElem?_set_ne h]

/-- One step keeps the loop stack within bounds and its entries on `while` lines. -/
theorem execute_step_stack_ok (ops : FloatOps) (efuel : Nat) (script : Script)
    (st st1 : ExecState) (h : execute_step ops efuel script st = some (.ok st1))
    (hok : stack_ok script st) : stack_ok script st1 := by
  obtain ⟨h1, h2, h3, h4⟩ := hok
  have hmax : (MAX_BLOCK_DEPTH : Int) = 64 := rfl
  rcases (execute_step_cases ops efuel script st st1 h).2 with
    ⟨e1, e2, _⟩ | ⟨hw, hlt, e1, e2⟩ | ⟨_, hge, e1, e2, _⟩ | ⟨_, htop, e1, e2⟩
  · exact ⟨by rw [e2]; exact h1, by rw [e2]; exact h2, by rw [e1]; exact h3,
      fun i hi => by rw [e1]; exact h4 i (by rw [e2] at hi; exact hi)⟩
  · have hidx : (st.loop_stack_top + 1).toNat < st.loop_starts.length := by
      rw [h3]; simp only [MAX_BLOCK_DEPTH]; omega
    have hent : ∀ i : Nat, (i : Int) ≤ st.loop_stack_top + 1 →
        first_token (script.getD (st1.loop_starts.getD i 0) []) = "while".toList := by
      intro i hi
      rw [e1]
      by_cases hi2 : (st.loop_stack_top + 1).toNat = i
      · rw [← hi2, getD_set_self _ _ _ hidx]; exact hw
      · rw [getD_set_ne _ _ _ _ hi2]; exact h4 i (by omega)
    rcases e2 with ⟨e2, _⟩ | ⟨e2, _⟩
    · exact ⟨by rw [e2]; omega, by rw [e2]; omega, by rw [e1, List.length_set]; exact h3,
        fun i hi => hent i (by rw [e2] at hi; exact hi)⟩
    · exact ⟨by rw [e2]; omega, by rw [e2]; omega, by rw [e1, List.length_set]; exact h3,
        fun i hi => hent i (by rw [e2] at hi; omega)⟩
  · exact ⟨by rw [e2]; omega, by rw [e2]; omega, by rw [e1]; exact h3,
      fun i hi => by rw [e1]; exact h4 i (by rw [e2] at hi; omega)⟩
  · rcases e2 with ⟨_, e2, _⟩ | ⟨_, e2, _⟩
    · exact ⟨by rw [e2]; exact h1, by rw [e2]; exact h2, by rw [e1]; exact h3,
        fun i hi => by rw [e1]; exact h4 i (by rw [e2] at hi; exact hi)⟩
    · exact ⟨by rw [e2]; omega, by rw [e2]; omega, by rw [e1]; exact h3,
        fun i hi => by rw [e1]; exact h4 i (by rw [e2] at hi; omega)⟩

/-- A step with the heap that ends without a fault is, without the addresses,
a step of `execute_step`, and no released block was touched in it. -/
theorem execute_step_heap_ok (ops : FloatOps) (efuel : Nat) (script : Script)
    (st st1 : HeapState) (h : execute_step_heap ops efuel script st = some (.ok st1)) :
    execute_step ops efuel script st.state = some (.ok st1.state) ∧ st1.heap.bad = false := by
  have he := execute_line_heap_erase ops efuel script st
  unfold execute_step_heap at h
  cases hl : execute_line_heap ops efuel script st with
  | none =>
    rw [hl] at h
    exact absurd h (by simp)
  | some r =>
    cases r with
    | error f =>
      rw [hl] at h
      exact absurd h (by simp)
    | ok st2 =>
      rw [hl] at h he
      simp only [] at h
      by_cases hb : st2.heap.bad = true
      · rw [if_pos hb] at h
        exact absurd h (by simp)
      · rw [if_neg hb] at h
        simp only [Option.some.injEq, Except.ok.injEq] at h
        subst h
        exact ⟨he.symm, by simpa using hb⟩

/-- A step with the heap ends when `execute_step` ends, and with its result,
unless a released block was touched in it. -/
theorem execute_step_heap_some (ops : FloatOps) (efuel : Nat) (script : Script)
    (st : HeapState) (r : Except Fault ExecState)
    (h : execute_step ops efuel script st.state = some r) :
    ∃ rh, execute_step_heap ops efuel script st = some rh ∧
      (rh = .error Fault.heap ∨ rh.map HeapState.state = r) := by
  have he := execute_line_heap_erase ops efuel script st
  rw [h] at he
  unfold execute_step_heap
  cases hl : execute_line_heap ops efuel script st with
  | none =>
    rw [hl] at he
    exact absurd he (by simp)
  | some r1 =>
    rw [hl] at he
    simp only [Option.map_some', Option.some.injEq] at he
    cases r1 with
    | error f => exact ⟨_, rfl, Or.inr he⟩
    | ok st2 =>
      simp only []
      by_cases hb : st2.heap.bad = true
      · rw [if_pos hb]
        exact ⟨_, rfl, Or.inl rfl⟩
      · rw [if_neg hb]
        exact ⟨_, rfl, Or.inr he⟩

/-- In a reachable state no released block has been touched. -/
theorem reachable_heap_sound (ops : FloatOps) (efuel : Nat) (script : Script)
    (slots : List Slot) (heap : Heap) (st : HeapState)
    (h : Reachable ops efuel script slots heap st) : st.heap.bad = false := by
  induction h with
  | init h0 => exact h0
  | step st st1 _ _ hstep _ => exact (execute_step_heap_ok ops efuel script st st1 hstep).2

/-- The state in which the main loop exits is reachable. -/
theorem execute_loop_heap_reachable (ops : FloatOps) (efuel : Nat) (script : Script)
    (slots : List Slot) (heap : Heap) :
    ∀ (fuel : Nat) (st st1 : HeapState), Reachable ops efuel script slots heap st →
      execute_loop_heap ops efuel script fuel st = some (.ok st1) →
      Reachable ops efuel script slots heap st1 := by
  intro fuel
  induction fuel with
  | zero => intro st st1 _ h; simp [execute_loop_heap] at h
  | succ n ih =>
    intro st st1 hr h
    rw [execute_loop_heap] at h
    split at h
    · rename_i hpc
      split at h
      · exact absurd h (by simp)
      · exact absurd h (by simp)
      · rename_i st2 hs
        exact ih st2 st1 (Reachable.step st st2 hr hpc hs) h
    · simp only [Option.some.injEq, Except.ok.injEq] at h
      subst h
      exact hr

/-- A run the heap ends: `print_twice_script` stores a String in `s` and
prints it twice. The first `print` releases the buffer the table entry points
to, the second reads it: the run ends at line 2 with `Fault.heap`, where
`execute_script`, which does not follow the heap, prints `hi` twice. -/
theorem execute_script_heap_print_twice :
    execute_script_heap float_free_ops 5 4 print_twice_script [] empty_heap
        = some (.error Fault.heap) ∧
      (execute_script float_free_ops 5 4 print_twice_script []).map
          (Except.map (fun st => st.stdout))
        = some (.ok "hi\nhi\n".toList) :=
  ⟨rfl, rfl⟩

/-- Runs with the heap from the empty table. `print "a" .. "b"` allocates the
two literals and the joined string and releases all three. Reassigning `s`
releases the String it held. After `var t = s` the two variables share one
buffer: `var s = 1` releases it, and `print t` reads a released block. -/
theorem execute_script_heap_examples :
    (execute_script_heap float_free_ops 6 3 (script_of ["print \"a\" .. \"b\""]) []
        empty_heap).map (Except.map (fun st => (st.stdout, st.heap)))
      = some (.ok ("ab\n".toList, ⟨3, [2, 1, 0], false⟩)) ∧
    (execute_script_heap float_free_ops 6 3 (script_of ["var s = \"a\"", "var s = \"b\""]) []
        empty_heap).map
        (Except.map (fun st => (st.slots.map (fun x => free_value x.value), st.heap)))
      = some (.ok ([[1]], ⟨2, [0], false⟩)) ∧
    execute_script_heap float_free_ops 6 5
        (script_of ["var s = \"a\"", "var t = s", "var s = 1", "print t"]) [] empty_heap
      = some (.error Fault.heap) :=
  ⟨rfl, rfl, rfl⟩

/-- A run with the heap that ends without a fault is, without the addresses,
the run of `execute_script`. -/
theorem execute_loop_heap_erase (ops : FloatOps) (efuel : Nat) (script : Script) :
    ∀ (fuel : Nat) (st st1 : HeapState),
      execute_loop_heap ops efuel script fuel st = some (.ok st1) →
      execute_loop ops efuel script fuel st.state = some (.ok st1.state) := by
  intro fuel
  induction fuel with
  | zero => intro st st1 h; simp [execute_loop_heap] at h
  | succ n ih =>
    intro st st1 h
    rw [execute_loop_heap] at h
    rw [execute_loop]
    have hpc : st.state.pc = st.pc := rfl
    rw [hpc]
    split at h
    · rename_i hlt
      rw [if_pos hlt]
      split at h
      · exact absurd h (by simp)
      · exact absurd h (by simp)
      · rename_i st2 hs
        rw [(execute_step_heap_ok ops efuel script st st2 hs).1]
        exact ih st2 st1 h
    · rename_i hlt
      rw [if_neg hlt]
      simp only [Option.some.injEq, Except.ok.injEq] at h
      subst h
      rfl

/-- `execute_script` with the heap, when it ends without a fault, ends in the
state of `execute_script`, apart from the addresses. -/
theorem execute_script_heap_erase (ops : FloatOps) (efuel fuel : Nat) (script : Script)
    (slots : List Slot) (heap : Heap) (st : HeapState)
    (h : execute_script_heap ops efuel fuel script slots heap = some (.ok st)) :
    execute_script ops efuel fuel script (slots.map Slot.variable) = some (.ok st.state) :=
  execute_loop_heap_erase ops efuel script fuel _ st h

/-- The runs of `count_script`, `if_else_script`, `while_if_script`,
`indented_print_script` and `countdown_script` with the heap, from the empty
table: they end as the runs without the heap do, and nothing is allocated. -/
theorem execute_script_heap_concrete :
    (execute_script_heap float_free_ops 5 20 count_script [] empty_heap).map
        (Except.map (fun st => (st.stdout, st.trace, st.pc, st.heap)))
      = some (.ok ([], [0, 1], 5, empty_heap)) ∧
    (execute_script_heap float_free_ops 5 20 if_else_script [] empty_heap).map
        (Except.map (fun st => (st.stdout, st.trace, st.heap)))
      = some (.ok ("1\n3\n".toList, [0, 1, 2, 6, 7], empty_heap)) ∧
    (execute_script_heap float_free_ops 5 20 while_if_script [] empty_heap).map
        (Except.map (fun st => (st.stdout, st.trace, st.heap)))
      = some (.ok ("2\n".toList, [0, 4, 5], empty_heap)) ∧
    (execute_script_heap float_free_ops 5 20 indented_print_script [] empty_heap).map
        (Except.map (fun st => (st.stdout, st.heap)))
      = some (.ok ("nil\n".toList, empty_heap)) ∧
    (execute_script_heap float_free_ops 5 20 countdown_script [] empty_heap).map
        (Except.map (fun st => (st.loop_stack_top, st.loop_starts.take 2, st.trace, st.heap)))
      = some (.ok (1, [1, 1], [0, 1, 2, 3, 1, 2, 3, 1], empty_heap)) := by
  refine ⟨by decide!, by decide!, by decide!, by decide!, by decide!⟩

/-! ## Scripts without `while` -/

theorem getD_mem (script : Script) (i : Nat) (h : i < script.length) : script.getD i [] ∈ script := by
  rw [List.getD_eq_getElem _ _ h]
  exact List.getElem_mem h

theorem tokens_fit_drop (script : Script) (n : Nat) (h : tokens_fit script) :
    tokens_fit (script.drop n) := fun l hl => h l (List.mem_of_mem_drop hl)

theorem line_expr_print (line : CStr) (h : first_token line = "print".toList) :
    line_expr line = some (line.drop 5) := by
  unfold line_expr
  rw [if_pos h]

theorem line_expr_var (line value_part : CStr) (h : first_token line = "var".toList)
    (hs : strchr line '=' = some value_part) : line_expr line = some (value_part.drop 1) := by
  have h1 : first_token line ≠ "print".toList := by rw [h]; decide
  unfold line_expr
  rw [if_neg h1, if_pos h, hs]
  rfl

theorem line_expr_if (line : CStr) (h : first_token line = "if".toList) :
    line_expr line = some (line.drop 2) := by
  have h1 : first_token line ≠ "print".toList := by rw [h]; decide
  have h2 : first_token line ≠ "var".toList := by rw [h]; decide
  unfold line_expr
  rw [if_neg h1, if_neg h2, if_pos h]

/-- The jump of an `if` or `else` line: it moves the program counter forward,
and it is made without a fault when the tokens of the script fit. -/
theorem exec_skip_forward (script : Script) (st : ExecState) (hpc : st.pc < script.length)
    (hk0 : first_token (script.getD st.pc []) ≠ []) :
    ∃ r, exec_skip script (enter_line st) = some r ∧
      (∀ st1, r = .ok st1 → st1.loop_stack_top = st.loop_stack_top ∧ st.pc < st1.pc ∧
        st1.pc ≤ script.length ∧ st1.trace = st.trace ++ [st.pc] ∧ st1.vars = st.vars) ∧
      (tokens_fit script → ∃ st1, r = .ok st1) := by
  unfold exec_skip
  simp only [enter_line]
  cases hfm : find_match script st.pc with
  | error f =>
    refine ⟨_, rfl, (fun st1 h => by cases h), fun hfit => ?_⟩
    obtain ⟨r, hr⟩ := find_match_ok script st.pc hk0 (hfit _ (getD_mem script st.pc hpc))
      (tokens_fit_drop script _ hfit)
    rw [hfm] at hr
    cases hr
  | ok m =>
    have hb := find_match_ge script st.pc m hpc hfm
    refine ⟨_, rfl, fun st1 h => ?_, fun _ => ⟨_, rfl⟩⟩
    cases h
    exact ⟨rfl, by show st.pc < m + 1; omega, by show m + 1 ≤ script.length; omega, rfl, rfl⟩

/-- In a script without `while`, a step from a state with the loop stack empty
ends (the expressions of the script being assumed to evaluate from the table
of the state): without a fault it moves the program counter forward and leaves
the stack empty; and it is without a fault when the tokens and names of the
script fit their arrays and its expressions evaluate without one. -/
theorem execute_step_no_while (ops : FloatOps) (efuel : Nat) (script : Script)
    (hnw : ∀ line ∈ script, first_token line ≠ "while".toList)
    (st : ExecState) (hpc : st.pc < script.length) (htop : st.loop_stack_top = -1)
    (hev : ∀ (line e : CStr), line ∈ script → line_expr line = some e →
      ∃ r, evaluate_expression ops st.vars efuel e = some r) :
    ∃ r, execute_step ops efuel script st = some r ∧
      (∀ st1, r = .ok st1 → st1.loop_stack_top = -1 ∧ st.pc < st1.pc ∧
        st1.pc ≤ script.length ∧ st1.trace = st.trace ++ [st.pc]) ∧
      (tokens_fit script → (∀ line ∈ script, var_line_ok line) →
        (∀ (line e : CStr) (f : Fault), line ∈ script → line_expr line = some e →
          evaluate_expression ops st.vars efuel e ≠ some (.error f)) →
        ∃ st1, r = .ok st1) := by
  have hmem := getD_mem script st.pc hpc
  have hplain : ∀ (vs : List Variable) (out : CStr),
      ∃ r, (some (Except.ok { enter_line st with vars := vs, stdout := out, pc := st.pc + 1 })
        : Option (Except Fault ExecState)) = some r ∧
      (∀ st1, r = .ok st1 → st1.loop_stack_top = -1 ∧ st.pc < st1.pc ∧
        st1.pc ≤ script.length ∧ st1.trace = st.trace ++ [st.pc]) ∧
      (tokens_fit script → (∀ line ∈ script, var_line_ok line) →
        (∀ (line e : CStr) (f : Fault), line ∈ script → line_expr line = some e →
          evaluate_expression ops st.vars efuel e ≠ some (.error f)) →
        ∃ st1, r = .ok st1) := by
    intro vs out
    refine ⟨_, rfl, fun st1 h => ?_, fun _ _ _ => ⟨_, rfl⟩⟩
    cases h
    exact ⟨htop, by show st.pc < st.pc + 1; omega, by show st.pc + 1 ≤ script.length; omega,
      rfl⟩
  have hjump : first_token (script.getD st.pc []) ≠ [] →
      ∃ r, exec_skip script (enter_line st) = some r ∧
      (∀ st1, r = .ok st1 → st1.loop_stack_top = -1 ∧ st.pc < st1.pc ∧
        st1.pc ≤ script.length ∧ st1.trace = st.trace ++ [st.pc]) ∧
      (tokens_fit script → (∀ line ∈ script, var_line_ok line) →
        (∀ (line e : CStr) (f : Fault), line ∈ script → line_expr line = some e →
          evaluate_expression ops st.vars efuel e ≠ some (.error f)) →
        ∃ st1, r = .ok st1) := by
    intro hk0
    obtain ⟨r, hr, ha, hb⟩ := exec_skip_forward script st hpc hk0
    refine ⟨r, hr, fun st1 h => ?_, fun hfit _ _ => hb hfit⟩
    obtain ⟨e1, e2, e3, e4, _⟩ := ha st1 h
    exact ⟨e1.trans htop, e2, e3, e4⟩
  unfold execute_step
  by_cases h64 : 64 ≤ (first_token (script.getD st.pc [])).length
  · rw [if_pos h64]
    refine ⟨_, rfl, (fun st1 h => by cases h), fun hfit _ _ => ?_⟩
    have := hfit _ hmem
    omega
  rw [if_neg h64]
  by_cases hp : first_token (script.getD st.pc []) = "print".toList
  · rw [if_pos hp]
    obtain ⟨r, hr⟩ := hev _ ((script.getD st.pc []).drop 5) hmem (line_expr_print _ hp)
    have hr2 : evaluate_expression ops (enter_line st).vars efuel ((script.getD st.pc []).drop 5)
        = some r := hr
    unfold exec_print
    rw [hr2]
    cases r with
    | error f =>
      refine ⟨_, rfl, (fun st1 h => by cases h), fun _ _ hok => ?_⟩
      exact absurd hr (hok _ _ f hmem (line_expr_print _ hp))
    | ok val => exact hplain st.vars (st.stdout ++ print_value ops val)
  rw [if_neg hp]
  by_cases hvar : first_token (script.getD st.pc []) = "var".toList
  · rw [if_pos hvar]
    unfold exec_var
    by_cases hlen : 64 ≤ ((scan_var_name (script.getD st.pc [])).getD []).length
    · rw [if_pos hlen]
      refine ⟨_, rfl, (fun st1 h => by cases h), fun _ hvl _ => ?_⟩
      have := (hvl _ hmem hvar).1
      omega
    rw [if_neg hlen]
    cases hs : strchr (script.getD st.pc []) '=' with
    | none =>
      simp only []
      exact hplain st.vars st.stdout
    | some value_part =>
      simp only []
      have hle : line_expr (script.getD st.pc []) = some (value_part.drop 1) :=
        line_expr_var _ _ hvar hs
      obtain ⟨r, hr⟩ := hev _ (value_part.drop 1) hmem hle
      have hr2 : evaluate_expression ops (enter_line st).vars efuel (value_part.drop 1)
          = some r := hr
      rw [hr2]
      cases r with
      | error f =>
        refine ⟨_, rfl, (fun st1 h => by cases h), fun _ _ hok => ?_⟩
        exact absurd hr (hok _ _ f hmem hle)
      | ok val =>
        simp only []
        cases hn : scan_var_name (script.getD st.pc []) with
        | none =>
          refine ⟨_, rfl, (fun st1 h => by cases h), fun _ hvl _ => ?_⟩
          have := (hvl _ hmem hvar).2 (by rw [hs]; rfl)
          rw [hn] at this
          exact absurd this (by simp)
        | some name => exact hplain (set_variable st.vars name val) st.stdout
  rw [if_neg hvar]
  by_cases hif : first_token (script.getD st.pc []) = "if".toList
  · rw [if_pos hif]
    obtain ⟨r, hr⟩ := hev _ ((script.getD st.pc []).drop 2) hmem (line_expr_if _ hif)
    have hr2 : evaluate_expression ops (enter_line st).vars efuel ((script.getD st.pc []).drop 2)
        = some r := hr
    unfold exec_if
    rw [hr2]
    cases r with
    | error f =>
      refine ⟨_, rfl, (fun st1 h => by cases h), fun _ _ hok => ?_⟩
      exact absurd hr (hok _ _ f hmem (line_expr_if _ hif))
    | ok val =>
      simp only []
      by_cases hc : (!is_truthy val) = true
      · rw [if_pos hc]
        exact hjump (by rw [hif]; decide)
      · rw [if_neg hc]
        exact hplain st.vars st.stdout
  rw [if_neg hif]
  by_cases hel : first_token (script.getD st.pc []) = "else".toList
  · rw [if_pos hel]
    exact hjump (by rw [hel]; decide)
  rw [if_neg hel, if_neg (hnw _ hmem)]
  by_cases hend : first_token (script.getD st.pc []) = "end".toList
  · rw [if_pos hend]
    unfold exec_end
    have hneg : ¬ (enter_line st).loop_stack_top ≥ 0 := by
      show ¬ st.loop_stack_top ≥ 0
      omega
    rw [if_neg hneg]
    exact hplain st.vars st.stdout
  · rw [if_neg hend]
    exact hplain st.vars st.stdout

/-- An expression evaluates with the heap exactly when it evaluates without,
and to the same result apart from the addresses. -/
theorem evaluate_expression_heap_some (ops : FloatOps) (slots : List Slot) (fuel : Nat)
    (expr_str : CStr) (h : Heap) (r : Except Fault (Cell × Heap))
    (hr : evaluate_expression_heap ops slots fuel expr_str h = some r) :
    evaluate_expression ops (slots.map Slot.variable) fuel expr_str
      = some (r.map (fun x => x.1.value)) := by
  rw [← evaluate_expression_heap_erase ops slots fuel expr_str h, hr]
  rfl

/-- The step of `execute_step_no_while` with the heap: it ends; without a
fault it moves the program counter forward and leaves the stack empty; and the
only fault left, when the tokens and names fit and the expressions evaluate
without one, is a released block that is read or released again. -/
theorem execute_step_heap_no_while (ops : FloatOps) (efuel : Nat) (script : Script)
    (hnw : ∀ line ∈ script, first_token line ≠ "while".toList)
    (hev : ∀ (slots : List Slot) (h : Heap) (line e : CStr), line ∈ script →
      line_expr line = some e → ∃ r, evaluate_expression_heap ops slots efuel e h = some r)
    (st : HeapState) (hpc : st.pc < script.length) (htop : st.loop_stack_top = -1) :
    ∃ r, execute_step_heap ops efuel script st = some r ∧
      (∀ st1, r = .ok st1 → st1.loop_stack_top = -1 ∧ st.pc < st1.pc ∧
        st1.pc ≤ script.length ∧ st1.trace = st.trace ++ [st.pc] ∧ st1.heap.bad = false) ∧
      (tokens_fit script → (∀ line ∈ script, var_line_ok line) →
        (∀ (slots : List Slot) (h : Heap) (line e : CStr) (f : Fault), line ∈ script →
          line_expr line = some e →
          evaluate_expression_heap ops slots efuel e h ≠ some (.error f)) →
        (∃ st1, r = .ok st1) ∨ r = .error Fault.heap) := by
  have hev1 : ∀ (line e : CStr), line ∈ script → line_expr line = some e →
      ∃ r, evaluate_expression ops st.state.vars efuel e = some r := by
    intro line e hl he
    obtain ⟨r, hr⟩ := hev st.slots st.heap line e hl he
    exact ⟨_, evaluate_expression_heap_some ops st.slots efuel e st.heap r hr⟩
  obtain ⟨r0, h0, ha, hb⟩ := execute_step_no_while ops efuel script hnw st.state hpc htop hev1
  obtain ⟨rh, hrh, hcase⟩ := execute_step_heap_some ops efuel script st r0 h0
  refine ⟨rh, hrh, fun st1 h1 => ?_, fun hfit hvl hok => ?_⟩
  · subst h1
    obtain ⟨e1, e2, e3, e4⟩ := ha st1.state (by
      rcases hcase with hc | hc
      · cases hc
      · exact hc.symm)
    exact ⟨e1, e2, e3, e4, (execute_step_heap_ok ops efuel script st st1 hrh).2⟩
  · rcases hcase with hc | hc
    · exact Or.inr hc
    · obtain ⟨st1, hst1⟩ := hb hfit hvl (fun line e f hl he hbad => by
        obtain ⟨r, hr⟩ := hev st.slots st.heap line e hl he
        have h2 := evaluate_expression_heap_some ops st.slots efuel e st.heap r hr
        have h3 : evaluate_expression ops (st.slots.map Slot.variable) efuel e
            = some (.error f) := hbad
        rw [h2] at h3
        cases r with
        | error f1 =>
          simp only [Except.map, Option.some.injEq, Except.error.injEq] at h3
          subst h3
          exact hok st.slots st.heap line e f1 hl he hr
        | ok x => simp [Except.map] at h3)
      left
      subst hst1
      cases rh with
      | error f => simp [Except.map] at hc
      | ok st2 => exact ⟨st2, rfl⟩

/-- The main loop with the heap on a script without `while`. -/
theorem execute_loop_heap_no_while (ops : FloatOps) (efuel : Nat) (script : Script)
    (hnw : ∀ line ∈ script, first_token line ≠ "while".toList)
    (hev : ∀ (slots : List Slot) (h : Heap) (line e : CStr), line ∈ script →
      line_expr line = some e → ∃ r, evaluate_expression_heap ops slots efuel e h = some r) :
    ∀ (fuel : Nat) (st : HeapState), st.loop_stack_top = -1 → st.pc ≤ script.length →
      script.length - st.pc + 1 ≤ fuel → st.trace.Pairwise (· < ·) →
      (∀ x ∈ st.trace, x < st.pc) → st.trace.length ≤ st.pc →
      ∃ r, execute_loop_heap ops efuel script fuel st = some r ∧
        (∀ st1, r = .ok st1 → st1.trace.Pairwise (· < ·) ∧
          st1.trace.length ≤ script.length ∧ st1.loop_stack_top = -1 ∧
          st1.pc = script.length) ∧
        (tokens_fit script → (∀ line ∈ script, var_line_ok line) →
          (∀ (slots : List Slot) (h : Heap) (line e : CStr) (f : Fault), line ∈ script →
            line_expr line = some e →
            evaluate_expression_heap ops slots efuel e h ≠ some (.error f)) →
          (∃ st1, r = .ok st1) ∨ r = .error Fault.heap) := by
  intro fuel
  induction fuel with
  | zero => intro st _ _ h; omega
  | succ n ih =>
    intro st htop hle hfuel hpw hlt hlen
    by_cases hpc : st.pc < script.length
    · obtain ⟨r0, hs, ha, hb⟩ := execute_step_heap_no_while ops efuel script hnw hev st hpc htop
      cases r0 with
      | error f =>
        refine ⟨.error f, ?_, (fun st1 h => by cases h), fun h1 h2 h3 => ?_⟩
        · rw [execute_loop_heap, if_pos hpc, hs]
        · rcases hb h1 h2 h3 with ⟨st1, h⟩ | h
          · cases h
          · exact Or.inr h
      | ok st1 =>
        obtain ⟨h1, h2, h3, h4, _⟩ := ha st1 rfl
        have hpw1 : st1.trace.Pairwise (· < ·) := by
          rw [h4, List.pairwise_append]
          exact ⟨hpw, List.pairwise_singleton _ _, fun x hx y hy => by
            rw [List.mem_singleton.1 hy]; exact hlt x hx⟩
        have hlt1 : ∀ x ∈ st1.trace, x < st1.pc := by
          intro x hx
          rw [h4, List.mem_append] at hx
          rcases hx with hx | hx
          · exact lt_trans (hlt x hx) h2
          · rw [List.mem_singleton.1 hx]; exact h2
        have hlen1 : st1.trace.length ≤ st1.pc := by
          rw [h4, List.length_append, List.length_singleton]; omega
        obtain ⟨r, e1, e2⟩ := ih st1 h1 h3 (by omega) hpw1 hlt1 hlen1
        refine ⟨r, ?_, e2⟩
        rw [execute_loop_heap, if_pos hpc, hs]
        exact e1
    · refine ⟨.ok st, ?_, fun st1 h => ?_, fun _ _ _ => Or.inl ⟨_, rfl⟩⟩
      · rw [execute_loop_heap, if_neg hpc]
      · cases h
        exact ⟨hpw, by omega, htop, by omega⟩

/-- The expressions of `var_if_script` evaluate with fuel 5 from every table,
none with a fault. -/
theorem var_if_script_evaluates (vs : List Variable) (line e : CStr)
    (hmem : line ∈ var_if_script) (he : line_expr line = some e) :
    ∃ v, evaluate_expression float_free_ops vs 5 e = some (.ok v) := by
  have hm : line = "var x = 0\n".toList ∨ line = "if x\n".toList ∨ line = "print x\n".toList
      ∨ line = "end\n".toList ∨ line = "print 7\n".toList := by
    simpa [var_if_script, script_of] using hmem
  rcases hm with rfl | rfl | rfl | rfl | rfl
  · rw [show line_expr "var x = 0\n".toList = some " 0\n".toList by decide] at he
    cases he
    exact ⟨_, rfl⟩
  · rw [show line_expr "if x\n".toList = some " x\n".toList by decide] at he
    cases he
    exact ⟨get_variable vs ['x'], rfl⟩
  · rw [show line_expr "print x\n".toList = some " x\n".toList by decide] at he
    cases he
    exact ⟨get_variable vs ['x'], rfl⟩
  · rw [show line_expr "end\n".toList = none by decide] at he
    cases he
  · rw [show line_expr "print 7\n".toList = some " 7\n".toList by decide] at he
    cases he
    exact ⟨_, rfl⟩

/-- The same with the heap. -/
theorem var_if_script_evaluates_heap (slots : List Slot) (h : Heap) (line e : CStr)
    (hmem : line ∈ var_if_script) (he : line_expr line = some e) :
    ∃ x, evaluate_expression_heap float_free_ops slots 5 e h = some (.ok x) := by
  obtain ⟨v, hv⟩ := var_if_script_evaluates (slots.map Slot.variable) line e hmem he
  rw [← evaluate_expression_heap_erase float_free_ops slots 5 e h] at hv
  cases hr : evaluate_expression_heap float_free_ops slots 5 e h with
  | none =>
    rw [hr] at hv
    exact absurd hv (by simp)
  | some r =>
    cases r with
    | error f =>
      rw [hr] at hv
      simp [Except.map] at hv
    | ok x => exact ⟨x, rfl⟩

/-- The run of `var_if_script`: the lines 0, 1 and 4 are executed and `7` is
printed. -/
theorem var_if_script_run :
    (execute_script_heap float_free_ops 5 6 var_if_script [] empty_heap).map
        (Except.map (fun st => (st.trace, st.stdout)))
      = some (.ok ([0, 1, 4], "7\n".toList)) :=
  rfl

/-- A run that ends with a fault: in `long_token_script` the condition `a` of
the `if` is Nil, and the scan for its `else` overruns `line_keyword` on the
token of line 1. -/
theorem execute_script_long_token :
    execute_script_heap float_free_ops 5 5 long_token_script [] empty_heap
      = some (.error Fault.overrun) :=
  rfl

end Arl
